import Mathlib

/-!
# Verification of the Blueprint ingestion pipeline and patient scorer

Shallow embedding of the Convex ingestion pipeline (`src/convex/ingest.ts`,
the action-based implementation: `ingestReport` / `createIngestion` /
`clearRowsBatch` / `processRowsBatch` / `finalizeIngestion`), the
patient-health scorer (`src/convex/patientScore.ts`), and the unique-key
derivation of the CSV upload script (`src/scripts/ingest_report.js`).

Conventions of the embedding:
* A JS `Record<string, string>` value is an association list
  `List (String × String)`; JS objects have unique keys, so property
  deletion is modelled as removing every entry with the key, and property
  lookup as first-match lookup (these coincide on unique-key lists).
* Convex document ids are natural numbers drawn from a `nextId` counter in
  the state.  `ctx.db.patch` is modelled as an in-place map over the table
  keyed by id; `ctx.db.delete` removes by id; `ctx.db.insert` appends.
* An index query `.withIndex(...).first()` is modelled as `List.find?`.
* A Convex action runs each `ctx.runMutation` as its own transaction: a
  mutation that throws leaves the state unchanged, but the effects of the
  mutations that already committed persist.  `ingestReport` therefore
  returns the state it reached together with an `Except` result.
* JS numbers appearing as timestamps are `Int`; scorer arithmetic is `Rat`
  (no floating point rounding is involved in the properties proved here:
  all score contributions are exact multiples of 1/100).
-/

/-! ## Row data: JS records as association lists -/

abbrev RecordMap := List (String × String)

/-- `record[k]`: first-match lookup (JS objects have unique keys). -/
def recLookup (r : RecordMap) (k : String) : Option String :=
  (r.find? (fun p => p.1 = k)).map (fun p => p.2)

/-- `record[k] || ""`: lookup with `undefined` collapsed to the empty
string (both are falsy in the JS source). -/
def recLookupD (r : RecordMap) (k : String) : String :=
  (recLookup r k).getD ""

/-- `delete record[k]`: removes the property. -/
def recDelete (r : RecordMap) (k : String) : RecordMap :=
  r.filter (fun p => p.1 ≠ k)

/-! ## `canonicalize` (src/convex/ingest.ts lines 58-66)

`JSON.stringify` of the record rebuilt with its keys sorted. -/

/-- Lowercase hexadecimal digit, as used by `JSON.stringify` in its
`\u` escapes. -/
def hexDigit (n : Nat) : Char :=
  if n < 10 then Char.ofNat (48 + n) else Char.ofNat (87 + n)

/-- JSON string escaping as performed by `JSON.stringify` on the
characters that require it: the two-character shortcuts `\"`, `\\`,
`\b`, `\f`, `\n`, `\r`, `\t`, and a four-digit padded lowercase
`\u00XX` escape for the remaining control characters. -/
def jsonEscapeChar (c : Char) : String :=
  if c = '"' then "\\\""
  else if c = '\\' then "\\\\"
  else if c = '\x08' then "\\b"
  else if c = '\x0c' then "\\f"
  else if c = '\n' then "\\n"
  else if c = '\r' then "\\r"
  else if c = '\t' then "\\t"
  else if c.toNat < 32 then
    "\\u00" ++ String.singleton (hexDigit (c.toNat / 16)) ++
      String.singleton (hexDigit (c.toNat % 16))
  else String.singleton c

def jsonQuote (s : String) : String :=
  "\"" ++ String.join (s.toList.map jsonEscapeChar) ++ "\""

/-- `JSON.stringify` of an object given as an ordered list of entries.
(`\x7b`/`\x7d` are the brace characters.) -/
def jsonStringify (entries : RecordMap) : String :=
  "\x7b" ++
    String.intercalate ","
      (entries.map (fun p => jsonQuote p.1 ++ ":" ++ jsonQuote p.2)) ++
  "\x7d"

/-- `Object.keys(record).sort().reduce(...)`: the record rebuilt in sorted
key order. -/
def sortedEntries (record : RecordMap) : RecordMap :=
  ((record.map (fun p => p.1)).insertionSort (fun a b => a ≤ b)).map
    (fun k => (k, recLookupD record k))

/-- `canonicalize` from src/convex/ingest.ts: stable JSON serialization
with keys sorted, used for change detection. -/
def canonicalize (record : RecordMap) : String :=
  jsonStringify (sortedEntries record)

/-! ## Table configuration and patient-id extraction -/

def CHUNK_SIZE : Nat := 200
def CLEAR_LIMIT : Nat := 200

/-- The four canonical tables of `TABLE_CONFIG`. -/
inductive TargetTable where
  | appointments
  | patientRecalls
  | activePatients
  | salesByIncomeAccount
deriving DecidableEq, Repr

/-- The own keys of `TABLE_CONFIG`: lookup of the target-table string
against the four configured tables. -/
def parseTargetTable (s : String) : Option TargetTable :=
  if s = "appointments" then some .appointments
  else if s = "patientRecalls" then some .patientRecalls
  else if s = "activePatients" then some .activePatients
  else if s = "salesByIncomeAccount" then some .salesByIncomeAccount
  else none

/-- Property names every JS object literal inherits from
`Object.prototype`: `TABLE_CONFIG[k]` yields a truthy (function or
object) value for these even though they are not own keys of the
config, so they pass the `if (!tableName)` check. -/
def OBJECT_PROTOTYPE_KEYS : List String :=
  ["constructor", "hasOwnProperty", "isPrototypeOf",
   "propertyIsEnumerable", "toLocaleString", "toString", "valueOf",
   "__defineGetter__", "__defineSetter__", "__lookupGetter__",
   "__lookupSetter__", "__proto__"]

/-- The value of the JS property read `TABLE_CONFIG[args.targetTable]`:
an own key gives the table-name string; a name inherited from
`Object.prototype` gives a truthy non-string member; anything else is
`undefined`. -/
inductive TableRef where
  | table (t : TargetTable)
  | protoMember
deriving DecidableEq, Repr

def lookupTableConfig (s : String) : Option TableRef :=
  match parseTargetTable s with
  | some t => some (TableRef.table t)
  | none =>
    if s ∈ OBJECT_PROTOTYPE_KEYS then some TableRef.protoMember else none

def PATIENT_ID_KEYS : List String :=
  ["Patient ID", "Patient", "Account Number", "ID", "Reference #"]

def ACTIVE_PATIENT_KEYS : List String :=
  ["Patient", "Patient ID", "Account Number", "ID", "Reference #"]

/-- Loop body of `extractPatientIdForTable`: first key whose value is
present, non-empty, and non-empty after trimming. -/
def firstNonEmptyTrimmed (record : RecordMap) : List String → Option String
  | [] => none
  | k :: ks =>
    match recLookup record k with
    | none => firstNonEmptyTrimmed record ks
    | some v =>
      if v = "" then firstNonEmptyTrimmed record ks
      else if v.trim = "" then firstNonEmptyTrimmed record ks
      else some v.trim

def extractPatientIdForTable (tableName : TargetTable) (record : RecordMap) :
    Option String :=
  let keys := if tableName = .activePatients then ACTIVE_PATIENT_KEYS
              else PATIENT_ID_KEYS
  firstNonEmptyTrimmed record keys

/-! ## Chunking and stats -/

/-- `chunkRows`, with explicit structural fuel so that the kernel can
evaluate it (the JS `for` loop advances `index` by `size = CHUNK_SIZE =
200 ≥ 1` per iteration, so `rows.length` iterations always suffice). -/
def chunkRowsAux (size : Nat) : Nat → List α → List (List α)
  | 0, _ => []
  | _ + 1, [] => []
  | fuel + 1, r :: rs =>
    (r :: rs).take size :: chunkRowsAux size fuel ((r :: rs).drop size)

/-- `chunkRows`: slice the list into chunks of `size`. -/
def chunkRows (rows : List α) (size : Nat) : List (List α) :=
  chunkRowsAux size rows.length rows

structure Stats where
  inserted : Nat
  updated : Nat
  unchanged : Nat
deriving DecidableEq, Repr

/-- `mergeStats`: component-wise accumulation into the running total. -/
def mergeStats (target delta : Stats) : Stats :=
  ⟨target.inserted + delta.inserted,
   target.updated + delta.updated,
   target.unchanged + delta.unchanged⟩

/-! ## Database state -/

structure RowInput where
  rowIndex : Int
  data : RecordMap
deriving DecidableEq, Repr

structure Ingestion where
  id : Nat
  reportName : String
  capturedAt : Int
  sourceKey : String
  rowCount : Nat
deriving DecidableEq, Repr

structure ReportRow where
  id : Nat
  ingestionId : Nat
  reportName : String
  rowIndex : Int
  data : RecordMap
deriving DecidableEq, Repr

structure CanonRecord where
  id : Nat
  uniqueKey : String
  reportName : String
  patientId : Option String
  data : RecordMap
  firstCapturedAt : Int
  lastCapturedAt : Int
  lastIngestionId : Nat
deriving DecidableEq, Repr

/-- The Convex database state touched by the pipeline: the `ingestions`
and `reportRows` tables, the four canonical tables, and the id
allocator. -/
structure St where
  nextId : Nat
  ingestions : List Ingestion
  reportRows : List ReportRow
  appointments : List CanonRecord
  patientRecalls : List CanonRecord
  activePatients : List CanonRecord
  salesByIncomeAccount : List CanonRecord
deriving DecidableEq, Repr

def emptySt : St := ⟨0, [], [], [], [], [], []⟩

def getCanon (s : St) : TargetTable → List CanonRecord
  | .appointments => s.appointments
  | .patientRecalls => s.patientRecalls
  | .activePatients => s.activePatients
  | .salesByIncomeAccount => s.salesByIncomeAccount

def setCanon (s : St) (t : TargetTable) (l : List CanonRecord) : St :=
  match t with
  | .appointments => { s with appointments := l }
  | .patientRecalls => { s with patientRecalls := l }
  | .activePatients => { s with activePatients := l }
  | .salesByIncomeAccount => { s with salesByIncomeAccount := l }

/-! ## The internal mutations -/

/-- `createIngestion`: find the ingestion for `sourceKey`; patch its
metadata (resetting `rowCount` to 0) if present, else insert a fresh one.
Returns `(ingestionId, replaced)`. -/
def createIngestion (reportName : String) (capturedAt : Int)
    (sourceKey : String) (s : St) : St × (Nat × Bool) :=
  match s.ingestions.find? (fun i => i.sourceKey = sourceKey) with
  | some existing =>
    ({ s with
        ingestions := s.ingestions.map (fun i =>
          if i.id = existing.id then
            { i with reportName := reportName, capturedAt := capturedAt,
                     rowCount := 0 }
          else i) },
     (existing.id, true))
  | none =>
    ({ s with
        nextId := s.nextId + 1,
        ingestions := s.ingestions ++
          [⟨s.nextId, reportName, capturedAt, sourceKey, 0⟩] },
     (s.nextId, false))

/-- `clearRowsBatch`: take up to `limit` report rows of the ingestion and
delete each by id; returns how many were taken. -/
def clearRowsBatch (ingestionId limit : Nat) (s : St) : St × Nat :=
  let rows := (s.reportRows.filter (fun r => r.ingestionId = ingestionId)).take limit
  ({ s with
      reportRows := rows.foldl
        (fun acc row => acc.filter (fun r => r.id ≠ row.id)) s.reportRows },
   rows.length)

/-- The `while (true)` driver loop around `clearRowsBatch` in
`ingestReport`, made total with explicit fuel (each productive iteration
deletes at least one row, so `s.reportRows.length + 1` fuel always
suffices). -/
def clearLoop (ingestionId limit : Nat) : Nat → St → St
  | 0, s => s
  | fuel + 1, s =>
    let (s', removed) := clearRowsBatch ingestionId limit s
    if removed = 0 then s'
    else clearLoop ingestionId limit fuel s'

/-- The key a row carries: `rowData.__uniqueKey`, with JS falsiness
(`undefined` or `""`) collapsed to `""`. -/
def rowKey (row : RowInput) : String := recLookupD row.data "__uniqueKey"

/-- The data actually stored for a row: `__uniqueKey` is deleted only when
it is truthy (non-empty). -/
def rowStoredData (row : RowInput) : RecordMap :=
  if rowKey row ≠ "" then recDelete row.data "__uniqueKey" else row.data

/-- Loop body of `processRowsBatch` for a single row: insert the raw
`reportRows` audit copy, then perform at most one canonical-table effect
(insert / update / no-op) classified by comparing `canonicalize` of the
existing record's data against the incoming (stripped) data. -/
def processRow (ingestionId : Nat) (reportName : String) (capturedAt : Int)
    (tbl : TargetTable) (acc : St × Stats) (row : RowInput) : St × Stats :=
  let s := acc.1
  let stats := acc.2
  let uniqueKey := rowKey row
  let rowData := rowStoredData row
  let patientIdValue := extractPatientIdForTable tbl rowData
  let s := { s with
      nextId := s.nextId + 1,
      reportRows := s.reportRows ++
        [⟨s.nextId, ingestionId, reportName, row.rowIndex, rowData⟩] }
  if uniqueKey = "" then (s, stats)
  else
    match (getCanon s tbl).find? (fun c => c.uniqueKey = uniqueKey) with
    | none =>
      (setCanon { s with nextId := s.nextId + 1 } tbl
        (getCanon s tbl ++
          [⟨s.nextId, uniqueKey, reportName, patientIdValue, rowData,
            capturedAt, capturedAt, ingestionId⟩]),
       { stats with inserted := stats.inserted + 1 })
    | some existing =>
      if canonicalize existing.data ≠ canonicalize rowData then
        (setCanon s tbl
          ((getCanon s tbl).map (fun c =>
            if c.id = existing.id then
              { c with reportName := reportName, patientId := patientIdValue,
                       data := rowData, lastCapturedAt := capturedAt,
                       lastIngestionId := ingestionId }
            else c)),
         { stats with updated := stats.updated + 1 })
      else
        (setCanon s tbl
          ((getCanon s tbl).map (fun c =>
            if c.id = existing.id then
              { c with reportName := reportName,
                       patientId := match patientIdValue with
                         | some p => some p
                         | none => existing.patientId,
                       lastCapturedAt := capturedAt,
                       lastIngestionId := ingestionId }
            else c)),
         { stats with unchanged := stats.unchanged + 1 })

/-- The raw `reportRows` insert of the row loop on its own, as executed
when the target-table lookup hit an inherited `Object.prototype` member:
such a batch still writes the audit copy of every row it reaches. -/
def protoRawInsert (ingestionId : Nat) (reportName : String)
    (s : St) (row : RowInput) : St :=
  { s with
      nextId := s.nextId + 1,
      reportRows := s.reportRows ++
        [⟨s.nextId, ingestionId, reportName, row.rowIndex,
          rowStoredData row⟩] }

/-- `processRowsBatch`: the `if (!tableName) throw` check (which an
inherited `Object.prototype` member passes, its value being truthy),
then the row loop.  With an own-key table the loop is the
`processRow` fold; with an inherited member every row still writes its
raw `reportRows` copy and rows without a truthy `__uniqueKey` skip the
canonical stage, but the first row with a truthy key reaches
`ctx.db.query(tableName)` with a non-string table reference, which the
runtime rejects.  An `Except.error` models a thrown — and therefore
rolled-back — mutation. -/
def processRowsBatch (ingestionId : Nat) (reportName : String)
    (capturedAt : Int) (targetTable : String) (rows : List RowInput)
    (s : St) : Except String (St × Stats) :=
  match lookupTableConfig targetTable with
  | none => .error ("Unsupported target table " ++ targetTable ++ ".")
  | some (TableRef.table tbl) =>
    .ok (rows.foldl (processRow ingestionId reportName capturedAt tbl)
      (s, ⟨0, 0, 0⟩))
  | some TableRef.protoMember =>
    if rows.all (fun row => rowKey row = "") then
      .ok (rows.foldl (protoRawInsert ingestionId reportName) s, ⟨0, 0, 0⟩)
    else .error "Invalid table reference."

/-- `finalizeIngestion`: patch the ingestion's `capturedAt`/`rowCount`. -/
def finalizeIngestion (ingestionId : Nat) (capturedAt : Int)
    (rowCount : Nat) (s : St) : St :=
  { s with
      ingestions := s.ingestions.map (fun i =>
        if i.id = ingestionId then
          { i with capturedAt := capturedAt, rowCount := rowCount }
        else i) }

/-- The per-chunk loop of the `ingestReport` action: each chunk is one
`processRowsBatch` transaction; a throw stops the loop but keeps the
state committed so far. -/
def runChunks (ingestionId : Nat) (reportName : String) (capturedAt : Int)
    (targetTable : String) :
    List (List RowInput) → St → Stats → St × Except String Stats
  | [], s, acc => (s, .ok acc)
  | chunk :: rest, s, acc =>
    match processRowsBatch ingestionId reportName capturedAt targetTable
        chunk s with
    | .error e => (s, .error e)
    | .ok (s', delta) =>
      runChunks ingestionId reportName capturedAt targetTable rest s'
        (mergeStats acc delta)

structure IngestArgs where
  reportName : String
  capturedAt : Int
  sourceKey : String
  targetTable : String
  rows : List RowInput
deriving DecidableEq, Repr

structure IngestResult where
  ingestionId : Nat
  stats : Stats
deriving DecidableEq, Repr

/-- The `ingestReport` action: create/replace the ingestion, clear the old
raw rows when replacing, process the rows in chunks of `CHUNK_SIZE`, then
finalize the metadata.  Returns the state reached together with the
result (or the propagated error of a failed mutation). -/
def ingestReport (args : IngestArgs) (s0 : St) : St × Except String IngestResult :=
  let prep := createIngestion args.reportName args.capturedAt
    args.sourceKey s0
  let ingestionId := prep.2.1
  let s2 := if prep.2.2 then
      clearLoop ingestionId CLEAR_LIMIT (prep.1.reportRows.length + 1) prep.1
    else prep.1
  let run := runChunks ingestionId args.reportName args.capturedAt
    args.targetTable (chunkRows args.rows CHUNK_SIZE) s2 ⟨0, 0, 0⟩
  match run.2 with
  | .error e => (run.1, .error e)
  | .ok stats =>
    (finalizeIngestion ingestionId args.capturedAt args.rows.length run.1,
     .ok ⟨ingestionId, stats⟩)

/-! ## Patient health scorer (src/convex/patientScore.ts)

The scorer is a pure function except that `scoreRecency` reads the
current date (`new Date()` truncated to midnight); the embedding makes
that ambient value an explicit `todayMs` parameter.  JS numbers are
modelled as `Rat` (no `NaN` inhabits `Rat`, so the `Number.isNaN` guards
collapse into the `null` case of the `Option`). -/

def MS_PER_DAY : Rat := 24 * 60 * 60 * 1000

structure ScoreInputs where
  patientAgeYears : Option Rat
  deviceAgeYears : Option Rat
  appointmentsCreated24M : Option Rat
  lastAppointmentCompletedMs : Option Rat
  thirdPartyBenefitAmount : Option Rat
  accountValue : Option Rat
deriving DecidableEq, Repr

structure ComponentScore where
  points : Rat
  weight : Rat
  contribution : Rat
deriving DecidableEq, Repr

structure PatientHealthScore where
  total : Rat
  age : ComponentScore
  deviceAge : ComponentScore
  appointments : ComponentScore
  recency : ComponentScore
  benefit : ComponentScore
  accountValue : ComponentScore
deriving DecidableEq, Repr

def weightAge : Rat := 15
def weightDeviceAge : Rat := 25
def weightAppointments : Rat := 15
def weightRecency : Rat := 15
def weightBenefit : Rat := 10
def weightAccountValue : Rat := 20

def clampToPoints (value : Rat) : Rat := max 0 (min 100 value)

def scoreAge : Option Rat → Rat
  | none => 50
  | some ageYears =>
    if ageYears < 80 then 100
    else if ageYears < 90 then 80
    else 50

def scoreDeviceAge : Option Rat → Rat
  | none => 50
  | some deviceAgeYears =>
    if deviceAgeYears ≤ 1 then 10
    else if deviceAgeYears ≤ 3 then 50
    else if deviceAgeYears ≤ 5 then 90
    else 100

def scoreAppointments : Option Rat → Rat
  | none => 40
  | some createdCount =>
    if createdCount ≤ 0 then 20
    else if createdCount = 1 then 60
    else if createdCount ≤ 3 then 90
    else 100

/-- `Math.round`: round half toward positive infinity. -/
def jsRound (x : Rat) : Int := ⌊x + 1 / 2⌋

def scoreRecency (todayMs : Rat) : Option Rat → Rat
  | none => 30
  | some lastCompletedMs =>
    let diffDays : Int := max 0 (jsRound ((todayMs - lastCompletedMs) / MS_PER_DAY))
    if diffDays ≤ 180 then 100
    else if diffDays ≤ 365 then 60
    else if diffDays ≤ 730 then 30
    else 10

def scoreBenefit : Option Rat → Rat
  | none => 50
  | some benefitAmount =>
    if benefitAmount ≥ 2000 then 100
    else if benefitAmount > 0 then 30
    else 50

def scoreAccountValue : Option Rat → Rat
  | none => 40
  | some accountValue =>
    if accountValue < 1000 then 20
    else if accountValue < 3000 then 60
    else if accountValue < 6000 then 85
    else 100

/-- `Number(x.toFixed(2))`: round to two decimal places.  All values this
is applied to in the scorer are non-negative exact multiples of 1/100, on
which half-up rounding and `toFixed`'s rounding agree (and are the
identity). -/
def round2 (x : Rat) : Rat := (⌊x * 100 + 1 / 2⌋ : Int) / 100

/-- `component`: clamp the points and compute the weighted
contribution. -/
def component (points weight : Rat) : ComponentScore :=
  let clamped := clampToPoints points
  ⟨clamped, weight, round2 (clamped / 100 * weight)⟩

def calculatePhScore (todayMs : Rat) (inputs : ScoreInputs) :
    PatientHealthScore :=
  let age := component (scoreAge inputs.patientAgeYears) weightAge
  let deviceAge := component (scoreDeviceAge inputs.deviceAgeYears) weightDeviceAge
  let appointments := component (scoreAppointments inputs.appointmentsCreated24M)
    weightAppointments
  let recency := component (scoreRecency todayMs inputs.lastAppointmentCompletedMs)
    weightRecency
  let benefit := component (scoreBenefit inputs.thirdPartyBenefitAmount)
    weightBenefit
  let accountValueComp := component (scoreAccountValue inputs.accountValue)
    weightAccountValue
  let total := round2 (age.contribution + deviceAge.contribution +
    appointments.contribution + recency.contribution + benefit.contribution +
    accountValueComp.contribution)
  ⟨total, age, deviceAge, appointments, recency, benefit, accountValueComp⟩

/-- All six inputs absent (`score({})`). -/
def nullInputs : ScoreInputs := ⟨none, none, none, none, none, none⟩

/-! ## Unique-key derivation (src/scripts/ingest_report.js)

`buildUniqueKey` hashes report-specific key material with SHA-256.  The
hash itself lives in Node's `crypto` library, outside this repository, so
the definitions take the hash as a function parameter; the claims are
about the material that is hashed. -/

structure ReportConfig where
  targetTable : String
  uniqueKeyColumns : Option (List String)
deriving DecidableEq, Repr

/-- `REPORT_CONFIG` from the upload script. -/
def REPORT_CONFIG : List (String × ReportConfig) :=
  [("Referral Source - Appointments",
    ⟨"appointments",
     some ["Location", "Patient ID", "Appt. date", "Appointment type",
           "Provider"]⟩),
   ("Patient Recalls", ⟨"patientRecalls", none⟩),
   ("All Active Patients", ⟨"activePatients", none⟩),
   ("Campaign export", ⟨"activePatients", none⟩),
   ("Sales by Income Account", ⟨"salesByIncomeAccount", none⟩)]

/-- `buildUniqueKey`: with declared natural-key columns, hash the report
name joined with the lowercased column values; otherwise hash the sorted
`key=value` pairs of the whole row. -/
def buildUniqueKey (sha256 : String → String) (reportName : String)
    (uniqueKeyColumns : Option (List String)) (record : RecordMap) : String :=
  match uniqueKeyColumns with
  | some cols =>
    if cols.length > 0 then
      sha256 (String.intercalate "|"
        (reportName :: cols.map (fun column => (recLookupD record column).toLower)))
    else
      sha256 (String.intercalate "|"
        (((record.map (fun p => p.1)).insertionSort (fun a b => a ≤ b)).map
          (fun key => key ++ "=" ++ recLookupD record key)))
  | none =>
    sha256 (String.intercalate "|"
      (((record.map (fun p => p.1)).insertionSort (fun a b => a ≤ b)).map
        (fun key => key ++ "=" ++ recLookupD record key)))

/-- Modelled from the spec: "the key is sha256(reportName + the separator
+ lowercase(column values joined by the separator))" for reports with a
declared natural key. -/
def specNaturalKey (sha256 : String → String) (reportName : String)
    (cols : List String) (record : RecordMap) : String :=
  sha256 (reportName ++ "|" ++
    String.intercalate "|"
      (cols.map (fun column => (recLookupD record column).toLower)))

/-- Modelled from the spec: "the key is sha256 of all sorted key=value
pairs in the row" for reports without a declared natural key. -/
def specFullRowKey (sha256 : String → String) (record : RecordMap) : String :=
  sha256 (String.intercalate "|"
    (((record.map (fun p => p.1)).insertionSort (fun a b => a ≤ b)).map
      (fun key => key ++ "=" ++ recLookupD record key)))

/-! ## Generic helper lemmas -/

theorem round2_int_div_hundred (z : Int) : round2 ((z : Rat) / 100) = (z : Rat) / 100 := by
  unfold round2
  rw [div_mul_cancel₀ _ (by norm_num : (100 : Rat) ≠ 0)]
  rw [Int.floor_int_add]
  norm_num

theorem component_contribution_shape (p w : Rat) :
    ∃ z : Int, (component p w).contribution = (z : Rat) / 100 :=
  ⟨⌊clampToPoints p / 100 * w * 100 + 1 / 2⌋, rfl⟩

/-! ## C3: the all-null baseline score -/

/-- C3 (counterexample): the claim states that the all-null baseline total
is 44.50; the scorer actually returns 43.50, so the claimed value is
false. -/
theorem calculatePhScore_allNull_ne :
    (calculatePhScore 0 nullInputs).total ≠ 4450 / 100 := by
  norm_num [calculatePhScore, component, round2, clampToPoints, scoreAge,
    scoreDeviceAge, scoreAppointments, scoreRecency, scoreBenefit,
    scoreAccountValue, nullInputs, weightAge, weightDeviceAge,
    weightAppointments, weightRecency, weightBenefit, weightAccountValue]

/-- C3 (amended): calling the scorer with all six inputs null returns the
fixed baseline `50·0.15 + 50·0.25 + 40·0.15 + 30·0.15 + 50·0.10 +
40·0.20`, which equals 43.50 (not 44.50 as claimed). -/
theorem calculatePhScore_allNull_baseline (todayMs : Rat) :
    (calculatePhScore todayMs nullInputs).total =
      50 * (15 / 100) + 50 * (25 / 100) + 40 * (15 / 100) +
        30 * (15 / 100) + 50 * (10 / 100) + 40 * (20 / 100) ∧
    (calculatePhScore todayMs nullInputs).total = 4350 / 100 := by
  constructor <;>
    norm_num [calculatePhScore, component, round2, clampToPoints, scoreAge,
      scoreDeviceAge, scoreAppointments, scoreRecency, scoreBenefit,
      scoreAccountValue, nullInputs, weightAge, weightDeviceAge,
      weightAppointments, weightRecency, weightBenefit, weightAccountValue]

/-! ## C6: monotonicity in `accountValue` -/

/-- C6: the `accountValue` component is monotone non-decreasing in the
documented direction, and raising `accountValue` from 500 to 7000 with the
other five inputs held fixed strictly increases the total score. -/
theorem phScore_accountValue_monotone :
    (∀ a b : Rat, a ≤ b →
      scoreAccountValue (some a) ≤ scoreAccountValue (some b)) ∧
    ∀ (todayMs : Rat) (i : ScoreInputs),
      (calculatePhScore todayMs { i with accountValue := some 500 }).total <
        (calculatePhScore todayMs { i with accountValue := some 7000 }).total := by
  constructor
  · intro a b hab
    simp only [scoreAccountValue]
    split_ifs <;> linarith
  · intro todayMs i
    obtain ⟨z1, h1⟩ := component_contribution_shape (scoreAge i.patientAgeYears) weightAge
    obtain ⟨z2, h2⟩ := component_contribution_shape (scoreDeviceAge i.deviceAgeYears) weightDeviceAge
    obtain ⟨z3, h3⟩ := component_contribution_shape
      (scoreAppointments i.appointmentsCreated24M) weightAppointments
    obtain ⟨z4, h4⟩ := component_contribution_shape
      (scoreRecency todayMs i.lastAppointmentCompletedMs) weightRecency
    obtain ⟨z5, h5⟩ := component_contribution_shape
      (scoreBenefit i.thirdPartyBenefitAmount) weightBenefit
    have hlo : (component (scoreAccountValue (some 500)) weightAccountValue).contribution
        = (400 : Int) / 100 := by
      norm_num [component, clampToPoints, scoreAccountValue, round2,
        weightAccountValue]
    have hhi : (component (scoreAccountValue (some 7000)) weightAccountValue).contribution
        = (2000 : Int) / 100 := by
      norm_num [component, clampToPoints, scoreAccountValue, round2,
        weightAccountValue]
    simp only [calculatePhScore, h1, h2, h3, h4, h5, hlo, hhi]
    have hsumlo : ((z1 : Rat)) / 100 + z2 / 100 + z3 / 100 + z4 / 100 + z5 / 100 +
        ((400 : Int) : Rat) / 100 = ((z1 + z2 + z3 + z4 + z5 + 400 : Int) : Rat) / 100 := by
      push_cast
      ring
    have hsumhi : ((z1 : Rat)) / 100 + z2 / 100 + z3 / 100 + z4 / 100 + z5 / 100 +
        ((2000 : Int) : Rat) / 100 = ((z1 + z2 + z3 + z4 + z5 + 2000 : Int) : Rat) / 100 := by
      push_cast
      ring
    rw [hsumlo, hsumhi, round2_int_div_hundred, round2_int_div_hundred]
    have : ((z1 + z2 + z3 + z4 + z5 + 400 : Int) : Rat) <
        ((z1 + z2 + z3 + z4 + z5 + 2000 : Int) : Rat) := by
      push_cast
      linarith
    exact (div_lt_div_iff_of_pos_right (by norm_num : (0 : Rat) < 100)).mpr this

/-- C6 witness: the monotonicity conjunct applied at 5 ≤ 7, and the strict
increase applied at the all-null inputs. -/
theorem phScore_accountValue_monotone_witness :
    scoreAccountValue (some 5) ≤ scoreAccountValue (some 7) ∧
    (calculatePhScore 0 { nullInputs with accountValue := some 500 }).total <
      (calculatePhScore 0 { nullInputs with accountValue := some 7000 }).total :=
  ⟨phScore_accountValue_monotone.1 5 7 (by norm_num),
   phScore_accountValue_monotone.2 0 nullInputs⟩

/-! ## C5: unique-key derivation of the upload script -/

theorem intercalate_go_append (s : String) :
    ∀ (as : List String) (acc₁ acc₂ : String),
      String.intercalate.go (acc₁ ++ acc₂) s as =
        acc₁ ++ String.intercalate.go acc₂ s as := by
  intro as
  induction as with
  | nil => intro acc₁ acc₂; rfl
  | cons a tl ih =>
    intro acc₁ acc₂
    show String.intercalate.go (acc₁ ++ acc₂ ++ s ++ a) s tl = _
    have : acc₁ ++ acc₂ ++ s ++ a = acc₁ ++ (acc₂ ++ s ++ a) := by
      simp [String.append_assoc]
    rw [this, ih]
    rfl

theorem intercalate_cons_of_ne_nil (s x : String) (xs : List String)
    (h : xs ≠ []) :
    String.intercalate s (x :: xs) = x ++ s ++ String.intercalate s xs := by
  cases xs with
  | nil => exact absurd rfl h
  | cons y ys =>
    show String.intercalate.go x s (y :: ys) = _
    show String.intercalate.go (x ++ s ++ y) s ys = _
    have : x ++ s ++ y = (x ++ s) ++ y := by simp [String.append_assoc]
    rw [this, intercalate_go_append]
    rfl

/-- C5: for a report with a declared (non-empty) list of natural-key
columns, `buildUniqueKey` hashes the report name joined by the pipe
separator with the lowercased column values; for a report without a
natural key it hashes the sorted `key=value` pairs of the whole row —
exactly the two derivations stated in the spec. -/
theorem buildUniqueKey_matches_spec :
    (∀ (sha256 : String → String) (reportName : String) (cols : List String)
        (record : RecordMap), cols ≠ [] →
        buildUniqueKey sha256 reportName (some cols) record =
          specNaturalKey sha256 reportName cols record) ∧
    (∀ (sha256 : String → String) (reportName : String) (record : RecordMap),
        buildUniqueKey sha256 reportName none record =
          specFullRowKey sha256 record) := by
  constructor
  · intro sha256 reportName cols record hcols
    have hlen : cols.length > 0 := List.length_pos.mpr hcols
    have hmap : cols.map (fun column => (recLookupD record column).toLower) ≠ [] := by
      simpa using hcols
    simp only [buildUniqueKey, specNaturalKey, if_pos hlen]
    rw [intercalate_cons_of_ne_nil _ _ _ hmap]
  · intro sha256 reportName record
    rfl

/-- C5 witness: both derivations at the appointments natural-key columns
and at a concrete keyless row. -/
theorem buildUniqueKey_matches_spec_witness :
    buildUniqueKey (fun s => s) "Referral Source - Appointments"
        (some ["Location", "Patient ID", "Appt. date", "Appointment type",
               "Provider"])
        [("Location", "Main"), ("Patient ID", "42")] =
      specNaturalKey (fun s => s) "Referral Source - Appointments"
        ["Location", "Patient ID", "Appt. date", "Appointment type",
         "Provider"]
        [("Location", "Main"), ("Patient ID", "42")] ∧
    buildUniqueKey (fun s => s) "Patient Recalls" none
        [("b", "2"), ("a", "1")] =
      specFullRowKey (fun s => s) [("b", "2"), ("a", "1")] :=
  ⟨buildUniqueKey_matches_spec.1 (fun s => s) "Referral Source - Appointments"
      ["Location", "Patient ID", "Appt. date", "Appointment type", "Provider"]
      [("Location", "Main"), ("Patient ID", "42")] (by decide),
   buildUniqueKey_matches_spec.2 (fun s => s) "Patient Recalls"
      [("b", "2"), ("a", "1")]⟩

/-! ## Concrete runs used as counterexamples -/

/-- A batch whose two rows carry the same `__uniqueKey` with different
payloads. -/
def dupKeyArgs : IngestArgs :=
  ⟨"R", 5, "src1", "appointments",
   [⟨0, [("__uniqueKey", "k"), ("a", "1")]⟩,
    ⟨1, [("__uniqueKey", "k"), ("a", "2")]⟩]⟩

/-- A one-row call whose `targetTable` is outside the known set. -/
def badTableArgs : IngestArgs := ⟨"R", 5, "s", "bogus", [⟨0, [("x", "y")]⟩]⟩

/-- A one-row call whose `__uniqueKey` entry is the empty string. -/
def emptyKeyArgs : IngestArgs :=
  ⟨"R", 5, "s", "appointments", [⟨0, [("__uniqueKey", "")]⟩]⟩

/-- C1 (counterexample): both rows of `dupKeyArgs` carry a `__uniqueKey`
(so the claimed second-run stats are `{0, 0, 2}`), yet re-running the
identical call returns `{inserted := 0, updated := 2, unchanged := 0}`:
within one batch two rows with the same key but different payloads keep
flipping the canonical record, so the second run reports updates, not
no-ops. -/
theorem ingest_rerun_stats_counterexample :
    dupKeyArgs.rows.countP (fun r => decide (rowKey r ≠ "")) = 2 ∧
    (ingestReport dupKeyArgs (ingestReport dupKeyArgs emptySt).1).2 =
      .ok ⟨0, ⟨0, 2, 0⟩⟩ ∧
    (Stats.mk 0 2 0 ≠ Stats.mk 0 0 2) :=
  ⟨rfl, rfl, by decide⟩

/-- C4 (counterexample): a call with unknown `targetTable` and one row
does fail, but only after `createIngestion` has already committed — the
final state contains a freshly created Ingestion record, contradicting
the claim that the failure precedes every write. -/
theorem ingest_badTable_counterexample :
    (ingestReport badTableArgs emptySt).2 =
      .error "Unsupported target table bogus." ∧
    (ingestReport badTableArgs emptySt).1.ingestions =
      [⟨0, "R", 5, "s", 0⟩] ∧
    ([⟨0, "R", 5, "s", 0⟩] : List Ingestion) ≠ [] :=
  ⟨rfl, rfl, by decide⟩

/-- C10 (counterexample): a row whose `__uniqueKey` entry is the empty
string is stored in `reportRows` with the `__uniqueKey` entry intact —
the strip only happens for truthy (non-empty) keys, so stored data maps
can contain a `__uniqueKey` entry. -/
theorem stored_uniqueKey_counterexample :
    (ingestReport emptyKeyArgs emptySt).1.reportRows =
      [⟨1, 0, "R", 0, [("__uniqueKey", "")]⟩] ∧
    recLookup [("__uniqueKey", "")] "__uniqueKey" = some "" :=
  ⟨rfl, rfl⟩

/-! ## Basic state lemmas -/

theorem getCanon_update_misc (s : St) (t : TargetTable) (n : Nat)
    (rr : List ReportRow) :
    getCanon { s with nextId := n, reportRows := rr } t = getCanon s t := by
  cases t <;> rfl

theorem getCanon_update_ingestions (s : St) (t : TargetTable)
    (l : List Ingestion) :
    getCanon { s with ingestions := l } t = getCanon s t := by
  cases t <;> rfl

theorem lookupTableConfig_table (s : String) (t : TargetTable)
    (h : parseTargetTable s = some t) :
    lookupTableConfig s = some (TableRef.table t) := by
  unfold lookupTableConfig
  rw [h]

theorem protoRawInsert_canon (ingestionId : Nat) (reportName : String)
    (s : St) (row : RowInput) (t : TargetTable) :
    getCanon (protoRawInsert ingestionId reportName s row) t =
      getCanon s t := by
  cases t <;> rfl

theorem foldl_protoRawInsert_canon (ingestionId : Nat) (reportName : String) :
    ∀ (rows : List RowInput) (s : St) (t : TargetTable),
      getCanon (rows.foldl (protoRawInsert ingestionId reportName) s) t =
        getCanon s t := by
  intro rows
  induction rows with
  | nil => intro s t; rfl
  | cons r rest ih =>
    intro s t
    rw [List.foldl_cons, ih, protoRawInsert_canon]

theorem protoRawInsert_ingestions (ingestionId : Nat) (reportName : String)
    (s : St) (row : RowInput) :
    (protoRawInsert ingestionId reportName s row).ingestions =
      s.ingestions := rfl

theorem foldl_protoRawInsert_ingestions (ingestionId : Nat)
    (reportName : String) :
    ∀ (rows : List RowInput) (s : St),
      (rows.foldl (protoRawInsert ingestionId reportName) s).ingestions =
        s.ingestions := by
  intro rows
  induction rows with
  | nil => intro s; rfl
  | cons r rest ih =>
    intro s
    rw [List.foldl_cons, ih, protoRawInsert_ingestions]

theorem foldl_protoRawInsert_reportRows (ingestionId : Nat)
    (reportName : String) :
    ∀ (rows : List RowInput) (s : St),
      ∃ tail,
        (rows.foldl (protoRawInsert ingestionId reportName) s).reportRows =
          s.reportRows ++ tail ∧ tail.length = rows.length := by
  intro rows
  induction rows with
  | nil => intro s; exact ⟨[], by simp, rfl⟩
  | cons r rest ih =>
    intro s
    obtain ⟨tail, htail, hlen⟩ :=
      ih (protoRawInsert ingestionId reportName s r)
    refine ⟨⟨s.nextId, ingestionId, reportName, r.rowIndex,
      rowStoredData r⟩ :: tail, ?_, by simp [hlen]⟩
    rw [List.foldl_cons, htail]
    show (s.reportRows ++ [(⟨s.nextId, ingestionId, reportName, r.rowIndex,
      rowStoredData r⟩ : ReportRow)]) ++ tail = _
    rw [List.append_assoc]
    rfl

theorem setCanon_ingestions (s : St) (t : TargetTable) (l : List CanonRecord) :
    (setCanon s t l).ingestions = s.ingestions := by
  cases t <;> rfl

theorem setCanon_reportRows (s : St) (t : TargetTable) (l : List CanonRecord) :
    (setCanon s t l).reportRows = s.reportRows := by
  cases t <;> rfl

theorem setCanon_nextId (s : St) (t : TargetTable) (l : List CanonRecord) :
    (setCanon s t l).nextId = s.nextId := by
  cases t <;> rfl

theorem getCanon_setCanon_same (s : St) (t : TargetTable)
    (l : List CanonRecord) : getCanon (setCanon s t l) t = l := by
  cases t <;> rfl

theorem getCanon_setCanon_other (s : St) (t t' : TargetTable)
    (l : List CanonRecord) (h : t' ≠ t) :
    getCanon (setCanon s t l) t' = getCanon s t' := by
  cases t <;> cases t' <;> simp_all [getCanon, setCanon]

/-! ## Branch equations for `processRow` -/

/-- The state after the raw `reportRows` insert for a row. -/
def afterRawInsert (ingestionId : Nat) (reportName : String) (s : St)
    (row : RowInput) : St :=
  { s with
      nextId := s.nextId + 1,
      reportRows := s.reportRows ++
        [⟨s.nextId, ingestionId, reportName, row.rowIndex, rowStoredData row⟩] }

/-- The canonical record inserted for a previously unseen key. -/
def freshCanonRecord (ingestionId : Nat) (reportName : String)
    (capturedAt : Int) (tbl : TargetTable) (s : St) (row : RowInput) :
    CanonRecord :=
  ⟨s.nextId + 1, rowKey row, reportName,
   extractPatientIdForTable tbl (rowStoredData row), rowStoredData row,
   capturedAt, capturedAt, ingestionId⟩

theorem processRow_empty_key (ingestionId : Nat) (reportName : String)
    (capturedAt : Int) (tbl : TargetTable) (s : St) (stats : Stats)
    (row : RowInput) (hkey : rowKey row = "") :
    processRow ingestionId reportName capturedAt tbl (s, stats) row =
      (afterRawInsert ingestionId reportName s row, stats) := by
  simp [processRow, afterRawInsert, hkey]

theorem processRow_insert (ingestionId : Nat) (reportName : String)
    (capturedAt : Int) (tbl : TargetTable) (s : St) (stats : Stats)
    (row : RowInput) (hkey : rowKey row ≠ "")
    (hfind : (getCanon s tbl).find? (fun c => c.uniqueKey = rowKey row) = none) :
    processRow ingestionId reportName capturedAt tbl (s, stats) row =
      (setCanon
        { afterRawInsert ingestionId reportName s row with nextId := s.nextId + 2 }
        tbl
        (getCanon s tbl ++
          [freshCanonRecord ingestionId reportName capturedAt tbl s row]),
       { stats with inserted := stats.inserted + 1 }) := by
  simp only [processRow, if_neg hkey]
  rw [getCanon_update_misc]
  rw [hfind]
  rfl

theorem processRow_update (ingestionId : Nat) (reportName : String)
    (capturedAt : Int) (tbl : TargetTable) (s : St) (stats : Stats)
    (row : RowInput) (existing : CanonRecord) (hkey : rowKey row ≠ "")
    (hfind : (getCanon s tbl).find? (fun c => c.uniqueKey = rowKey row) =
      some existing)
    (hdiff : canonicalize existing.data ≠ canonicalize (rowStoredData row)) :
    processRow ingestionId reportName capturedAt tbl (s, stats) row =
      (setCanon (afterRawInsert ingestionId reportName s row) tbl
        ((getCanon s tbl).map (fun c =>
          if c.id = existing.id then
            { c with reportName := reportName,
                     patientId := extractPatientIdForTable tbl (rowStoredData row),
                     data := rowStoredData row, lastCapturedAt := capturedAt,
                     lastIngestionId := ingestionId }
          else c)),
       { stats with updated := stats.updated + 1 }) := by
  simp only [processRow, if_neg hkey]
  rw [getCanon_update_misc]
  rw [hfind]
  simp only [if_pos hdiff]
  rw [getCanon_update_misc]
  rfl

theorem processRow_unchanged (ingestionId : Nat) (reportName : String)
    (capturedAt : Int) (tbl : TargetTable) (s : St) (stats : Stats)
    (row : RowInput) (existing : CanonRecord) (hkey : rowKey row ≠ "")
    (hfind : (getCanon s tbl).find? (fun c => c.uniqueKey = rowKey row) =
      some existing)
    (heq : canonicalize existing.data = canonicalize (rowStoredData row)) :
    processRow ingestionId reportName capturedAt tbl (s, stats) row =
      (setCanon (afterRawInsert ingestionId reportName s row) tbl
        ((getCanon s tbl).map (fun c =>
          if c.id = existing.id then
            { c with reportName := reportName,
                     patientId :=
                       match extractPatientIdForTable tbl (rowStoredData row) with
                       | some p => some p
                       | none => existing.patientId,
                     lastCapturedAt := capturedAt,
                     lastIngestionId := ingestionId }
          else c)),
       { stats with unchanged := stats.unchanged + 1 }) := by
  simp only [processRow, if_neg hkey]
  rw [getCanon_update_misc]
  rw [hfind]
  simp only [heq, ne_eq, not_true_eq_false, if_false]
  rw [getCanon_update_misc]
  rfl

/-! ## Patch lemmas: id-keyed patches preserve keys (and data, for the
no-op patch) -/

theorem find?_key_map_patch (l : List CanonRecord) (k : String)
    (g : CanonRecord → CanonRecord)
    (hg : ∀ c, (g c).uniqueKey = c.uniqueKey) :
    (l.map g).find? (fun c => c.uniqueKey = k) =
      (l.find? (fun c => c.uniqueKey = k)).map g := by
  induction l with
  | nil => rfl
  | cons a tl ih =>
    by_cases h : a.uniqueKey = k
    · rw [List.map_cons, List.find?_cons_of_pos, List.find?_cons_of_pos]
      · rfl
      · simpa using h
      · simpa using (hg a).trans h
    · rw [List.map_cons, List.find?_cons_of_neg, List.find?_cons_of_neg, ih]
      · simpa using h
      · simpa using fun hc => h ((hg a).symm.trans hc)

theorem map_key_data_patch (l : List CanonRecord)
    (g : CanonRecord → CanonRecord)
    (hg : ∀ c, (g c).uniqueKey = c.uniqueKey ∧ (g c).data = c.data) :
    (l.map g).map (fun c => (c.uniqueKey, c.data)) =
      l.map (fun c => (c.uniqueKey, c.data)) := by
  rw [List.map_map]
  apply List.map_congr_left
  intro a _
  simp [Function.comp, (hg a).1, (hg a).2]

theorem map_key_patch (l : List CanonRecord)
    (g : CanonRecord → CanonRecord)
    (hg : ∀ c, (g c).uniqueKey = c.uniqueKey) :
    (l.map g).map (fun c => c.uniqueKey) = l.map (fun c => c.uniqueKey) := by
  rw [List.map_map]
  apply List.map_congr_left
  intro a _
  simp [Function.comp, hg a]

/-- The key classification of a single row, shared by several claim
theorems below. -/
theorem processRow_spec (ingestionId : Nat) (reportName : String)
    (capturedAt : Int) (tbl : TargetTable) (s : St) (stats : Stats)
    (row : RowInput) (hkey : rowKey row ≠ "") :
    ∃ s' stats',
      processRow ingestionId reportName capturedAt tbl (s, stats) row =
        (s', stats') ∧
      stats'.inserted + stats'.updated + stats'.unchanged =
        stats.inserted + stats.updated + stats.unchanged + 1 ∧
      ((getCanon s tbl).find? (fun c => c.uniqueKey = rowKey row) = none →
        stats' = { stats with inserted := stats.inserted + 1 } ∧
        getCanon s' tbl = getCanon s tbl ++
          [freshCanonRecord ingestionId reportName capturedAt tbl s row]) ∧
      (∀ existing,
        (getCanon s tbl).find? (fun c => c.uniqueKey = rowKey row) =
          some existing →
        canonicalize existing.data ≠ canonicalize (rowStoredData row) →
        stats' = { stats with updated := stats.updated + 1 } ∧
        (getCanon s' tbl).length = (getCanon s tbl).length ∧
        ((getCanon s' tbl).find? (fun c => c.uniqueKey = rowKey row)).map
          (fun c => c.data) = some (rowStoredData row)) ∧
      (∀ existing,
        (getCanon s tbl).find? (fun c => c.uniqueKey = rowKey row) =
          some existing →
        canonicalize existing.data = canonicalize (rowStoredData row) →
        stats' = { stats with unchanged := stats.unchanged + 1 } ∧
        (getCanon s' tbl).map (fun c => (c.uniqueKey, c.data)) =
          (getCanon s tbl).map (fun c => (c.uniqueKey, c.data))) := by
  cases hfind : (getCanon s tbl).find? (fun c => c.uniqueKey = rowKey row) with
  | none =>
    rw [processRow_insert ingestionId reportName capturedAt tbl s stats row
      hkey hfind]
    refine ⟨_, _, rfl, by simp only [Stats.mk.injEq]; omega, fun _ => ⟨rfl, ?_⟩, ?_, ?_⟩
    · rw [getCanon_setCanon_same]
    · intro existing hex
      simp at hex
    · intro existing hex
      simp at hex
  | some existing =>
    by_cases hdiff :
        canonicalize existing.data ≠ canonicalize (rowStoredData row)
    · rw [processRow_update ingestionId reportName capturedAt tbl s stats row
        existing hkey hfind hdiff]
      refine ⟨_, _, rfl, by simp only [Stats.mk.injEq]; omega, ?_, ?_, ?_⟩
      · intro hnone
        simp at hnone
      · intro ex2 hex2 _
        have hex : ex2 = existing := (Option.some_inj.mp hex2).symm
        subst hex
        refine ⟨rfl, ?_, ?_⟩
        · rw [getCanon_setCanon_same, List.length_map]
        · rw [getCanon_setCanon_same]
          rw [find?_key_map_patch _ _ _ (fun c => by
            by_cases hc : c.id = ex2.id <;> simp [hc])]
          rw [hfind]
          simp
      · intro ex2 hex2 heq
        have hex : ex2 = existing := (Option.some_inj.mp hex2).symm
        subst hex
        exact absurd heq hdiff
    · push_neg at hdiff
      rw [processRow_unchanged ingestionId reportName capturedAt tbl s stats
        row existing hkey hfind hdiff]
      refine ⟨_, _, rfl, by simp only [Stats.mk.injEq]; omega, ?_, ?_, ?_⟩
      · intro hnone
        simp at hnone
      · intro ex2 hex2 hne
        have hex : ex2 = existing := (Option.some_inj.mp hex2).symm
        subst hex
        exact absurd hdiff hne
      · intro ex2 hex2 _
        refine ⟨rfl, ?_⟩
        rw [getCanon_setCanon_same]
        exact map_key_data_patch _ _ (fun c => by
          by_cases hc : c.id = existing.id <;> simp [hc])

/-! ## C2: exactly one canonical effect per keyed row -/

/-- C2: every row whose (stripped) `__uniqueKey` is non-empty produces
exactly one canonical-table effect — insert when no record with that key
exists, update when the sorted-key JSON serialization of the stored data
differs as a string from that of the incoming (stripped) data, and no-op
when the serializations coincide — counted in `inserted` / `updated` /
`unchanged` respectively. -/
theorem processRow_classification (ingestionId : Nat) (reportName : String)
    (capturedAt : Int) (tbl : TargetTable) (s : St) (stats : Stats)
    (row : RowInput) (hkey : rowKey row ≠ "") :
    ∃ s' stats',
      processRow ingestionId reportName capturedAt tbl (s, stats) row =
        (s', stats') ∧
      stats'.inserted + stats'.updated + stats'.unchanged =
        stats.inserted + stats.updated + stats.unchanged + 1 ∧
      ((getCanon s tbl).find? (fun c => c.uniqueKey = rowKey row) = none →
        stats' = { stats with inserted := stats.inserted + 1 } ∧
        getCanon s' tbl = getCanon s tbl ++
          [freshCanonRecord ingestionId reportName capturedAt tbl s row]) ∧
      (∀ existing,
        (getCanon s tbl).find? (fun c => c.uniqueKey = rowKey row) =
          some existing →
        canonicalize existing.data ≠ canonicalize (rowStoredData row) →
        stats' = { stats with updated := stats.updated + 1 } ∧
        (getCanon s' tbl).length = (getCanon s tbl).length ∧
        ((getCanon s' tbl).find? (fun c => c.uniqueKey = rowKey row)).map
          (fun c => c.data) = some (rowStoredData row)) ∧
      (∀ existing,
        (getCanon s tbl).find? (fun c => c.uniqueKey = rowKey row) =
          some existing →
        canonicalize existing.data = canonicalize (rowStoredData row) →
        stats' = { stats with unchanged := stats.unchanged + 1 } ∧
        (getCanon s' tbl).map (fun c => (c.uniqueKey, c.data)) =
          (getCanon s tbl).map (fun c => (c.uniqueKey, c.data))) :=
  processRow_spec ingestionId reportName capturedAt tbl s stats row hkey

/-- C2 witness: the classification applied to a concrete keyed row over
the empty state. -/
theorem processRow_classification_witness :
    rowKey ⟨0, [("__uniqueKey", "k"), ("a", "1")]⟩ ≠ "" ∧
    ∃ s' stats',
      processRow 0 "R" 5 TargetTable.appointments (emptySt, ⟨0, 0, 0⟩)
          ⟨0, [("__uniqueKey", "k"), ("a", "1")]⟩ = (s', stats') ∧
      stats'.inserted + stats'.updated + stats'.unchanged =
        (Stats.mk 0 0 0).inserted + (Stats.mk 0 0 0).updated +
          (Stats.mk 0 0 0).unchanged + 1 ∧
      ((getCanon emptySt .appointments).find?
          (fun c => c.uniqueKey = rowKey ⟨0, [("__uniqueKey", "k"), ("a", "1")]⟩)
            = none →
        stats' = { Stats.mk 0 0 0 with inserted := (Stats.mk 0 0 0).inserted + 1 } ∧
        getCanon s' .appointments = getCanon emptySt .appointments ++
          [freshCanonRecord 0 "R" 5 .appointments emptySt
            ⟨0, [("__uniqueKey", "k"), ("a", "1")]⟩]) ∧
      (∀ existing,
        (getCanon emptySt .appointments).find?
          (fun c => c.uniqueKey = rowKey ⟨0, [("__uniqueKey", "k"), ("a", "1")]⟩)
            = some existing →
        canonicalize existing.data ≠
          canonicalize (rowStoredData ⟨0, [("__uniqueKey", "k"), ("a", "1")]⟩) →
        stats' = { Stats.mk 0 0 0 with updated := (Stats.mk 0 0 0).updated + 1 } ∧
        (getCanon s' .appointments).length =
          (getCanon emptySt .appointments).length ∧
        ((getCanon s' .appointments).find?
          (fun c => c.uniqueKey = rowKey ⟨0, [("__uniqueKey", "k"), ("a", "1")]⟩)).map
            (fun c => c.data) =
          some (rowStoredData ⟨0, [("__uniqueKey", "k"), ("a", "1")]⟩)) ∧
      (∀ existing,
        (getCanon emptySt .appointments).find?
          (fun c => c.uniqueKey = rowKey ⟨0, [("__uniqueKey", "k"), ("a", "1")]⟩)
            = some existing →
        canonicalize existing.data =
          canonicalize (rowStoredData ⟨0, [("__uniqueKey", "k"), ("a", "1")]⟩) →
        stats' = { Stats.mk 0 0 0 with unchanged := (Stats.mk 0 0 0).unchanged + 1 } ∧
        (getCanon s' .appointments).map (fun c => (c.uniqueKey, c.data)) =
          (getCanon emptySt .appointments).map (fun c => (c.uniqueKey, c.data))) :=
  ⟨by decide,
   processRow_classification 0 "R" 5 .appointments emptySt ⟨0, 0, 0⟩
     ⟨0, [("__uniqueKey", "k"), ("a", "1")]⟩ (by decide)⟩

/-! ## C10: stripping of the reserved `__uniqueKey` entry -/

/-- No canonical record's stored data contains a `__uniqueKey` entry. -/
def CanonClean (s : St) : Prop :=
  ∀ t : TargetTable, ∀ c ∈ getCanon s t, recLookup c.data "__uniqueKey" = none

theorem recLookup_recDelete_self (r : RecordMap) (k : String) :
    recLookup (recDelete r k) k = none := by
  induction r with
  | nil => rfl
  | cons p tl ih =>
    by_cases hp : p.1 = k
    · simpa [recDelete, hp] using ih
    · simpa [recDelete, recLookup, hp] using ih

theorem rowStoredData_clean (row : RowInput) (hkey : rowKey row ≠ "") :
    recLookup (rowStoredData row) "__uniqueKey" = none := by
  rw [rowStoredData, if_pos hkey]
  exact recLookup_recDelete_self _ _

theorem processRow_canon_other (ingestionId : Nat) (reportName : String)
    (capturedAt : Int) (tbl : TargetTable) (acc : St × Stats)
    (row : RowInput) (t : TargetTable) (ht : t ≠ tbl) :
    getCanon (processRow ingestionId reportName capturedAt tbl acc row).1 t =
      getCanon acc.1 t := by
  obtain ⟨s, stats⟩ := acc
  by_cases hkey : rowKey row = ""
  · rw [processRow_empty_key _ _ _ _ _ _ _ hkey]
    exact getCanon_update_misc _ _ _ _
  · cases hfind : (getCanon s tbl).find? (fun c => c.uniqueKey = rowKey row) with
    | none =>
      rw [processRow_insert _ _ _ _ _ _ _ hkey hfind]
      rw [getCanon_setCanon_other _ _ _ _ ht]
      exact (getCanon_update_misc _ _ _ _).trans (getCanon_update_misc _ _ _ _)
    | some existing =>
      by_cases hdiff :
          canonicalize existing.data ≠ canonicalize (rowStoredData row)
      · rw [processRow_update _ _ _ _ _ _ _ _ hkey hfind hdiff]
        rw [getCanon_setCanon_other _ _ _ _ ht]
        exact getCanon_update_misc _ _ _ _
      · push_neg at hdiff
        rw [processRow_unchanged _ _ _ _ _ _ _ _ hkey hfind hdiff]
        rw [getCanon_setCanon_other _ _ _ _ ht]
        exact getCanon_update_misc _ _ _ _

theorem processRow_clean (ingestionId : Nat) (reportName : String)
    (capturedAt : Int) (tbl : TargetTable) (acc : St × Stats)
    (row : RowInput) (h : CanonClean acc.1) :
    CanonClean (processRow ingestionId reportName capturedAt tbl acc row).1 := by
  obtain ⟨s, stats⟩ := acc
  intro t c hc
  by_cases ht : t = tbl
  · subst ht
    by_cases hkey : rowKey row = ""
    · rw [processRow_empty_key _ _ _ _ _ _ _ hkey] at hc
      rw [getCanon_update_misc] at hc
      exact h t c hc
    · cases hfind : (getCanon s t).find? (fun c => c.uniqueKey = rowKey row) with
      | none =>
        rw [processRow_insert _ _ _ _ _ _ _ hkey hfind] at hc
        rw [getCanon_setCanon_same] at hc
        rcases List.mem_append.mp hc with hold | hnew
        · exact h t c (by simpa [getCanon_update_misc] using hold)
        · have : c = freshCanonRecord ingestionId reportName capturedAt t s row := by
            simpa using hnew
          subst this
          exact rowStoredData_clean row hkey
      | some existing =>
        by_cases hdiff :
            canonicalize existing.data ≠ canonicalize (rowStoredData row)
        · rw [processRow_update _ _ _ _ _ _ _ _ hkey hfind hdiff] at hc
          rw [getCanon_setCanon_same] at hc
          obtain ⟨c₀, hc₀, hmap⟩ := List.mem_map.mp hc
          by_cases hid : c₀.id = existing.id
          · rw [if_pos hid] at hmap
            subst hmap
            exact rowStoredData_clean row hkey
          · rw [if_neg hid] at hmap
            subst hmap
            exact h t c₀ hc₀
        · push_neg at hdiff
          rw [processRow_unchanged _ _ _ _ _ _ _ _ hkey hfind hdiff] at hc
          rw [getCanon_setCanon_same] at hc
          obtain ⟨c₀, hc₀, hmap⟩ := List.mem_map.mp hc
          by_cases hid : c₀.id = existing.id
          · rw [if_pos hid] at hmap
            subst hmap
            exact h t c₀ hc₀
          · rw [if_neg hid] at hmap
            subst hmap
            exact h t c₀ hc₀
  · rw [processRow_canon_other _ _ _ _ _ _ _ ht] at hc
    exact h t c hc

theorem foldl_processRow_clean (ingestionId : Nat) (reportName : String)
    (capturedAt : Int) (tbl : TargetTable) (rows : List RowInput) :
    ∀ (acc : St × Stats), CanonClean acc.1 →
      CanonClean (rows.foldl
        (processRow ingestionId reportName capturedAt tbl) acc).1 := by
  induction rows with
  | nil => intro acc h; exact h
  | cons r rest ih =>
    intro acc h
    exact ih _ (processRow_clean _ _ _ _ _ _ h)

theorem createIngestion_canon (reportName : String) (capturedAt : Int)
    (sourceKey : String) (s : St) (t : TargetTable) :
    getCanon (createIngestion reportName capturedAt sourceKey s).1 t =
      getCanon s t := by
  unfold createIngestion
  cases s.ingestions.find? (fun i => i.sourceKey = sourceKey) <;>
    cases t <;> rfl

theorem createIngestion_reportRows (reportName : String) (capturedAt : Int)
    (sourceKey : String) (s : St) :
    (createIngestion reportName capturedAt sourceKey s).1.reportRows =
      s.reportRows := by
  unfold createIngestion
  cases s.ingestions.find? (fun i => i.sourceKey = sourceKey) <;> rfl

theorem clearRowsBatch_canon (ingestionId limit : Nat) (s : St)
    (t : TargetTable) :
    getCanon (clearRowsBatch ingestionId limit s).1 t = getCanon s t := by
  cases t <;> rfl

theorem clearRowsBatch_ingestions (ingestionId limit : Nat) (s : St) :
    (clearRowsBatch ingestionId limit s).1.ingestions = s.ingestions := rfl

theorem clearLoop_canon (ingestionId limit : Nat) :
    ∀ (fuel : Nat) (s : St) (t : TargetTable),
      getCanon (clearLoop ingestionId limit fuel s) t = getCanon s t := by
  intro fuel
  induction fuel with
  | zero => intro s t; rfl
  | succ n ih =>
    intro s t
    show getCanon
      (if (clearRowsBatch ingestionId limit s).2 = 0
        then (clearRowsBatch ingestionId limit s).1
        else clearLoop ingestionId limit n (clearRowsBatch ingestionId limit s).1) t
        = getCanon s t
    split
    · exact clearRowsBatch_canon _ _ _ _
    · exact (ih _ t).trans (clearRowsBatch_canon _ _ _ _)

theorem clearLoop_ingestions (ingestionId limit : Nat) :
    ∀ (fuel : Nat) (s : St),
      (clearLoop ingestionId limit fuel s).ingestions = s.ingestions := by
  intro fuel
  induction fuel with
  | zero => intro s; rfl
  | succ n ih =>
    intro s
    show (if (clearRowsBatch ingestionId limit s).2 = 0
        then (clearRowsBatch ingestionId limit s).1
        else clearLoop ingestionId limit n (clearRowsBatch ingestionId limit s).1).ingestions
        = s.ingestions
    split
    · rfl
    · exact (ih _).trans rfl

theorem finalizeIngestion_canon (ingestionId : Nat) (capturedAt : Int)
    (rowCount : Nat) (s : St) (t : TargetTable) :
    getCanon (finalizeIngestion ingestionId capturedAt rowCount s) t =
      getCanon s t := by
  cases t <;> rfl

theorem finalizeIngestion_reportRows (ingestionId : Nat) (capturedAt : Int)
    (rowCount : Nat) (s : St) :
    (finalizeIngestion ingestionId capturedAt rowCount s).reportRows =
      s.reportRows := rfl

theorem runChunks_clean (ingestionId : Nat) (reportName : String)
    (capturedAt : Int) (targetTable : String) :
    ∀ (chunks : List (List RowInput)) (s : St) (acc : Stats),
      CanonClean s →
      CanonClean (runChunks ingestionId reportName capturedAt targetTable
        chunks s acc).1 := by
  intro chunks
  induction chunks with
  | nil => intro s acc h; exact h
  | cons chunk rest ih =>
    intro s acc h
    show CanonClean (match processRowsBatch ingestionId reportName capturedAt
        targetTable chunk s with
      | .error e => (s, Except.error e)
      | .ok (s', delta) => runChunks ingestionId reportName capturedAt
          targetTable rest s' (mergeStats acc delta)).1
    unfold processRowsBatch
    cases hlook : lookupTableConfig targetTable with
    | none => exact h
    | some ref =>
      cases ref with
      | table tbl => exact ih _ _ (foldl_processRow_clean _ _ _ _ _ _ h)
      | protoMember =>
        by_cases hall : (chunk.all fun row => rowKey row = "") = true
        · rw [if_pos hall]
          exact ih _ _ (fun t c hc =>
            h t c (by rwa [foldl_protoRawInsert_canon] at hc))
        · rw [if_neg hall]
          exact h

theorem ingestReport_clean (args : IngestArgs) (s : St) (h : CanonClean s) :
    CanonClean (ingestReport args s).1 := by
  unfold ingestReport
  set s1 := (createIngestion args.reportName args.capturedAt args.sourceKey s).1 with hs1
  have h1 : CanonClean s1 := fun t c hc =>
    h t c (by rwa [createIngestion_canon] at hc)
  set s2 := if (createIngestion args.reportName args.capturedAt args.sourceKey s).2.2
      then clearLoop (createIngestion args.reportName args.capturedAt args.sourceKey s).2.1
        CLEAR_LIMIT (s1.reportRows.length + 1) s1
      else s1 with hs2
  have h2 : CanonClean s2 := by
    rw [hs2]
    split
    · exact fun t c hc => h1 t c (by rwa [clearLoop_canon] at hc)
    · exact h1
  have h3 := runChunks_clean (createIngestion args.reportName args.capturedAt
    args.sourceKey s).2.1 args.reportName args.capturedAt args.targetTable
    (chunkRows args.rows CHUNK_SIZE) s2 ⟨0, 0, 0⟩ h2
  cases hrun : runChunks (createIngestion args.reportName args.capturedAt
      args.sourceKey s).2.1 args.reportName args.capturedAt args.targetTable
      (chunkRows args.rows CHUNK_SIZE) s2 ⟨0, 0, 0⟩ with
  | mk s3 res =>
    rw [hrun] at h3
    cases res with
    | error e => simpa [hrun] using h3
    | ok stats =>
      simp only [hrun]
      exact fun t c hc => h3 t c (by rwa [finalizeIngestion_canon] at hc)

theorem processRow_reportRows (ingestionId : Nat) (reportName : String)
    (capturedAt : Int) (tbl : TargetTable) (acc : St × Stats)
    (row : RowInput) :
    (processRow ingestionId reportName capturedAt tbl acc row).1.reportRows =
      acc.1.reportRows ++
        [⟨acc.1.nextId, ingestionId, reportName, row.rowIndex,
          rowStoredData row⟩] := by
  obtain ⟨s, stats⟩ := acc
  by_cases hkey : rowKey row = ""
  · rw [processRow_empty_key _ _ _ _ _ _ _ hkey]
    rfl
  · cases hfind : (getCanon s tbl).find? (fun c => c.uniqueKey = rowKey row) with
    | none =>
      rw [processRow_insert _ _ _ _ _ _ _ hkey hfind]
      rw [setCanon_reportRows]
      rfl
    | some existing =>
      by_cases hdiff :
          canonicalize existing.data ≠ canonicalize (rowStoredData row)
      · rw [processRow_update _ _ _ _ _ _ _ _ hkey hfind hdiff]
        rw [setCanon_reportRows]
        rfl
      · push_neg at hdiff
        rw [processRow_unchanged _ _ _ _ _ _ _ _ hkey hfind hdiff]
        rw [setCanon_reportRows]
        rfl

/-- C10 (amended): for every row whose `__uniqueKey` is non-empty the
stored `reportRows` copy (and any canonical write, by the clean
invariant) carries the input data minus the `__uniqueKey` entry, and no
canonical-table record ever contains a `__uniqueKey` entry; however a row
whose `__uniqueKey` entry is the *empty string* is stored in `reportRows`
with the entry intact (see the counterexample), so the stripping is
conditional on a truthy key, not unconditional. -/
theorem uniqueKey_stripping :
    (∀ (args : IngestArgs) (s : St), CanonClean s →
      CanonClean (ingestReport args s).1) ∧
    (∀ (ingestionId : Nat) (reportName : String) (capturedAt : Int)
        (tbl : TargetTable) (acc : St × Stats) (row : RowInput),
      rowKey row ≠ "" →
      (processRow ingestionId reportName capturedAt tbl acc row).1.reportRows =
        acc.1.reportRows ++
          [⟨acc.1.nextId, ingestionId, reportName, row.rowIndex,
            recDelete row.data "__uniqueKey"⟩]) := by
  constructor
  · exact fun args s h => ingestReport_clean args s h
  · intro ingestionId reportName capturedAt tbl acc row hkey
    rw [processRow_reportRows]
    rw [rowStoredData, if_pos hkey]

/-- C10 witness: the clean invariant holds after a concrete run from the
empty state, and a concrete keyed row is stored stripped. -/
theorem uniqueKey_stripping_witness :
    CanonClean (ingestReport dupKeyArgs emptySt).1 ∧
    (processRow 0 "R" 5 TargetTable.appointments (emptySt, ⟨0, 0, 0⟩)
        ⟨0, [("__uniqueKey", "k"), ("a", "1")]⟩).1.reportRows =
      emptySt.reportRows ++
        [⟨emptySt.nextId, 0, "R", (0 : Int),
          recDelete [("__uniqueKey", "k"), ("a", "1")] "__uniqueKey"⟩] :=
  ⟨uniqueKey_stripping.1 dupKeyArgs emptySt
    (fun t c hc => by cases t <;> simp [getCanon, emptySt] at hc),
   uniqueKey_stripping.2 0 "R" 5 .appointments (emptySt, ⟨0, 0, 0⟩)
    ⟨0, [("__uniqueKey", "k"), ("a", "1")]⟩ (by decide)⟩

/-! ## C4: unknown target table -/

theorem foldl_filter_sublist (taken : List ReportRow) :
    ∀ init : List ReportRow,
      (taken.foldl (fun acc row => acc.filter (fun r => r.id ≠ row.id))
        init).Sublist init := by
  induction taken with
  | nil => intro init; exact List.Sublist.refl init
  | cons a tl ih =>
    intro init
    exact (ih _).trans (List.filter_sublist init)

theorem clearRowsBatch_reportRows_sublist (ingestionId limit : Nat) (s : St) :
    (clearRowsBatch ingestionId limit s).1.reportRows.Sublist s.reportRows :=
  foldl_filter_sublist _ _

theorem clearLoop_reportRows_sublist (ingestionId limit : Nat) :
    ∀ (fuel : Nat) (s : St),
      (clearLoop ingestionId limit fuel s).reportRows.Sublist s.reportRows := by
  intro fuel
  induction fuel with
  | zero => intro s; exact List.Sublist.refl _
  | succ n ih =>
    intro s
    show (if (clearRowsBatch ingestionId limit s).2 = 0
        then (clearRowsBatch ingestionId limit s).1
        else clearLoop ingestionId limit n
          (clearRowsBatch ingestionId limit s).1).reportRows.Sublist s.reportRows
    split
    · exact clearRowsBatch_reportRows_sublist _ _ _
    · exact (ih _).trans (clearRowsBatch_reportRows_sublist _ _ _)

theorem createIngestion_mem (reportName : String) (capturedAt : Int)
    (sourceKey : String) (s : St) :
    ∃ i ∈ (createIngestion reportName capturedAt sourceKey s).1.ingestions,
      i.sourceKey = sourceKey ∧ i.reportName = reportName ∧
      i.capturedAt = capturedAt := by
  unfold createIngestion
  cases hfind : s.ingestions.find? (fun i => i.sourceKey = sourceKey) with
  | none =>
    refine ⟨⟨s.nextId, reportName, capturedAt, sourceKey, 0⟩, ?_, rfl, rfl, rfl⟩
    simp
  | some ex =>
    have hmem : ex ∈ s.ingestions := List.mem_of_find?_eq_some hfind
    have hsk : ex.sourceKey = sourceKey := by
      have := List.find?_some hfind
      simpa using this
    refine ⟨{ ex with reportName := reportName, capturedAt := capturedAt,
                      rowCount := 0 }, ?_, hsk, rfl, rfl⟩
    have hin := List.mem_map_of_mem (fun i =>
      if i.id = ex.id then
        { i with reportName := reportName, capturedAt := capturedAt,
                 rowCount := 0 }
      else i) hmem
    simpa using hin

theorem chunkRows_nil (size : Nat) : chunkRows ([] : List α) size = [] := rfl

theorem chunkRows_cons (r : α) (rs : List α) (size : Nat) :
    chunkRows (r :: rs) size =
      (r :: rs).take size :: chunkRowsAux size rs.length ((r :: rs).drop size) :=
  rfl

theorem runChunks_error_of_bad (ingestionId : Nat) (reportName : String)
    (capturedAt : Int) (targetTable : String)
    (hbad : lookupTableConfig targetTable = none)
    (chunk : List RowInput) (rest : List (List RowInput)) (s : St)
    (acc : Stats) :
    runChunks ingestionId reportName capturedAt targetTable
      (chunk :: rest) s acc =
      (s, .error ("Unsupported target table " ++ targetTable ++ ".")) := by
  show (match processRowsBatch ingestionId reportName capturedAt targetTable
      chunk s with
    | .error e => (s, Except.error e)
    | .ok (s', delta) => runChunks ingestionId reportName capturedAt
        targetTable rest s' (mergeStats acc delta)) = _
  unfold processRowsBatch
  rw [hbad]

theorem finalizeIngestion_mem (ingestionId : Nat) (cap : Int) (rc : Nat)
    (s : St) (sk rn : String)
    (h : ∃ i ∈ s.ingestions,
      i.sourceKey = sk ∧ i.reportName = rn ∧ i.capturedAt = cap) :
    ∃ i ∈ (finalizeIngestion ingestionId cap rc s).ingestions,
      i.sourceKey = sk ∧ i.reportName = rn ∧ i.capturedAt = cap := by
  obtain ⟨i, hi, h1, h2, h3⟩ := h
  refine ⟨(fun i => if i.id = ingestionId then
      { i with capturedAt := cap, rowCount := rc } else i) i,
    List.mem_map_of_mem _ hi, ?_⟩
  by_cases hid : i.id = ingestionId <;> simp [hid, h1, h2, h3]

theorem runChunks_nil (ingestionId : Nat) (reportName : String)
    (capturedAt : Int) (targetTable : String) (s : St) (acc : Stats) :
    runChunks ingestionId reportName capturedAt targetTable [] s acc =
      (s, .ok acc) := rfl


/-! ## C8: the pipeline never deletes a canonical record -/

/-- `l'` keeps every canonical key of `l`, in order, possibly appending
new ones. -/
def KeysExtend (l l' : List CanonRecord) : Prop :=
  ∃ tail, l'.map (fun c => c.uniqueKey) = l.map (fun c => c.uniqueKey) ++ tail

theorem KeysExtend.refl (l : List CanonRecord) : KeysExtend l l :=
  ⟨[], by simp⟩

theorem KeysExtend.trans {a b c : List CanonRecord}
    (h1 : KeysExtend a b) (h2 : KeysExtend b c) : KeysExtend a c := by
  obtain ⟨t1, h1⟩ := h1
  obtain ⟨t2, h2⟩ := h2
  exact ⟨t1 ++ t2, by rw [h2, h1, List.append_assoc]⟩

theorem KeysExtend.of_eq {a b : List CanonRecord} (h : b = a) :
    KeysExtend a b := h ▸ KeysExtend.refl a

theorem processRow_keysExtend (ingestionId : Nat) (reportName : String)
    (capturedAt : Int) (tbl : TargetTable) (acc : St × Stats)
    (row : RowInput) (t : TargetTable) :
    KeysExtend (getCanon acc.1 t)
      (getCanon (processRow ingestionId reportName capturedAt tbl acc row).1 t) := by
  by_cases ht : t = tbl
  · subst ht
    obtain ⟨s, stats⟩ := acc
    by_cases hkey : rowKey row = ""
    · rw [processRow_empty_key _ _ _ _ _ _ _ hkey]
      exact .of_eq (getCanon_update_misc _ _ _ _)
    · cases hfind : (getCanon s t).find? (fun c => c.uniqueKey = rowKey row) with
      | none =>
        rw [processRow_insert _ _ _ _ _ _ _ hkey hfind]
        rw [getCanon_setCanon_same]
        exact ⟨[rowKey row], by simp [freshCanonRecord]⟩
      | some existing =>
        by_cases hdiff :
            canonicalize existing.data ≠ canonicalize (rowStoredData row)
        · rw [processRow_update _ _ _ _ _ _ _ _ hkey hfind hdiff]
          rw [getCanon_setCanon_same]
          refine ⟨[], ?_⟩
          rw [List.append_nil]
          exact map_key_patch _ _ (fun c => by
            by_cases hc : c.id = existing.id <;> simp [hc])
        · push_neg at hdiff
          rw [processRow_unchanged _ _ _ _ _ _ _ _ hkey hfind hdiff]
          rw [getCanon_setCanon_same]
          refine ⟨[], ?_⟩
          rw [List.append_nil]
          exact map_key_patch _ _ (fun c => by
            by_cases hc : c.id = existing.id <;> simp [hc])
  · exact .of_eq (processRow_canon_other _ _ _ _ _ _ _ ht)

theorem foldl_processRow_keysExtend (ingestionId : Nat) (reportName : String)
    (capturedAt : Int) (tbl : TargetTable) (rows : List RowInput)
    (t : TargetTable) :
    ∀ acc : St × Stats,
      KeysExtend (getCanon acc.1 t)
        (getCanon (rows.foldl
          (processRow ingestionId reportName capturedAt tbl) acc).1 t) := by
  induction rows with
  | nil => intro acc; exact KeysExtend.refl _
  | cons r rest ih =>
    intro acc
    exact (processRow_keysExtend ingestionId reportName capturedAt tbl acc r
      t).trans (ih _)

theorem runChunks_keysExtend (ingestionId : Nat) (reportName : String)
    (capturedAt : Int) (targetTable : String) (t : TargetTable) :
    ∀ (chunks : List (List RowInput)) (s : St) (acc : Stats),
      KeysExtend (getCanon s t)
        (getCanon (runChunks ingestionId reportName capturedAt targetTable
          chunks s acc).1 t) := by
  intro chunks
  induction chunks with
  | nil => intro s acc; exact KeysExtend.refl _
  | cons chunk rest ih =>
    intro s acc
    show KeysExtend _ (getCanon (match processRowsBatch ingestionId reportName
        capturedAt targetTable chunk s with
      | .error e => (s, Except.error e)
      | .ok (s', delta) => runChunks ingestionId reportName capturedAt
          targetTable rest s' (mergeStats acc delta)).1 t)
    unfold processRowsBatch
    cases hlook : lookupTableConfig targetTable with
    | none => exact KeysExtend.refl _
    | some ref =>
      cases ref with
      | table tbl =>
        exact (foldl_processRow_keysExtend ingestionId reportName capturedAt
          tbl chunk t (s, ⟨0, 0, 0⟩)).trans (ih _ _)
      | protoMember =>
        by_cases hall : (chunk.all fun row => rowKey row = "") = true
        · rw [if_pos hall]
          have hih := ih (chunk.foldl (protoRawInsert ingestionId reportName) s)
            (mergeStats acc ⟨0, 0, 0⟩)
          rwa [foldl_protoRawInsert_canon] at hih
        · rw [if_neg hall]
          exact KeysExtend.refl _

/-- C8: no run of the ingestion pipeline deletes a canonical record: the
key sequence of every canonical table before the call is an initial
segment of the key sequence afterwards, so the canonical count never
decreases and every previously present `uniqueKey` is still present. -/
theorem canonical_never_deleted (args : IngestArgs) (s : St)
    (t : TargetTable) :
    (∃ tail, (getCanon (ingestReport args s).1 t).map (fun c => c.uniqueKey) =
      (getCanon s t).map (fun c => c.uniqueKey) ++ tail) ∧
    (getCanon s t).length ≤ (getCanon (ingestReport args s).1 t).length ∧
    ∀ c ∈ getCanon s t, ∃ c' ∈ getCanon (ingestReport args s).1 t,
      c'.uniqueKey = c.uniqueKey := by
  have hext : KeysExtend (getCanon s t) (getCanon (ingestReport args s).1 t) := by
    simp only [ingestReport]
    set prep := createIngestion args.reportName args.capturedAt args.sourceKey s
      with hprep
    set s2 := if prep.2.2 = true
        then clearLoop prep.2.1 CLEAR_LIMIT (prep.1.reportRows.length + 1) prep.1
        else prep.1 with hs2
    have h2 : getCanon s2 t = getCanon s t := by
      rw [hs2]
      split
      · rw [clearLoop_canon, hprep, createIngestion_canon]
      · rw [hprep, createIngestion_canon]
    have hrun := runChunks_keysExtend prep.2.1 args.reportName args.capturedAt
      args.targetTable t (chunkRows args.rows CHUNK_SIZE) s2 ⟨0, 0, 0⟩
    rw [h2] at hrun
    cases hres : (runChunks prep.2.1 args.reportName args.capturedAt
        args.targetTable (chunkRows args.rows CHUNK_SIZE) s2 ⟨0, 0, 0⟩).2 with
    | error e =>
      simp only [hres]
      exact hrun
    | ok stats =>
      simp only [hres]
      exact hrun.trans (.of_eq (finalizeIngestion_canon _ _ _ _ _))
  obtain ⟨tail, htail⟩ := hext
  refine ⟨⟨tail, htail⟩, ?_, ?_⟩
  · have := congrArg List.length htail
    simp only [List.length_map, List.length_append] at this
    omega
  · intro c hc
    have hkey : c.uniqueKey ∈ (getCanon (ingestReport args s).1 t).map
        (fun c => c.uniqueKey) := by
      rw [htail]
      exact List.mem_append_left _ (List.mem_map_of_mem _ hc)
    obtain ⟨c', hc', hck⟩ := List.mem_map.mp hkey
    exact ⟨c', hc', hck⟩

/-! ## Chunking is invisible: processing the chunks equals processing the
row list -/

theorem chunkRowsAux_flatten (size : Nat) (hsize : size ≠ 0) :
    ∀ (fuel : Nat) (rows : List α), rows.length ≤ fuel →
      (chunkRowsAux size fuel rows).flatten = rows := by
  intro fuel
  induction fuel with
  | zero =>
    intro rows h
    rw [List.length_eq_zero.mp (Nat.le_zero.mp h)]
    rfl
  | succ n ih =>
    intro rows h
    cases rows with
    | nil => rfl
    | cons r rs =>
      show ((r :: rs).take size :: chunkRowsAux size n ((r :: rs).drop size)).flatten
        = r :: rs
      rw [List.flatten_cons]
      rw [ih ((r :: rs).drop size) (by
        simp only [List.length_drop, List.length_cons]
        simp only [List.length_cons] at h
        omega)]
      exact List.take_append_drop size (r :: rs)

theorem chunkRows_flatten (rows : List α) (size : Nat) (hsize : size ≠ 0) :
    (chunkRows rows size).flatten = rows :=
  chunkRowsAux_flatten size hsize rows.length rows (Nat.le_refl _)

theorem mergeStats_zero_left (s : Stats) : mergeStats ⟨0, 0, 0⟩ s = s := by
  simp [mergeStats]

theorem mergeStats_zero_right (s : Stats) : mergeStats s ⟨0, 0, 0⟩ = s := by
  simp [mergeStats]

theorem mergeStats_assoc (a b c : Stats) :
    mergeStats (mergeStats a b) c = mergeStats a (mergeStats b c) := by
  simp [mergeStats, Nat.add_assoc]

/-- The state part of a row step does not depend on the running stats,
and the stats part only accumulates. -/
theorem processRow_stats_split (ingestionId : Nat) (reportName : String)
    (capturedAt : Int) (tbl : TargetTable) (acc : St × Stats)
    (row : RowInput) :
    processRow ingestionId reportName capturedAt tbl acc row =
      ((processRow ingestionId reportName capturedAt tbl (acc.1, ⟨0, 0, 0⟩) row).1,
       mergeStats acc.2
         (processRow ingestionId reportName capturedAt tbl (acc.1, ⟨0, 0, 0⟩) row).2) := by
  obtain ⟨s, stats⟩ := acc
  by_cases hkey : rowKey row = ""
  · rw [processRow_empty_key _ _ _ _ _ _ _ hkey,
      processRow_empty_key _ _ _ _ _ _ _ hkey]
    simp [mergeStats]
  · cases hfind : (getCanon s tbl).find? (fun c => c.uniqueKey = rowKey row) with
    | none =>
      rw [processRow_insert _ _ _ _ _ _ _ hkey hfind,
        processRow_insert _ _ _ _ _ _ _ hkey hfind]
      simp [mergeStats]
    | some existing =>
      by_cases hdiff :
          canonicalize existing.data ≠ canonicalize (rowStoredData row)
      · rw [processRow_update _ _ _ _ _ _ _ _ hkey hfind hdiff,
          processRow_update _ _ _ _ _ _ _ _ hkey hfind hdiff]
        simp [mergeStats]
      · push_neg at hdiff
        rw [processRow_unchanged _ _ _ _ _ _ _ _ hkey hfind hdiff,
          processRow_unchanged _ _ _ _ _ _ _ _ hkey hfind hdiff]
        simp [mergeStats]

theorem foldl_processRow_stats_split (ingestionId : Nat) (reportName : String)
    (capturedAt : Int) (tbl : TargetTable) (rows : List RowInput) :
    ∀ acc : St × Stats,
      rows.foldl (processRow ingestionId reportName capturedAt tbl) acc =
      ((rows.foldl (processRow ingestionId reportName capturedAt tbl)
          (acc.1, ⟨0, 0, 0⟩)).1,
       mergeStats acc.2
         (rows.foldl (processRow ingestionId reportName capturedAt tbl)
           (acc.1, ⟨0, 0, 0⟩)).2) := by
  induction rows with
  | nil =>
    intro acc
    simp [mergeStats]
  | cons r rest ih =>
    intro acc
    simp only [List.foldl_cons]
    rw [processRow_stats_split _ _ _ _ acc r]
    rw [ih ((processRow ingestionId reportName capturedAt tbl
        (acc.1, ⟨0, 0, 0⟩) r).1,
      mergeStats acc.2 (processRow ingestionId reportName capturedAt tbl
        (acc.1, ⟨0, 0, 0⟩) r).2)]
    rw [ih (processRow ingestionId reportName capturedAt tbl
      (acc.1, ⟨0, 0, 0⟩) r)]
    dsimp only
    rw [mergeStats_assoc]

theorem runChunks_eq_fold (ingestionId : Nat) (reportName : String)
    (capturedAt : Int) (targetTable : String) (tbl : TargetTable)
    (hparse : parseTargetTable targetTable = some tbl) :
    ∀ (chunks : List (List RowInput)) (s : St) (acc : Stats),
      runChunks ingestionId reportName capturedAt targetTable chunks s acc =
        ((chunks.flatten.foldl (processRow ingestionId reportName capturedAt tbl)
            (s, ⟨0, 0, 0⟩)).1,
         .ok (mergeStats acc
           (chunks.flatten.foldl (processRow ingestionId reportName capturedAt tbl)
             (s, ⟨0, 0, 0⟩)).2)) := by
  intro chunks
  induction chunks with
  | nil =>
    intro s acc
    show (s, Except.ok acc) = _
    simp [mergeStats]
  | cons chunk rest ih =>
    intro s acc
    show (match processRowsBatch ingestionId reportName capturedAt targetTable
        chunk s with
      | .error e => (s, Except.error e)
      | .ok (s', delta) => runChunks ingestionId reportName capturedAt
          targetTable rest s' (mergeStats acc delta)) = _
    unfold processRowsBatch
    rw [lookupTableConfig_table _ _ hparse]
    show runChunks ingestionId reportName capturedAt targetTable rest
      (chunk.foldl (processRow ingestionId reportName capturedAt tbl)
        (s, ⟨0, 0, 0⟩)).1
      (mergeStats acc
        (chunk.foldl (processRow ingestionId reportName capturedAt tbl)
          (s, ⟨0, 0, 0⟩)).2) = _
    rw [ih]
    rw [List.flatten_cons]
    rw [List.foldl_append]
    rw [foldl_processRow_stats_split ingestionId reportName capturedAt tbl
      rest.flatten (chunk.foldl (processRow ingestionId reportName capturedAt tbl)
        (s, ⟨0, 0, 0⟩))]
    rw [mergeStats_assoc]

/-- The state reached after `createIngestion` and the row-clearing loop,
just before the row batches run. -/
def preState (args : IngestArgs) (s : St) : St :=
  let prep := createIngestion args.reportName args.capturedAt args.sourceKey s
  if prep.2.2 then
    clearLoop prep.2.1 CLEAR_LIMIT (prep.1.reportRows.length + 1) prep.1
  else prep.1

/-- On a known target table, `ingestReport` is `createIngestion` + clear,
a single left fold of `processRow` over all rows, and `finalizeIngestion`;
the chunking is invisible. -/
theorem ingestReport_valid (args : IngestArgs) (s : St) (tbl : TargetTable)
    (hparse : parseTargetTable args.targetTable = some tbl) :
    ingestReport args s =
      (finalizeIngestion
        (createIngestion args.reportName args.capturedAt args.sourceKey s).2.1
        args.capturedAt args.rows.length
        (args.rows.foldl
          (processRow
            (createIngestion args.reportName args.capturedAt args.sourceKey s).2.1
            args.reportName args.capturedAt tbl)
          (preState args s, ⟨0, 0, 0⟩)).1,
       .ok ⟨(createIngestion args.reportName args.capturedAt args.sourceKey s).2.1,
            (args.rows.foldl
              (processRow
                (createIngestion args.reportName args.capturedAt args.sourceKey s).2.1
                args.reportName args.capturedAt tbl)
              (preState args s, ⟨0, 0, 0⟩)).2⟩) := by
  simp only [ingestReport]
  rw [runChunks_eq_fold _ _ _ _ tbl hparse]
  rw [chunkRows_flatten args.rows CHUNK_SIZE (by decide)]
  rw [mergeStats_zero_left]
  rfl

/-- With a target-table string hitting an inherited `Object.prototype`
member and every row key-less, the chunk loop only accumulates the raw
audit copies and succeeds. -/
theorem runChunks_proto (ingestionId : Nat) (reportName : String)
    (capturedAt : Int) (targetTable : String)
    (hproto : lookupTableConfig targetTable = some TableRef.protoMember) :
    ∀ (chunks : List (List RowInput)) (s : St) (acc : Stats),
      (∀ chunk ∈ chunks, ∀ row ∈ chunk, rowKey row = "") →
      runChunks ingestionId reportName capturedAt targetTable chunks s acc =
        (chunks.flatten.foldl (protoRawInsert ingestionId reportName) s,
         .ok acc) := by
  intro chunks
  induction chunks with
  | nil =>
    intro s acc _
    rfl
  | cons chunk rest ih =>
    intro s acc hkeys
    show (match processRowsBatch ingestionId reportName capturedAt targetTable
        chunk s with
      | .error e => (s, Except.error e)
      | .ok (s', delta) => runChunks ingestionId reportName capturedAt
          targetTable rest s' (mergeStats acc delta)) = _
    unfold processRowsBatch
    rw [hproto]
    rw [if_pos (List.all_eq_true.mpr (fun row hrow =>
      decide_eq_true (hkeys chunk (List.mem_cons_self _ _) row hrow)))]
    show runChunks ingestionId reportName capturedAt targetTable rest
      (chunk.foldl (protoRawInsert ingestionId reportName) s)
      (mergeStats acc ⟨0, 0, 0⟩) = _
    rw [mergeStats_zero_right]
    rw [ih _ _ (fun c hc row hrow =>
      hkeys c (List.mem_cons_of_mem _ hc) row hrow)]
    rw [List.flatten_cons, List.foldl_append]

/-- A target table that resolves to an inherited `Object.prototype`
member passes the truthiness check, so a call whose rows all lack a
truthy `__uniqueKey` goes through: it writes the raw copies of every
row and finalizes, never touching a canonical table. -/
theorem ingestReport_proto (args : IngestArgs) (s : St)
    (hproto : lookupTableConfig args.targetTable = some TableRef.protoMember)
    (hkeys : ∀ row ∈ args.rows, rowKey row = "") :
    ingestReport args s =
      (finalizeIngestion
        (createIngestion args.reportName args.capturedAt args.sourceKey s).2.1
        args.capturedAt args.rows.length
        (args.rows.foldl
          (protoRawInsert
            (createIngestion args.reportName args.capturedAt args.sourceKey s).2.1
            args.reportName)
          (preState args s)),
       .ok ⟨(createIngestion args.reportName args.capturedAt args.sourceKey s).2.1,
            ⟨0, 0, 0⟩⟩) := by
  have hall : ∀ chunk ∈ chunkRows args.rows CHUNK_SIZE,
      ∀ row ∈ chunk, rowKey row = "" := by
    intro chunk hc row hrow
    apply hkeys
    have hmem : row ∈ (chunkRows args.rows CHUNK_SIZE).flatten :=
      List.mem_flatten.mpr ⟨chunk, hc, hrow⟩
    rwa [chunkRows_flatten args.rows CHUNK_SIZE (by decide)] at hmem
  simp only [ingestReport]
  rw [runChunks_proto _ _ _ _ hproto _ _ _ hall]
  rw [chunkRows_flatten args.rows CHUNK_SIZE (by decide)]
  rfl

/-! ## Well-formedness of canonical ids, and `find?` tracking -/

/-- Canonical-table ids are distinct and below the allocator. -/
def CanonWF (s : St) : Prop :=
  ∀ t : TargetTable, ((getCanon s t).map (fun c => c.id)).Nodup ∧
    ∀ c ∈ getCanon s t, c.id < s.nextId

theorem canonWF_of_eq {s s' : St}
    (hc : ∀ t, getCanon s' t = getCanon s t) (hn : s.nextId ≤ s'.nextId)
    (h : CanonWF s) : CanonWF s' := by
  intro t
  rw [hc t]
  exact ⟨(h t).1, fun c hm => Nat.lt_of_lt_of_le ((h t).2 c hm) hn⟩

theorem map_id_patch (l : List CanonRecord) (g : CanonRecord → CanonRecord)
    (hg : ∀ c, (g c).id = c.id) :
    (l.map g).map (fun c => c.id) = l.map (fun c => c.id) := by
  rw [List.map_map]
  apply List.map_congr_left
  intro a _
  simp [Function.comp, hg a]

theorem find?_append_some {l₁ l₂ : List CanonRecord}
    {p : CanonRecord → Bool} {c : CanonRecord} (h : l₁.find? p = some c) :
    (l₁ ++ l₂).find? p = some c := by
  induction l₁ with
  | nil => simp at h
  | cons a tl ih =>
    rw [List.cons_append, List.find?_cons]
    rw [List.find?_cons] at h
    cases hp : p a with
    | true => simpa [hp] using h
    | false =>
      rw [hp] at h
      simpa using ih h

theorem find?_append_none {l₁ l₂ : List CanonRecord}
    {p : CanonRecord → Bool} (h : l₁.find? p = none) :
    (l₁ ++ l₂).find? p = l₂.find? p := by
  induction l₁ with
  | nil => rfl
  | cons a tl ih =>
    rw [List.cons_append, List.find?_cons]
    rw [List.find?_cons] at h
    cases hp : p a with
    | true => simp [hp] at h
    | false =>
      rw [hp] at h
      simpa using ih h

theorem processRow_nextId_le (ingestionId : Nat) (reportName : String)
    (capturedAt : Int) (tbl : TargetTable) (acc : St × Stats)
    (row : RowInput) :
    acc.1.nextId ≤
      (processRow ingestionId reportName capturedAt tbl acc row).1.nextId := by
  obtain ⟨s, stats⟩ := acc
  show s.nextId ≤ _
  by_cases hkey : rowKey row = ""
  · rw [processRow_empty_key _ _ _ _ _ _ _ hkey]
    exact Nat.le_succ _
  · cases hfind : (getCanon s tbl).find? (fun c => c.uniqueKey = rowKey row) with
    | none =>
      rw [processRow_insert _ _ _ _ _ _ _ hkey hfind]
      rw [setCanon_nextId]
      show s.nextId ≤ s.nextId + 2
      omega
    | some existing =>
      by_cases hdiff :
          canonicalize existing.data ≠ canonicalize (rowStoredData row)
      · rw [processRow_update _ _ _ _ _ _ _ _ hkey hfind hdiff]
        rw [setCanon_nextId]
        exact Nat.le_succ _
      · push_neg at hdiff
        rw [processRow_unchanged _ _ _ _ _ _ _ _ hkey hfind hdiff]
        rw [setCanon_nextId]
        exact Nat.le_succ _

theorem processRow_canonWF (ingestionId : Nat) (reportName : String)
    (capturedAt : Int) (tbl : TargetTable) (acc : St × Stats)
    (row : RowInput) (hwf : CanonWF acc.1) :
    CanonWF (processRow ingestionId reportName capturedAt tbl acc row).1 := by
  obtain ⟨s, stats⟩ := acc
  replace hwf : CanonWF s := hwf
  by_cases hkey : rowKey row = ""
  · rw [processRow_empty_key _ _ _ _ _ _ _ hkey]
    exact canonWF_of_eq (fun t => getCanon_update_misc _ _ _ _)
      (Nat.le_succ _) hwf
  · cases hfind : (getCanon s tbl).find? (fun c => c.uniqueKey = rowKey row) with
    | none =>
      rw [processRow_insert _ _ _ _ _ _ _ hkey hfind]
      intro t
      rw [setCanon_nextId]
      by_cases ht : t = tbl
      · subst ht
        rw [getCanon_setCanon_same]
        constructor
        · rw [List.map_append]
          rw [List.nodup_append]
          refine ⟨(hwf t).1, by simp [freshCanonRecord], ?_⟩
          intro i hi
          simp only [List.map_cons, List.map_nil, freshCanonRecord,
            List.mem_singleton]
          obtain ⟨c, hc, hci⟩ := List.mem_map.mp hi
          intro hcontra
          have := (hwf t).2 c hc
          omega
        · intro c hc
          show c.id < s.nextId + 2
          rcases List.mem_append.mp hc with hold | hnew
          · have := (hwf t).2 c hold
            omega
          · have : c = freshCanonRecord ingestionId reportName capturedAt
                t s row := by simpa using hnew
            subst this
            simp [freshCanonRecord]
      · rw [getCanon_setCanon_other _ _ _ _ ht, getCanon_update_misc]
        refine ⟨(hwf t).1, fun c hm => ?_⟩
        have := (hwf t).2 c hm
        show c.id < s.nextId + 2
        omega
    | some existing =>
      have hpatch : ∀ (g : CanonRecord → CanonRecord), (∀ c, (g c).id = c.id) →
          CanonWF (setCanon (afterRawInsert ingestionId reportName s row) tbl
            ((getCanon s tbl).map g)) := by
        intro g hg t
        rw [setCanon_nextId]
        by_cases ht : t = tbl
        · subst ht
          rw [getCanon_setCanon_same]
          constructor
          · rw [map_id_patch _ _ hg]
            exact (hwf t).1
          · intro c hc
            obtain ⟨c₀, hc₀, hmap⟩ := List.mem_map.mp hc
            have := (hwf t).2 c₀ hc₀
            have hid : c.id = c₀.id := by rw [← hmap, hg]
            simp only [afterRawInsert]
            omega
        · rw [getCanon_setCanon_other _ _ _ _ ht, getCanon_update_misc]
          refine ⟨(hwf t).1, fun c hm => ?_⟩
          have := (hwf t).2 c hm
          simp only [afterRawInsert]
          omega
      by_cases hdiff :
          canonicalize existing.data ≠ canonicalize (rowStoredData row)
      · rw [processRow_update _ _ _ _ _ _ _ _ hkey hfind hdiff]
        exact hpatch _ (fun c => by by_cases hc : c.id = existing.id <;> simp [hc])
      · push_neg at hdiff
        rw [processRow_unchanged _ _ _ _ _ _ _ _ hkey hfind hdiff]
        exact hpatch _ (fun c => by by_cases hc : c.id = existing.id <;> simp [hc])

theorem foldl_processRow_canonWF (ingestionId : Nat) (reportName : String)
    (capturedAt : Int) (tbl : TargetTable) (rows : List RowInput) :
    ∀ acc : St × Stats, CanonWF acc.1 →
      CanonWF (rows.foldl
        (processRow ingestionId reportName capturedAt tbl) acc).1 := by
  induction rows with
  | nil => intro acc h; exact h
  | cons r rest ih =>
    intro acc h
    exact ih _ (processRow_canonWF _ _ _ _ _ _ h)

/-- After processing a keyed row, the row's own key maps to a record whose
data is content-equal to the row's stripped data and whose
`lastCapturedAt` is the call's `capturedAt`. -/
theorem processRow_self_find (ingestionId : Nat) (reportName : String)
    (capturedAt : Int) (tbl : TargetTable) (s : St) (stats : Stats)
    (row : RowInput) (hkey : rowKey row ≠ "") :
    ∃ c', (getCanon (processRow ingestionId reportName capturedAt tbl
        (s, stats) row).1 tbl).find? (fun x => x.uniqueKey = rowKey row) =
          some c' ∧
      canonicalize c'.data = canonicalize (rowStoredData row) ∧
      c'.lastCapturedAt = capturedAt ∧ c'.uniqueKey = rowKey row := by
  cases hfind : (getCanon s tbl).find? (fun c => c.uniqueKey = rowKey row) with
  | none =>
    rw [processRow_insert _ _ _ _ _ _ _ hkey hfind]
    rw [getCanon_setCanon_same]
    refine ⟨freshCanonRecord ingestionId reportName capturedAt tbl s row,
      ?_, rfl, rfl, rfl⟩
    rw [find?_append_none hfind]
    simp [freshCanonRecord]
  | some existing =>
    have hex : existing.uniqueKey = rowKey row := by
      have := List.find?_some hfind
      simpa using this
    by_cases hdiff :
        canonicalize existing.data ≠ canonicalize (rowStoredData row)
    · rw [processRow_update _ _ _ _ _ _ _ _ hkey hfind hdiff]
      rw [getCanon_setCanon_same]
      rw [find?_key_map_patch _ _ _ (fun c => by
        by_cases hc : c.id = existing.id <;> simp [hc])]
      rw [hfind]
      refine ⟨_, rfl, ?_⟩
      simp [hex]
    · push_neg at hdiff
      rw [processRow_unchanged _ _ _ _ _ _ _ _ hkey hfind hdiff]
      rw [getCanon_setCanon_same]
      rw [find?_key_map_patch _ _ _ (fun c => by
        by_cases hc : c.id = existing.id <;> simp [hc])]
      rw [hfind]
      refine ⟨_, rfl, ?_⟩
      simp [hex, hdiff]

/-- Tracking a canonical record with key `k` through one row step: its
identity and `firstCapturedAt` are preserved; a row with the same key
refreshes `lastCapturedAt` and leaves content-equal data; any other row
leaves it untouched. -/
theorem processRow_track (ingestionId : Nat) (reportName : String)
    (capturedAt : Int) (tbl : TargetTable) (s : St) (stats : Stats)
    (row : RowInput) (k : String) (c : CanonRecord) (hk : k ≠ "")
    (hwf : CanonWF s)
    (hfind : (getCanon s tbl).find? (fun x => x.uniqueKey = k) = some c) :
    ∃ c', (getCanon (processRow ingestionId reportName capturedAt tbl
        (s, stats) row).1 tbl).find? (fun x => x.uniqueKey = k) = some c' ∧
      c'.id = c.id ∧ c'.uniqueKey = c.uniqueKey ∧
      c'.firstCapturedAt = c.firstCapturedAt ∧
      (rowKey row = k →
        c'.lastCapturedAt = capturedAt ∧
        canonicalize c'.data = canonicalize (rowStoredData row)) ∧
      (rowKey row ≠ k →
        c'.lastCapturedAt = c.lastCapturedAt ∧ c'.data = c.data) := by
  have hck : c.uniqueKey = k := by
    have := List.find?_some hfind
    simpa using this
  by_cases hkeyrow : rowKey row = ""
  · rw [processRow_empty_key _ _ _ _ _ _ _ hkeyrow]
    rw [getCanon_update_misc]
    exact ⟨c, hfind, rfl, rfl, rfl,
      fun hkr => absurd (hkr.symm.trans hkeyrow) hk,
      fun _ => ⟨rfl, rfl⟩⟩
  · by_cases hkr : rowKey row = k
    · subst hkr
      by_cases hdiff :
          canonicalize c.data ≠ canonicalize (rowStoredData row)
      · rw [processRow_update _ _ _ _ _ _ _ _ hkeyrow hfind hdiff]
        rw [getCanon_setCanon_same]
        rw [find?_key_map_patch _ _ _ (fun x => by
          by_cases hx : x.id = c.id <;> simp [hx])]
        rw [hfind]
        exact ⟨_, rfl, by simp, by simp, by simp,
          fun _ => ⟨by simp, by simp⟩, fun h => absurd rfl h⟩
      · push_neg at hdiff
        rw [processRow_unchanged _ _ _ _ _ _ _ _ hkeyrow hfind hdiff]
        rw [getCanon_setCanon_same]
        rw [find?_key_map_patch _ _ _ (fun x => by
          by_cases hx : x.id = c.id <;> simp [hx])]
        rw [hfind]
        exact ⟨_, rfl, by simp, by simp, by simp,
          fun _ => ⟨by simp, by simp [hdiff]⟩, fun h => absurd rfl h⟩
    · cases hfind2 : (getCanon s tbl).find?
          (fun x => x.uniqueKey = rowKey row) with
      | none =>
        rw [processRow_insert _ _ _ _ _ _ _ hkeyrow hfind2]
        rw [getCanon_setCanon_same]
        refine ⟨c, ?_, rfl, rfl, rfl, fun h => absurd h hkr,
          fun _ => ⟨rfl, rfl⟩⟩
        exact find?_append_some hfind
      | some ex2 =>
        have hex2 : ex2.uniqueKey = rowKey row := by
          have := List.find?_some hfind2
          simpa using this
        have hex2mem : ex2 ∈ getCanon s tbl := List.mem_of_find?_eq_some hfind2
        have hcmem : c ∈ getCanon s tbl := List.mem_of_find?_eq_some hfind
        have hidne : c.id ≠ ex2.id := by
          intro hid
          have hce : c = ex2 :=
            List.inj_on_of_nodup_map (hwf tbl).1 hcmem hex2mem hid
          rw [hce] at hck
          exact hkr (hex2.symm.trans hck)
        have hgoal : ∀ (g : CanonRecord → CanonRecord),
            (∀ x, (g x).uniqueKey = x.uniqueKey) → g c = c →
            ∃ c', ((getCanon s tbl).map g).find?
                (fun x => x.uniqueKey = k) = some c' ∧
              c'.id = c.id ∧ c'.uniqueKey = c.uniqueKey ∧
              c'.firstCapturedAt = c.firstCapturedAt ∧
              (rowKey row = k → c'.lastCapturedAt = capturedAt ∧
                canonicalize c'.data = canonicalize (rowStoredData row)) ∧
              (rowKey row ≠ k →
                c'.lastCapturedAt = c.lastCapturedAt ∧ c'.data = c.data) := by
          intro g hg hgc
          rw [find?_key_map_patch _ _ _ hg, hfind]
          rw [Option.map_some', hgc]
          exact ⟨c, rfl, rfl, rfl, rfl, fun h => absurd h hkr,
            fun _ => ⟨rfl, rfl⟩⟩
        by_cases hdiff :
            canonicalize ex2.data ≠ canonicalize (rowStoredData row)
        · rw [processRow_update _ _ _ _ _ _ _ _ hkeyrow hfind2 hdiff]
          rw [getCanon_setCanon_same]
          exact hgoal _ (fun x => by
              by_cases hx : x.id = ex2.id <;> simp [hx])
            (by rw [if_neg hidne])
        · push_neg at hdiff
          rw [processRow_unchanged _ _ _ _ _ _ _ _ hkeyrow hfind2 hdiff]
          rw [getCanon_setCanon_same]
          exact hgoal _ (fun x => by
              by_cases hx : x.id = ex2.id <;> simp [hx])
            (by rw [if_neg hidne])

/-- A row with a different (or empty) key cannot create a record for key
`k`. -/
theorem processRow_none_track (ingestionId : Nat) (reportName : String)
    (capturedAt : Int) (tbl : TargetTable) (s : St) (stats : Stats)
    (row : RowInput) (k : String) (hkne : rowKey row ≠ k)
    (hfind : (getCanon s tbl).find? (fun x => x.uniqueKey = k) = none) :
    (getCanon (processRow ingestionId reportName capturedAt tbl
      (s, stats) row).1 tbl).find? (fun x => x.uniqueKey = k) = none := by
  by_cases hkeyrow : rowKey row = ""
  · rw [processRow_empty_key _ _ _ _ _ _ _ hkeyrow]
    rw [getCanon_update_misc]
    exact hfind
  · cases hfind2 : (getCanon s tbl).find?
        (fun x => x.uniqueKey = rowKey row) with
    | none =>
      rw [processRow_insert _ _ _ _ _ _ _ hkeyrow hfind2]
      rw [getCanon_setCanon_same]
      rw [find?_append_none hfind]
      simp [freshCanonRecord, hkne]
    | some ex2 =>
      by_cases hdiff :
          canonicalize ex2.data ≠ canonicalize (rowStoredData row)
      · rw [processRow_update _ _ _ _ _ _ _ _ hkeyrow hfind2 hdiff]
        rw [getCanon_setCanon_same]
        rw [find?_key_map_patch _ _ _ (fun x => by
          by_cases hx : x.id = ex2.id <;> simp [hx])]
        rw [hfind]
        rfl
      · push_neg at hdiff
        rw [processRow_unchanged _ _ _ _ _ _ _ _ hkeyrow hfind2 hdiff]
        rw [getCanon_setCanon_same]
        rw [find?_key_map_patch _ _ _ (fun x => by
          by_cases hx : x.id = ex2.id <;> simp [hx])]
        rw [hfind]
        rfl

/-- The last row of the batch carrying key `k` (the batch is processed
left to right, so the last occurrence wins). -/
def lastRowWith (k : String) (rows : List RowInput) : Option RowInput :=
  rows.foldl (fun acc r => if rowKey r = k then some r else acc) none

theorem foldl_lastAux (k : String) :
    ∀ (rows : List RowInput) (acc : Option RowInput),
      rows.foldl (fun acc r => if rowKey r = k then some r else acc) acc =
        match rows.foldl (fun acc r => if rowKey r = k then some r else acc)
          none with
        | some r => some r
        | none => acc := by
  intro rows
  induction rows with
  | nil => intro acc; rfl
  | cons r rest ih =>
    intro acc
    show rest.foldl _ (if rowKey r = k then some r else acc) = _
    rw [ih (if rowKey r = k then some r else acc)]
    conv_rhs =>
      rw [show (r :: rest).foldl
        (fun acc r => if rowKey r = k then some r else acc) none =
        rest.foldl (fun acc r => if rowKey r = k then some r else acc)
          (if rowKey r = k then some r else none) from rfl]
      rw [ih (if rowKey r = k then some r else none)]
    cases rest.foldl (fun acc r => if rowKey r = k then some r else acc)
        none with
    | some r' => rfl
    | none =>
      by_cases hr : rowKey r = k <;> simp [hr]

theorem lastRowWith_cons (k : String) (r : RowInput) (rest : List RowInput) :
    lastRowWith k (r :: rest) =
      match lastRowWith k rest with
      | some r' => some r'
      | none => if rowKey r = k then some r else none := by
  show rest.foldl _ (if rowKey r = k then some r else none) = _
  exact foldl_lastAux k rest _

theorem lastRowWith_mem (k : String) :
    ∀ (rows : List RowInput) (r' : RowInput),
      lastRowWith k rows = some r' → r' ∈ rows ∧ rowKey r' = k := by
  intro rows
  induction rows with
  | nil => intro r' h; exact absurd h (by simp [lastRowWith])
  | cons r rest ih =>
    intro r' h
    rw [lastRowWith_cons] at h
    cases hrest : lastRowWith k rest with
    | some r'' =>
      rw [hrest] at h
      obtain ⟨hmem, hkey⟩ := ih r'' hrest
      cases h
      exact ⟨List.mem_cons_of_mem _ hmem, hkey⟩
    | none =>
      rw [hrest] at h
      by_cases hr : rowKey r = k
      · rw [if_pos hr] at h
        cases h
        exact ⟨List.mem_cons_self _ _, hr⟩
      · rw [if_neg hr] at h
        exact absurd h (by simp)

/-- Tracking a canonical record through a whole batch fold. -/
theorem foldl_processRow_track (ingestionId : Nat) (reportName : String)
    (capturedAt : Int) (tbl : TargetTable) (k : String) (hk : k ≠ "") :
    ∀ (rows : List RowInput) (acc : St × Stats) (c : CanonRecord),
      CanonWF acc.1 →
      (getCanon acc.1 tbl).find? (fun x => x.uniqueKey = k) = some c →
      ∃ c', (getCanon (rows.foldl
          (processRow ingestionId reportName capturedAt tbl) acc).1 tbl).find?
            (fun x => x.uniqueKey = k) = some c' ∧
        c'.id = c.id ∧ c'.uniqueKey = c.uniqueKey ∧
        c'.firstCapturedAt = c.firstCapturedAt ∧
        (match lastRowWith k rows with
         | none => c'.lastCapturedAt = c.lastCapturedAt ∧ c'.data = c.data
         | some r => c'.lastCapturedAt = capturedAt ∧
             canonicalize c'.data = canonicalize (rowStoredData r)) := by
  intro rows
  induction rows with
  | nil =>
    intro acc c hwf hfind
    exact ⟨c, hfind, rfl, rfl, rfl, ⟨rfl, rfl⟩⟩
  | cons r rest ih =>
    intro acc c hwf hfind
    obtain ⟨s, stats⟩ := acc
    replace hwf : CanonWF s := hwf
    replace hfind : (getCanon s tbl).find? (fun x => x.uniqueKey = k) =
      some c := hfind
    obtain ⟨c₁, hfind₁, hid₁, hkey₁, hfirst₁, hsame, hother⟩ :=
      processRow_track ingestionId reportName capturedAt tbl s stats r k c
        hk hwf hfind
    have hwf₁ : CanonWF (processRow ingestionId reportName capturedAt tbl
        (s, stats) r).1 :=
      processRow_canonWF ingestionId reportName capturedAt tbl (s, stats) r hwf
    obtain ⟨c', hfind', hid', hkey', hfirst', hlast'⟩ :=
      ih (processRow ingestionId reportName capturedAt tbl (s, stats) r) c₁
        hwf₁ hfind₁
    refine ⟨c', hfind', hid'.trans hid₁, hkey'.trans hkey₁,
      hfirst'.trans hfirst₁, ?_⟩
    rw [lastRowWith_cons]
    cases hrest : lastRowWith k rest with
    | some r'' =>
      rw [hrest] at hlast'
      exact hlast'
    | none =>
      rw [hrest] at hlast'
      by_cases hr : rowKey r = k
      · rw [if_pos hr]
        obtain ⟨hl₁, hd₁⟩ := hsame hr
        exact ⟨hlast'.1.trans hl₁, (congrArg canonicalize hlast'.2).trans hd₁⟩
      · rw [if_neg hr]
        obtain ⟨hl₁, hd₁⟩ := hother hr
        exact ⟨hlast'.1.trans hl₁, hlast'.2.trans hd₁⟩

/-- A fresh key appearing in the batch ends up inserted: after the fold
the key maps to a record created by this call (`firstCapturedAt =
lastCapturedAt = capturedAt`) holding the content of the last row with
that key. -/
theorem foldl_insert_find (ingestionId : Nat) (reportName : String)
    (capturedAt : Int) (tbl : TargetTable) (k : String) (hk : k ≠ "") :
    ∀ (rows : List RowInput) (acc : St × Stats), CanonWF acc.1 →
      (getCanon acc.1 tbl).find? (fun x => x.uniqueKey = k) = none →
      ∀ r', lastRowWith k rows = some r' →
      ∃ c', (getCanon (rows.foldl
          (processRow ingestionId reportName capturedAt tbl) acc).1 tbl).find?
            (fun x => x.uniqueKey = k) = some c' ∧
        c'.uniqueKey = k ∧ c'.firstCapturedAt = capturedAt ∧
        c'.lastCapturedAt = capturedAt ∧
        canonicalize c'.data = canonicalize (rowStoredData r') := by
  intro rows
  induction rows with
  | nil =>
    intro acc hwf hnone r' hlast
    exact absurd hlast (by simp [lastRowWith])
  | cons r rest ih =>
    intro acc hwf hnone r' hlast
    obtain ⟨s, stats⟩ := acc
    replace hwf : CanonWF s := hwf
    replace hnone : (getCanon s tbl).find? (fun x => x.uniqueKey = k) =
      none := hnone
    have hwf₁ : CanonWF (processRow ingestionId reportName capturedAt tbl
        (s, stats) r).1 :=
      processRow_canonWF ingestionId reportName capturedAt tbl (s, stats) r hwf
    rw [lastRowWith_cons] at hlast
    simp only [List.foldl_cons]
    by_cases hr : rowKey r = k
    · -- the row inserts (or the key is inserted here for the first time)
      subst hr
      have hkeyrow : rowKey r ≠ "" := hk
      rw [processRow_insert ingestionId reportName capturedAt tbl s stats r
        hkeyrow hnone] at hwf₁ ⊢
      have hfound : (getCanon (setCanon
          { afterRawInsert ingestionId reportName s r with
              nextId := s.nextId + 2 } tbl
          (getCanon s tbl ++
            [freshCanonRecord ingestionId reportName capturedAt tbl s r]))
            tbl).find? (fun x => x.uniqueKey = rowKey r) =
          some (freshCanonRecord ingestionId reportName capturedAt tbl s r) := by
        rw [getCanon_setCanon_same]
        rw [find?_append_none hnone]
        simp [freshCanonRecord]
      obtain ⟨c', hfind', hid', hkey', hfirst', hlast'⟩ :=
        foldl_processRow_track ingestionId reportName capturedAt tbl
          (rowKey r) hk rest
          (setCanon { afterRawInsert ingestionId reportName s r with
              nextId := s.nextId + 2 } tbl
            (getCanon s tbl ++
              [freshCanonRecord ingestionId reportName capturedAt tbl s r]),
           { stats with inserted := stats.inserted + 1 })
          (freshCanonRecord ingestionId reportName capturedAt tbl s r)
          hwf₁ hfound
      refine ⟨c', hfind', hkey'.trans rfl, hfirst'.trans rfl, ?_⟩
      cases hrest : lastRowWith (rowKey r) rest with
      | some r'' =>
        rw [hrest] at hlast hlast'
        cases hlast
        exact ⟨hlast'.1, hlast'.2⟩
      | none =>
        rw [hrest] at hlast hlast'
        rw [if_pos rfl] at hlast
        cases hlast
        refine ⟨hlast'.1.trans rfl, ?_⟩
        exact (congrArg canonicalize hlast'.2).trans rfl
    · -- the key stays absent through this row
      have hnone₁ : (getCanon (processRow ingestionId reportName capturedAt
          tbl (s, stats) r).1 tbl).find? (fun x => x.uniqueKey = k) = none :=
        processRow_none_track ingestionId reportName capturedAt tbl s stats
          r k hr hnone
      cases hrest : lastRowWith k rest with
      | some r'' =>
        rw [hrest] at hlast
        cases hlast
        exact ih (processRow ingestionId reportName capturedAt tbl
          (s, stats) r) hwf₁ hnone₁ r' hrest
      | none =>
        rw [hrest, if_neg hr] at hlast
        exact absurd hlast (by simp)

theorem lastRowWith_isSome_of_mem (k : String) :
    ∀ (rows : List RowInput) (r : RowInput), r ∈ rows → rowKey r = k →
      ∃ r', lastRowWith k rows = some r' := by
  intro rows
  induction rows with
  | nil => intro r h; exact absurd h (by simp)
  | cons a rest ih =>
    intro r h hk
    rw [List.mem_cons] at h
    rw [lastRowWith_cons]
    cases hrest : lastRowWith k rest with
    | some r'' => exact ⟨r'', rfl⟩
    | none =>
      rcases h with rfl | hmem
      · exact ⟨r, by rw [if_pos hk]⟩
      · obtain ⟨r'', hr''⟩ := ih r hmem hk
        rw [hr''] at hrest
        exact absurd hrest (by simp)

theorem createIngestion_nextId_le (reportName : String) (capturedAt : Int)
    (sourceKey : String) (s : St) :
    s.nextId ≤ (createIngestion reportName capturedAt sourceKey s).1.nextId := by
  unfold createIngestion
  cases s.ingestions.find? (fun i => i.sourceKey = sourceKey) with
  | some ex => exact Nat.le_refl _
  | none => exact Nat.le_succ _

theorem clearLoop_nextId (ingestionId limit : Nat) :
    ∀ (fuel : Nat) (s : St),
      (clearLoop ingestionId limit fuel s).nextId = s.nextId := by
  intro fuel
  induction fuel with
  | zero => intro s; rfl
  | succ n ih =>
    intro s
    show (if (clearRowsBatch ingestionId limit s).2 = 0
        then (clearRowsBatch ingestionId limit s).1
        else clearLoop ingestionId limit n
          (clearRowsBatch ingestionId limit s).1).nextId = s.nextId
    split
    · rfl
    · exact (ih _).trans rfl

theorem preState_canon (args : IngestArgs) (s : St) (t : TargetTable) :
    getCanon (preState args s) t = getCanon s t := by
  simp only [preState]
  split
  · rw [clearLoop_canon, createIngestion_canon]
  · rw [createIngestion_canon]

theorem preState_nextId_le (args : IngestArgs) (s : St) :
    s.nextId ≤ (preState args s).nextId := by
  simp only [preState]
  split
  · rw [clearLoop_nextId]
    exact createIngestion_nextId_le _ _ _ _
  · exact createIngestion_nextId_le _ _ _ _

theorem preState_canonWF (args : IngestArgs) (s : St) (h : CanonWF s) :
    CanonWF (preState args s) :=
  canonWF_of_eq (preState_canon args s) (preState_nextId_le args s) h

theorem finalizeIngestion_nextId (ingestionId : Nat) (capturedAt : Int)
    (rowCount : Nat) (s : St) :
    (finalizeIngestion ingestionId capturedAt rowCount s).nextId = s.nextId :=
  rfl

/-- `CanonWF` survives a full (valid-table) ingestion call. -/
theorem ingestReport_canonWF (args : IngestArgs) (s : St) (tbl : TargetTable)
    (hparse : parseTargetTable args.targetTable = some tbl)
    (h : CanonWF s) : CanonWF (ingestReport args s).1 := by
  have hv := ingestReport_valid args s tbl hparse
  have h1 : (ingestReport args s).1 = finalizeIngestion
      (createIngestion args.reportName args.capturedAt args.sourceKey s).2.1
      args.capturedAt args.rows.length
      (args.rows.foldl
        (processRow
          (createIngestion args.reportName args.capturedAt args.sourceKey s).2.1
          args.reportName args.capturedAt tbl)
        (preState args s, ⟨0, 0, 0⟩)).1 := by rw [hv]
  rw [h1]
  have hfold := foldl_processRow_canonWF
    (createIngestion args.reportName args.capturedAt args.sourceKey s).2.1
    args.reportName args.capturedAt tbl args.rows
    (preState args s, ⟨0, 0, 0⟩) (preState_canonWF args s h)
  exact canonWF_of_eq (fun t => finalizeIngestion_canon _ _ _ _ t)
    (Nat.le_of_eq (finalizeIngestion_nextId _ _ _ _).symm) hfold

/-- C4 (amended): the `TABLE_CONFIG[targetTable]` truthiness check does
not cover every string outside the known set.  (1) With a `targetTable`
whose lookup is falsy (neither a configured table nor an
`Object.prototype` member name), the call fails during the first row
batch whenever `rows` is non-empty (with zero rows no batch runs, no
validation happens, and the call succeeds); in either case no ReportRow
entry is written and no canonical table is touched — but the failure
does *not* precede every write: the Ingestion record for the
`sourceKey` has already been created or updated (and prior raw rows
cleared) before the error surfaces.  (2) With a `targetTable` naming an
inherited `Object.prototype` member (`toString`, `constructor`, …) the
check passes, and a call whose rows all lack a truthy `__uniqueKey`
succeeds outright, committing one raw ReportRow per row. -/
theorem ingest_badTable_amended (args : IngestArgs) (s : St) :
    (lookupTableConfig args.targetTable = none →
      (args.rows ≠ [] → ∃ e, (ingestReport args s).2 = .error e) ∧
      (args.rows = [] → ∃ r, (ingestReport args s).2 = .ok r) ∧
      (∀ t, getCanon (ingestReport args s).1 t = getCanon s t) ∧
      (ingestReport args s).1.reportRows.Sublist s.reportRows ∧
      ∃ i ∈ (ingestReport args s).1.ingestions,
        i.sourceKey = args.sourceKey ∧ i.reportName = args.reportName ∧
        i.capturedAt = args.capturedAt) ∧
    (lookupTableConfig args.targetTable = some TableRef.protoMember →
      (∀ row ∈ args.rows, rowKey row = "") →
      (∃ r, (ingestReport args s).2 = .ok r) ∧
      (∀ t, getCanon (ingestReport args s).1 t = getCanon s t) ∧
      ∃ tail, (ingestReport args s).1.reportRows =
        (preState args s).reportRows ++ tail ∧
        tail.length = args.rows.length) := by
  constructor
  · intro hbad
    have hmem := createIngestion_mem args.reportName args.capturedAt
      args.sourceKey s
    simp only [ingestReport]
    set prep := createIngestion args.reportName args.capturedAt args.sourceKey s
      with hprep
    set s2 := if prep.2.2 = true
        then clearLoop prep.2.1 CLEAR_LIMIT (prep.1.reportRows.length + 1) prep.1
        else prep.1 with hs2
    have hs2canon : ∀ t, getCanon s2 t = getCanon s t := by
      intro t
      rw [hs2]
      split
      · rw [clearLoop_canon]
        rw [hprep, createIngestion_canon]
      · rw [hprep, createIngestion_canon]
    have hs2rows : s2.reportRows.Sublist s.reportRows := by
      rw [hs2]
      split
      · exact (clearLoop_reportRows_sublist _ _ _ _).trans
          (by rw [hprep, createIngestion_reportRows])
      · rw [hprep, createIngestion_reportRows]
    have hs2ing : s2.ingestions = prep.1.ingestions := by
      rw [hs2]
      split
      · rw [clearLoop_ingestions]
      · rfl
    cases hrows : args.rows with
    | nil =>
      rw [chunkRows_nil, runChunks_nil]
      refine ⟨fun h => absurd rfl h, fun _ => ⟨_, rfl⟩, ?_, ?_, ?_⟩
      · intro t
        rw [finalizeIngestion_canon]
        exact hs2canon t
      · rw [finalizeIngestion_reportRows]
        exact hs2rows
      · obtain ⟨i, hi, h1, h2, h3⟩ := hmem
        have hi2 : i ∈ s2.ingestions := by rwa [hs2ing]
        exact finalizeIngestion_mem prep.2.1 args.capturedAt [].length s2
          args.sourceKey args.reportName ⟨i, hi2, h1, h2, h3⟩
    | cons r rs =>
      rw [chunkRows_cons,
        runChunks_error_of_bad _ _ _ _ hbad _ _ _ _]
      refine ⟨fun _ => ⟨_, rfl⟩, fun h => absurd h (by simp), ?_, hs2rows, ?_⟩
      · exact hs2canon
      · obtain ⟨i, hi, hprops⟩ := hmem
        exact ⟨i, by rwa [hs2ing], hprops⟩

  · intro hproto hkeys
    have he := ingestReport_proto args s hproto hkeys
    refine ⟨⟨_, by rw [he]⟩, ?_, ?_⟩
    · intro t
      rw [he]
      show getCanon (finalizeIngestion _ _ _ _) t = _
      rw [finalizeIngestion_canon, foldl_protoRawInsert_canon]
      exact preState_canon args s t
    · rw [he]
      obtain ⟨tail, htail, hlen⟩ := foldl_protoRawInsert_reportRows
        (createIngestion args.reportName args.capturedAt args.sourceKey s).2.1
        args.reportName args.rows (preState args s)
      refine ⟨tail, ?_, hlen⟩
      show (finalizeIngestion _ _ _ _).reportRows = _
      rw [finalizeIngestion_reportRows]
      exact htail

def protoTableArgs : IngestArgs :=
  ⟨"R", 5, "sp", "toString", [⟨0, [("x", "y")]⟩]⟩

/-- C4 witness: the amended behaviour at two concrete calls over the
empty state — a truly unknown table fails, while `toString` (an
inherited `Object.prototype` member) succeeds on a key-less row. -/
theorem ingest_badTable_amended_witness :
    lookupTableConfig badTableArgs.targetTable = none ∧
    (∃ e, (ingestReport badTableArgs emptySt).2 = .error e) ∧
    lookupTableConfig protoTableArgs.targetTable =
      some TableRef.protoMember ∧
    (∃ r, (ingestReport protoTableArgs emptySt).2 = .ok r) :=
  ⟨by decide,
   ((ingest_badTable_amended badTableArgs emptySt).1 (by decide)).1
     (by decide),
   by decide,
   (((ingest_badTable_amended protoTableArgs emptySt).2 (by decide))
     (by decide)).1⟩

/-! ## Injectivity of the serializer

The `JSON.stringify` escaping is decodable, so `canonicalize` determines
the record up to property lookup: two records with equal canonical
serializations agree on every key. -/

/-- The characters `jsonEscapeChar` escapes. -/
def escapedChar (c : Char) : Prop :=
  c = '"' ∨ c = '\\' ∨ c = '\x08' ∨ c = '\x0c' ∨ c = '\n' ∨ c = '\r' ∨
    c = '\t' ∨ c.toNat < 32

/-- The escape body following the backslash. -/
def escCode (c : Char) : List Char :=
  if c = '"' then ['"']
  else if c = '\\' then ['\\']
  else if c = '\x08' then ['b']
  else if c = '\x0c' then ['f']
  else if c = '\n' then ['n']
  else if c = '\r' then ['r']
  else if c = '\t' then ['t']
  else ['u', '0', '0', hexDigit (c.toNat / 16), hexDigit (c.toNat % 16)]

/-- `jsonEscapeChar` at the character-list level. -/
def escChars (c : Char) : List Char := (jsonEscapeChar c).data

theorem escChars_unescaped (c : Char) (h : ¬ escapedChar c) :
    escChars c = [c] := by
  unfold escapedChar at h
  push_neg at h
  obtain ⟨hq, hbs, hb, hf, hn, hr, ht, hlt⟩ := h
  unfold escChars jsonEscapeChar
  rw [if_neg hq, if_neg hbs, if_neg hb, if_neg hf, if_neg hn, if_neg hr,
    if_neg ht, if_neg (by omega : ¬ c.toNat < 32)]
  rfl

theorem escChars_escaped (c : Char) (h : escapedChar c) :
    escChars c = '\\' :: escCode c := by
  by_cases hq : c = '"'
  · subst hq; rfl
  by_cases hbs : c = '\\'
  · subst hbs; rfl
  by_cases hb : c = '\x08'
  · subst hb; rfl
  by_cases hf : c = '\x0c'
  · subst hf; rfl
  by_cases hn : c = '\n'
  · subst hn; rfl
  by_cases hr : c = '\r'
  · subst hr; rfl
  by_cases ht : c = '\t'
  · subst ht; rfl
  have hlt : c.toNat < 32 := by
    rcases h with hx | hx | hx | hx | hx | hx | hx | hx
    · exact absurd hx hq
    · exact absurd hx hbs
    · exact absurd hx hb
    · exact absurd hx hf
    · exact absurd hx hn
    · exact absurd hx hr
    · exact absurd hx ht
    · exact hx
  unfold escChars jsonEscapeChar escCode
  rw [if_neg hq, if_neg hbs, if_neg hb, if_neg hf, if_neg hn, if_neg hr,
    if_neg ht, if_pos hlt, if_neg hq, if_neg hbs, if_neg hb, if_neg hf,
    if_neg hn, if_neg hr, if_neg ht]
  rfl

theorem hexDigit_inj (n m : Nat) (hn : n < 16) (hm : m < 16)
    (h : hexDigit n = hexDigit m) : n = m := by
  interval_cases n <;> interval_cases m <;> revert h <;> decide

theorem char_toNat_inj {a b : Char} (h : a.toNat = b.toNat) : a = b :=
  Char.eq_of_val_eq (UInt32.ext (by exact_mod_cast h))


/-- Hexadecimal digit value (inverse of `hexDigit`). -/
def hexVal (c : Char) : Nat :=
  if c.toNat >= 97 then c.toNat - 87 else c.toNat - 48

theorem hexVal_hexDigit (n : Nat) (h : n < 16) : hexVal (hexDigit n) = n := by
  interval_cases n <;> decide

/-- One step of the escape-sequence decoder (the input starts right
after a backslash). -/
def unescape1 : List Char → Option (Char × List Char)
  | [] => none
  | m :: rest =>
    if m = '"' then some ('"', rest)
    else if m = '\\' then some ('\\', rest)
    else if m = 'b' then some ('\x08', rest)
    else if m = 'f' then some ('\x0c', rest)
    else if m = 'n' then some ('\n', rest)
    else if m = 'r' then some ('\r', rest)
    else if m = 't' then some ('\t', rest)
    else if m = 'u' then
      match rest with
      | z1 :: z2 :: d :: e :: rest2 =>
        if z1 = '0' ∧ z2 = '0' then
          some (Char.ofNat (16 * hexVal d + hexVal e), rest2)
        else none
      | _ => none
    else none

theorem escCode_u (c : Char) (hq : c ≠ '"') (hbs : c ≠ '\\')
    (hb : c ≠ '\x08') (hf : c ≠ '\x0c') (hn : c ≠ '\n')
    (hr : c ≠ '\r') (ht : c ≠ '\t') :
    escCode c = ['u', '0', '0', hexDigit (c.toNat / 16),
      hexDigit (c.toNat % 16)] := by
  unfold escCode
  rw [if_neg hq, if_neg hbs, if_neg hb, if_neg hf, if_neg hn, if_neg hr,
    if_neg ht]

/-- The decoder inverts the escape body of every escaped character. -/
theorem unescape1_escCode (c : Char) (h : escapedChar c) (a : List Char) :
    unescape1 (escCode c ++ a) = some (c, a) := by
  by_cases hq : c = '"'
  · subst hq; rfl
  by_cases hbs : c = '\\'
  · subst hbs; rfl
  by_cases hb : c = '\x08'
  · subst hb; rfl
  by_cases hf : c = '\x0c'
  · subst hf; rfl
  by_cases hn : c = '\n'
  · subst hn; rfl
  by_cases hr : c = '\r'
  · subst hr; rfl
  by_cases ht : c = '\t'
  · subst ht; rfl
  have hlt : c.toNat < 32 := by
    rcases h with hx | hx | hx | hx | hx | hx | hx | hx
    · exact absurd hx hq
    · exact absurd hx hbs
    · exact absurd hx hb
    · exact absurd hx hf
    · exact absurd hx hn
    · exact absurd hx hr
    · exact absurd hx ht
    · exact hx
  rw [escCode_u c hq hbs hb hf hn hr ht]
  show some (Char.ofNat (16 * hexVal (hexDigit (c.toNat / 16)) +
    hexVal (hexDigit (c.toNat % 16))), a) = some (c, a)
  rw [hexVal_hexDigit _ (by omega), hexVal_hexDigit _ (by omega)]
  rw [show 16 * (c.toNat / 16) + c.toNat % 16 = c.toNat by omega]
  rw [Char.ofNat_toNat]

theorem escCode_append_inj (c1 c2 : Char) (h1 : escapedChar c1)
    (h2 : escapedChar c2) (a b : List Char)
    (h : escCode c1 ++ a = escCode c2 ++ b) : c1 = c2 ∧ a = b := by
  have hu := congrArg unescape1 h
  rw [unescape1_escCode c1 h1 a, unescape1_escCode c2 h2 b] at hu
  injection hu with hu
  injection hu with hc hab
  exact ⟨hc, hab⟩

theorem escChars_append_inj (c1 c2 : Char) (a b : List Char)
    (h : escChars c1 ++ a = escChars c2 ++ b) : c1 = c2 ∧ a = b := by
  by_cases h1 : escapedChar c1 <;> by_cases h2 : escapedChar c2
  · rw [escChars_escaped c1 h1, escChars_escaped c2 h2] at h
    simp only [List.cons_append, List.cons.injEq] at h
    exact escCode_append_inj c1 c2 h1 h2 a b h.2
  · exfalso
    rw [escChars_escaped c1 h1, escChars_unescaped c2 h2] at h
    simp only [List.cons_append, List.singleton_append, List.cons.injEq] at h
    exact h2 (Or.inr (Or.inl h.1.symm))
  · exfalso
    rw [escChars_unescaped c1 h1, escChars_escaped c2 h2] at h
    simp only [List.cons_append, List.singleton_append, List.cons.injEq] at h
    exact h1 (Or.inr (Or.inl h.1))
  · rw [escChars_unescaped c1 h1, escChars_unescaped c2 h2] at h
    simp only [List.singleton_append, List.cons.injEq] at h
    exact h

theorem escChars_head (c : Char) :
    ∃ d rest, escChars c = d :: rest ∧ d ≠ '"' := by
  by_cases h : escapedChar c
  · exact ⟨'\\', escCode c, escChars_escaped c h, by decide⟩
  · refine ⟨c, [], escChars_unescaped c h, ?_⟩
    intro hc
    exact h (Or.inl hc)

/-- The full escape stream of a string. -/
def encodeChars (s : List Char) : List Char := (s.map escChars).flatten

theorem encodeChars_nil : encodeChars [] = [] := rfl

theorem encodeChars_cons (c : Char) (s : List Char) :
    encodeChars (c :: s) = escChars c ++ encodeChars s := by
  unfold encodeChars
  rw [List.map_cons, List.flatten_cons]

/-- A quoted escape stream is uniquely decodable: the decoded text and
everything after the closing quote are determined. -/
theorem encode_quote_inj :
    ∀ (s1 s2 t1 t2 : List Char),
      encodeChars s1 ++ '"' :: t1 = encodeChars s2 ++ '"' :: t2 →
      s1 = s2 ∧ t1 = t2 := by
  intro s1
  induction s1 with
  | nil =>
    intro s2 t1 t2 h
    cases s2 with
    | nil =>
      simp only [encodeChars_nil, List.nil_append, List.cons.injEq] at h
      exact ⟨rfl, h.2⟩
    | cons c s2' =>
      exfalso
      rw [encodeChars_cons] at h
      obtain ⟨d, rest, he, hd⟩ := escChars_head c
      rw [he] at h
      simp only [encodeChars_nil, List.nil_append, List.cons_append,
        List.cons.injEq] at h
      exact hd h.1.symm
  | cons c1 s1' ih =>
    intro s2 t1 t2 h
    cases s2 with
    | nil =>
      exfalso
      rw [encodeChars_cons] at h
      obtain ⟨d, rest, he, hd⟩ := escChars_head c1
      rw [he] at h
      simp only [encodeChars_nil, List.nil_append, List.cons_append,
        List.cons.injEq] at h
      exact hd h.1
    | cons c2 s2' =>
      rw [encodeChars_cons, encodeChars_cons] at h
      rw [List.append_assoc, List.append_assoc] at h
      obtain ⟨hc, hrest⟩ := escChars_append_inj c1 c2 _ _ h
      obtain ⟨hs, ht⟩ := ih s2' t1 t2 hrest
      exact ⟨by rw [hc, hs], ht⟩

theorem string_foldl_append_data :
    ∀ (l : List String) (acc : String),
      (l.foldl (fun r s => r ++ s) acc).data =
        acc.data ++ (l.map String.data).flatten := by
  intro l
  induction l with
  | nil => intro acc; simp
  | cons x xs ih =>
    intro acc
    rw [List.foldl_cons, ih, List.map_cons, List.flatten_cons]
    rw [String.data_append, List.append_assoc]

theorem string_join_data (l : List String) :
    (String.join l).data = (l.map String.data).flatten := by
  show (l.foldl (fun r s => r ++ s) "").data = _
  rw [string_foldl_append_data]
  rfl

theorem string_data_inj {s1 s2 : String} (h : s1.data = s2.data) :
    s1 = s2 := by
  cases s1
  cases s2
  exact congrArg String.mk h

theorem jsonQuote_data (s : String) :
    (jsonQuote s).data = '"' :: (encodeChars s.data ++ ['"']) := by
  unfold jsonQuote
  rw [String.data_append, String.data_append, string_join_data]
  show '"' :: ((s.data.map jsonEscapeChar).map String.data).flatten ++ ['"'] = _
  rw [List.map_map]
  rfl

/-- One serialized `"key":"value"` entry at the character level. -/
def entryChars (p : String × String) : List Char :=
  '"' :: (encodeChars p.1.data ++
    '"' :: ':' :: '"' :: (encodeChars p.2.data ++ ['"']))

theorem entryString_data (p : String × String) :
    (jsonQuote p.1 ++ ":" ++ jsonQuote p.2).data = entryChars p := by
  rw [String.data_append, String.data_append, jsonQuote_data, jsonQuote_data]
  unfold entryChars
  simp [List.append_assoc]

/-- The comma-separated entry stream at the character level. -/
def entriesChars : List (String × String) → List Char
  | [] => []
  | [p] => entryChars p
  | p :: q :: rest => entryChars p ++ ',' :: entriesChars (q :: rest)

theorem entriesChars_nil : entriesChars [] = [] := rfl

theorem entriesChars_single (p : String × String) :
    entriesChars [p] = entryChars p := rfl

theorem entriesChars_cons2 (p q : String × String)
    (rest : List (String × String)) :
    entriesChars (p :: q :: rest) =
      entryChars p ++ ',' :: entriesChars (q :: rest) := rfl

theorem intercalate_entry_data :
    ∀ es : List (String × String),
      (String.intercalate ","
        (es.map (fun p => jsonQuote p.1 ++ ":" ++ jsonQuote p.2))).data =
        entriesChars es := by
  intro es
  induction es with
  | nil => rfl
  | cons p rest ih =>
    cases rest with
    | nil =>
      rw [entriesChars_single]
      exact entryString_data p
    | cons q rest' =>
      rw [List.map_cons, intercalate_cons_of_ne_nil _ _ _ (by simp)]
      rw [String.data_append, String.data_append, entryString_data p, ih]
      rw [entriesChars_cons2, List.append_assoc]
      rfl

theorem jsonStringify_data (es : RecordMap) :
    (jsonStringify es).data = '\x7b' :: (entriesChars es ++ ['\x7d']) := by
  unfold jsonStringify
  rw [String.data_append, String.data_append, intercalate_entry_data es]
  rfl

theorem entryChars_append_inj (p1 p2 : String × String) (a b : List Char)
    (h : entryChars p1 ++ a = entryChars p2 ++ b) : p1 = p2 ∧ a = b := by
  obtain ⟨k1, v1⟩ := p1
  obtain ⟨k2, v2⟩ := p2
  unfold entryChars at h
  simp only [List.cons_append, List.append_assoc, List.cons.injEq] at h
  obtain ⟨hk, hrest⟩ := encode_quote_inj k1.data k2.data _ _ h.2
  injection hrest with _ hrest
  injection hrest with _ hrest
  obtain ⟨hv, hab⟩ := encode_quote_inj v1.data v2.data a b (by
    simpa [List.append_assoc] using hrest)
  exact ⟨Prod.ext (string_data_inj hk) (string_data_inj hv), hab⟩

theorem entriesChars_cons_head (p : String × String)
    (rest : List (String × String)) (y : List Char) :
    (entriesChars (p :: rest) ++ y).head? = some '"' := by
  cases rest with
  | nil => rfl
  | cons q rest' => rfl

/-- The brace-terminated entry stream is uniquely decodable. -/
theorem entriesChars_append_inj :
    ∀ (es1 es2 : List (String × String)) (t1 t2 : List Char),
      entriesChars es1 ++ '\x7d' :: t1 = entriesChars es2 ++ '\x7d' :: t2 →
      es1 = es2 ∧ t1 = t2 := by
  intro es1
  induction es1 with
  | nil =>
    intro es2 t1 t2 h
    cases es2 with
    | nil =>
      simp only [entriesChars_nil, List.nil_append, List.cons.injEq] at h
      exact ⟨rfl, h.2⟩
    | cons p2 rest2 =>
      exfalso
      have hh := congrArg List.head? h
      rw [entriesChars_cons_head] at hh
      simp only [entriesChars_nil, List.nil_append, List.head?_cons] at hh
      exact absurd hh (by decide)
  | cons p1 rest1 ih =>
    intro es2 t1 t2 h
    cases es2 with
    | nil =>
      exfalso
      have hh := congrArg List.head? h
      rw [entriesChars_cons_head] at hh
      simp only [entriesChars_nil, List.nil_append, List.head?_cons] at hh
      exact absurd hh (by decide)
    | cons p2 rest2 =>
      cases rest1 with
      | nil =>
        cases rest2 with
        | nil =>
          rw [entriesChars_single, entriesChars_single] at h
          obtain ⟨hp, ht⟩ := entryChars_append_inj p1 p2 _ _ h
          injection ht with _ ht
          exact ⟨by rw [hp], ht⟩
        | cons q2 rest2' =>
          exfalso
          rw [entriesChars_single, entriesChars_cons2, List.append_assoc] at h
          obtain ⟨hp, ht⟩ := entryChars_append_inj p1 p2 _ _ h
          injection ht with hbad
          exact absurd hbad (by decide)
      | cons q1 rest1' =>
        cases rest2 with
        | nil =>
          exfalso
          rw [entriesChars_cons2, entriesChars_single, List.append_assoc] at h
          obtain ⟨hp, ht⟩ := entryChars_append_inj p1 p2 _ _ h
          injection ht with hbad
          exact absurd hbad (by decide)
        | cons q2 rest2' =>
          rw [entriesChars_cons2, entriesChars_cons2, List.append_assoc,
            List.append_assoc] at h
          obtain ⟨hp, ht⟩ := entryChars_append_inj p1 p2 _ _ h
          injection ht with _ ht
          obtain ⟨hrest, ht2⟩ := ih (q2 :: rest2') t1 t2 ht
          exact ⟨by rw [hp, hrest], ht2⟩

/-- `JSON.stringify` is injective on entry lists. -/
theorem jsonStringify_inj {es1 es2 : RecordMap}
    (h : jsonStringify es1 = jsonStringify es2) : es1 = es2 := by
  have hd := congrArg String.data h
  rw [jsonStringify_data, jsonStringify_data] at hd
  injection hd with _ hd
  exact (entriesChars_append_inj es1 es2 [] [] hd).1

theorem recLookup_not_mem {r : RecordMap} {k : String}
    (h : k ∉ r.map (fun p => p.1)) : recLookup r k = none := by
  unfold recLookup
  rw [List.find?_eq_none.mpr]
  · rfl
  · intro p hp
    simp only [decide_eq_true_eq]
    intro hpk
    exact h (List.mem_map.mpr ⟨p, hp, hpk⟩)

theorem recLookupD_not_mem {r : RecordMap} {k : String}
    (h : k ∉ r.map (fun p => p.1)) : recLookupD r k = "" := by
  unfold recLookupD
  rw [recLookup_not_mem h]
  rfl

/-- `canonicalize` determines the record as a map: two records with the
same canonical serialization have the same value (or absence) at every
key. -/
theorem canonicalize_inj {r1 r2 : RecordMap}
    (h : canonicalize r1 = canonicalize r2) :
    ∀ k, recLookupD r1 k = recLookupD r2 k := by
  have hse : sortedEntries r1 = sortedEntries r2 := jsonStringify_inj h
  have hkeys : (r1.map (fun p => p.1)).insertionSort (fun a b => a ≤ b) =
      (r2.map (fun p => p.1)).insertionSort (fun a b => a ≤ b) := by
    have hm := congrArg (List.map (fun p : String × String => p.1)) hse
    unfold sortedEntries at hm
    rw [List.map_map, List.map_map] at hm
    rw [show ((fun p : String × String => p.1) ∘
      (fun k => (k, recLookupD r1 k))) = fun k => k from rfl,
      show ((fun p : String × String => p.1) ∘
      (fun k => (k, recLookupD r2 k))) = fun k => k from rfl,
      List.map_id', List.map_id'] at hm
    exact hm
  intro k
  by_cases hk : k ∈ r1.map (fun p => p.1)
  · have hks : k ∈ (r1.map (fun p => p.1)).insertionSort (fun a b => a ≤ b) :=
      ((List.perm_insertionSort _ _).mem_iff).mpr hk
    have hmem : (k, recLookupD r1 k) ∈ sortedEntries r1 := by
      unfold sortedEntries
      exact List.mem_map.mpr ⟨k, hks, rfl⟩
    rw [hse] at hmem
    unfold sortedEntries at hmem
    obtain ⟨k', hk', hkk⟩ := List.mem_map.mp hmem
    injection hkk with h1 h2
    rw [h1] at h2
    exact h2.symm
  · have hk2 : k ∉ r2.map (fun p => p.1) := by
      intro hmem2
      apply hk
      have hks2 : k ∈ (r2.map (fun p => p.1)).insertionSort
          (fun a b => a ≤ b) :=
        ((List.perm_insertionSort _ _).mem_iff).mpr hmem2
      rw [← hkeys] at hks2
      exact ((List.perm_insertionSort _ _).mem_iff).mp hks2
    rw [recLookupD_not_mem hk, recLookupD_not_mem hk2]

/-- The padded `\u00XX` escapes keep the serializer injective on
control characters: `"\x01" ++ "0"` serializes via `\u0001` followed by
`0`, while `"\x10"` serializes via `\u0010`, exactly as
`JSON.stringify` distinguishes them. -/
theorem canonicalize_padded_escapes :
    canonicalize [("a", "\x010")] ≠ canonicalize [("a", "\x10")] := by
  decide

/-! ## C9: cross-source upsert into the same canonical record -/

/-- C9: two successive ingestions with different `sourceKey` but the same
report and target table, whose batches share a `uniqueKey` that was
previously absent, upsert into the same canonical record:
`firstCapturedAt` keeps the first call's `capturedAt`, `lastCapturedAt`
holds the second call's `capturedAt`, and the stored data is that of the
last matching row of the second call (last-writer-wins): its canonical
serialization coincides, hence — the serializer being injective
(`canonicalize_inj`) — its value at every key does too. -/
theorem crossSource_upsert (args1 args2 : IngestArgs) (S0 : St)
    (tbl : TargetTable) (k : String)
    (hp1 : parseTargetTable args1.targetTable = some tbl)
    (hp2 : parseTargetTable args2.targetTable = some tbl)
    (hsk : args1.sourceKey ≠ args2.sourceKey)
    (hrn : args1.reportName = args2.reportName)
    (hk : k ≠ "")
    (hwf : CanonWF S0)
    (habsent : (getCanon S0 tbl).find? (fun x => x.uniqueKey = k) = none)
    (hin1 : ∃ r ∈ args1.rows, rowKey r = k)
    (hin2 : ∃ r ∈ args2.rows, rowKey r = k) :
    ∃ c, (getCanon (ingestReport args2 (ingestReport args1 S0).1).1 tbl).find?
        (fun x => x.uniqueKey = k) = some c ∧
      c.uniqueKey = k ∧
      c.firstCapturedAt = args1.capturedAt ∧
      c.lastCapturedAt = args2.capturedAt ∧
      ∀ r', lastRowWith k args2.rows = some r' →
        canonicalize c.data = canonicalize (rowStoredData r') ∧
        ∀ key, recLookupD c.data key = recLookupD (rowStoredData r') key := by
  obtain ⟨r1, hr1mem, hr1key⟩ := hin1
  obtain ⟨r1', hlast1⟩ := lastRowWith_isSome_of_mem k args1.rows r1 hr1mem hr1key
  obtain ⟨r2, hr2mem, hr2key⟩ := hin2
  obtain ⟨r2', hlast2⟩ := lastRowWith_isSome_of_mem k args2.rows r2 hr2mem hr2key
  -- first call
  have h1 : (ingestReport args1 S0).1 = finalizeIngestion
      (createIngestion args1.reportName args1.capturedAt args1.sourceKey S0).2.1
      args1.capturedAt args1.rows.length
      (args1.rows.foldl
        (processRow
          (createIngestion args1.reportName args1.capturedAt args1.sourceKey S0).2.1
          args1.reportName args1.capturedAt tbl)
        (preState args1 S0, ⟨0, 0, 0⟩)).1 := by
    rw [ingestReport_valid args1 S0 tbl hp1]
  have hwfp1 : CanonWF (preState args1 S0) := preState_canonWF args1 S0 hwf
  have habsentp1 : (getCanon (preState args1 S0) tbl).find?
      (fun x => x.uniqueKey = k) = none := by
    rw [preState_canon]
    exact habsent
  obtain ⟨c1, hfind1, hkey1, hfirst1, hlastc1, hdata1⟩ :=
    foldl_insert_find
      (createIngestion args1.reportName args1.capturedAt args1.sourceKey S0).2.1
      args1.reportName args1.capturedAt tbl k hk args1.rows
      (preState args1 S0, ⟨0, 0, 0⟩) hwfp1 habsentp1 r1' hlast1
  -- carry the record across finalization into the state seen by call 2
  have hS1find : (getCanon (ingestReport args1 S0).1 tbl).find?
      (fun x => x.uniqueKey = k) = some c1 := by
    rw [h1, finalizeIngestion_canon]
    exact hfind1
  have hS1wf : CanonWF (ingestReport args1 S0).1 :=
    ingestReport_canonWF args1 S0 tbl hp1 hwf
  -- second call
  have h2 : (ingestReport args2 (ingestReport args1 S0).1).1 = finalizeIngestion
      (createIngestion args2.reportName args2.capturedAt args2.sourceKey
        (ingestReport args1 S0).1).2.1
      args2.capturedAt args2.rows.length
      (args2.rows.foldl
        (processRow
          (createIngestion args2.reportName args2.capturedAt args2.sourceKey
            (ingestReport args1 S0).1).2.1
          args2.reportName args2.capturedAt tbl)
        (preState args2 (ingestReport args1 S0).1, ⟨0, 0, 0⟩)).1 := by
    rw [ingestReport_valid args2 (ingestReport args1 S0).1 tbl hp2]
  have hwfp2 : CanonWF (preState args2 (ingestReport args1 S0).1) :=
    preState_canonWF args2 (ingestReport args1 S0).1 hS1wf
  have hfindp2 : (getCanon (preState args2 (ingestReport args1 S0).1) tbl).find?
      (fun x => x.uniqueKey = k) = some c1 := by
    rw [preState_canon]
    exact hS1find
  obtain ⟨c2, hfind2, hid2, hkey2, hfirst2, hlast2'⟩ :=
    foldl_processRow_track
      (createIngestion args2.reportName args2.capturedAt args2.sourceKey
        (ingestReport args1 S0).1).2.1
      args2.reportName args2.capturedAt tbl k hk args2.rows
      (preState args2 (ingestReport args1 S0).1, ⟨0, 0, 0⟩) c1 hwfp2 hfindp2
  rw [hlast2] at hlast2'
  refine ⟨c2, ?_, hkey2.trans hkey1, hfirst2.trans hfirst1, hlast2'.1, ?_⟩
  · rw [h2, finalizeIngestion_canon]
    exact hfind2
  · intro r'' hr''
    rw [hlast2] at hr''
    cases hr''
    exact ⟨hlast2'.2, canonicalize_inj hlast2'.2⟩

theorem emptySt_canonWF : CanonWF emptySt := fun t =>
  ⟨by cases t <;> simp [getCanon, emptySt],
   by cases t <;> simp [getCanon, emptySt]⟩

def c9Args1 : IngestArgs :=
  ⟨"R", 5, "s1", "appointments", [⟨0, [("__uniqueKey", "k"), ("a", "1")]⟩]⟩

def c9Args2 : IngestArgs :=
  ⟨"R", 7, "s2", "appointments", [⟨0, [("__uniqueKey", "k"), ("a", "2")]⟩]⟩

/-- C9 witness: the cross-source upsert at two concrete one-row calls
from the empty state. -/
theorem crossSource_upsert_witness :
    parseTargetTable c9Args1.targetTable = some .appointments ∧
    c9Args1.sourceKey ≠ c9Args2.sourceKey ∧
    c9Args1.reportName = c9Args2.reportName ∧
    (getCanon emptySt .appointments).find?
      (fun x => x.uniqueKey = "k") = none ∧
    (∃ r ∈ c9Args1.rows, rowKey r = "k") ∧
    (∃ r ∈ c9Args2.rows, rowKey r = "k") ∧
    ∃ c, (getCanon (ingestReport c9Args2 (ingestReport c9Args1 emptySt).1).1
          .appointments).find? (fun x => x.uniqueKey = "k") = some c ∧
      c.uniqueKey = "k" ∧
      c.firstCapturedAt = c9Args1.capturedAt ∧
      c.lastCapturedAt = c9Args2.capturedAt ∧
      ∀ r', lastRowWith "k" c9Args2.rows = some r' →
        canonicalize c.data = canonicalize (rowStoredData r') ∧
        ∀ key, recLookupD c.data key = recLookupD (rowStoredData r') key :=
  ⟨rfl, by decide, rfl, rfl,
   ⟨⟨0, [("__uniqueKey", "k"), ("a", "1")]⟩, by decide, by decide⟩,
   ⟨⟨0, [("__uniqueKey", "k"), ("a", "2")]⟩, by decide, by decide⟩,
   crossSource_upsert c9Args1 c9Args2 emptySt .appointments "k" rfl rfl
     (by decide) rfl (by decide) emptySt_canonWF rfl
     ⟨⟨0, [("__uniqueKey", "k"), ("a", "1")]⟩, by decide, by decide⟩
     ⟨⟨0, [("__uniqueKey", "k"), ("a", "2")]⟩, by decide, by decide⟩⟩

/-! ## C1: re-ingesting the identical batch -/

theorem find?_data_of_proj_eq (k : String) :
    ∀ (l l' : List CanonRecord),
      l'.map (fun c => (c.uniqueKey, c.data)) =
        l.map (fun c => (c.uniqueKey, c.data)) →
      (l'.find? (fun x => x.uniqueKey = k)).map (fun c => c.data) =
        (l.find? (fun x => x.uniqueKey = k)).map (fun c => c.data) := by
  intro l
  induction l with
  | nil =>
    intro l' h
    cases l' with
    | nil => rfl
    | cons a' tl' => simp at h
  | cons a tl ih =>
    intro l' h
    cases l' with
    | nil => simp at h
    | cons a' tl' =>
      simp only [List.map_cons, List.cons.injEq, Prod.mk.injEq] at h
      obtain ⟨⟨hkey, hdata⟩, htl⟩ := h
      rw [List.find?_cons, List.find?_cons]
      by_cases hk : a.uniqueKey = k
      · rw [show (decide (a'.uniqueKey = k)) = true by simp [hkey, hk]]
        rw [show (decide (a.uniqueKey = k)) = true by simp [hk]]
        simpa using hdata
      · rw [show (decide (a'.uniqueKey = k)) = false by simp [hkey, hk]]
        rw [show (decide (a.uniqueKey = k)) = false by simp [hk]]
        exact ih tl' htl

/-- After a batch with content-consistent duplicate keys is processed,
every non-empty key of the batch maps to a record whose stored data is
content-equal to that row's stripped data. -/
theorem foldl_post_content (ingestionId : Nat) (reportName : String)
    (capturedAt : Int) (tbl : TargetTable) :
    ∀ (rows : List RowInput) (acc : St × Stats), CanonWF acc.1 →
      (∀ r1 ∈ rows, ∀ r2 ∈ rows, rowKey r1 = rowKey r2 → rowKey r1 ≠ "" →
        canonicalize (rowStoredData r1) = canonicalize (rowStoredData r2)) →
      ∀ row ∈ rows, rowKey row ≠ "" →
      ∃ c, (getCanon (rows.foldl
          (processRow ingestionId reportName capturedAt tbl) acc).1 tbl).find?
            (fun x => x.uniqueKey = rowKey row) = some c ∧
        canonicalize c.data = canonicalize (rowStoredData row) := by
  intro rows
  induction rows with
  | nil => intro acc _ _ row h; exact absurd h (by simp)
  | cons r rest ih =>
    intro acc hwf hdup row hmem hkey
    obtain ⟨s, stats⟩ := acc
    replace hwf : CanonWF s := hwf
    have hwf₁ : CanonWF (processRow ingestionId reportName capturedAt tbl
        (s, stats) r).1 :=
      processRow_canonWF ingestionId reportName capturedAt tbl (s, stats) r hwf
    simp only [List.foldl_cons]
    rcases List.mem_cons.mp hmem with rfl | hmemrest
    · -- the head row itself
      obtain ⟨c₁, hfind₁, hdata₁, _, hkey₁⟩ :=
        processRow_self_find ingestionId reportName capturedAt tbl s stats
          row hkey
      obtain ⟨c', hfind', _, hkey', _, hlast'⟩ :=
        foldl_processRow_track ingestionId reportName capturedAt tbl
          (rowKey row) hkey rest
          (processRow ingestionId reportName capturedAt tbl (s, stats) row)
          c₁ hwf₁ hfind₁
      refine ⟨c', hfind', ?_⟩
      cases hrest : lastRowWith (rowKey row) rest with
      | none =>
        rw [hrest] at hlast'
        exact (congrArg canonicalize hlast'.2).trans hdata₁
      | some r'' =>
        rw [hrest] at hlast'
        obtain ⟨hmem'', hkey''⟩ := lastRowWith_mem (rowKey row) rest r'' hrest
        have := hdup row (List.mem_cons_self _ _) r''
          (List.mem_cons_of_mem _ hmem'') hkey''.symm hkey
        exact hlast'.2.trans this.symm
    · -- a row of the tail
      exact ih (processRow ingestionId reportName capturedAt tbl (s, stats) r)
        hwf₁
        (fun r1 h1 r2 h2 => hdup r1 (List.mem_cons_of_mem _ h1) r2
          (List.mem_cons_of_mem _ h2))
        row hmemrest hkey

/-- When every keyed row of the batch already has a content-equal
canonical record, the whole batch is classified `unchanged` and the
canonical key/data projection of every table is untouched. -/
theorem foldl_all_unchanged (ingestionId : Nat) (reportName : String)
    (capturedAt : Int) (tbl : TargetTable) :
    ∀ (rows : List RowInput) (acc : St × Stats),
      (∀ row ∈ rows, rowKey row ≠ "" →
        ∃ c, (getCanon acc.1 tbl).find? (fun x => x.uniqueKey = rowKey row) =
            some c ∧
          canonicalize c.data = canonicalize (rowStoredData row)) →
      (rows.foldl (processRow ingestionId reportName capturedAt tbl) acc).2 =
        ⟨acc.2.inserted, acc.2.updated,
         acc.2.unchanged + rows.countP (fun r => rowKey r ≠ "")⟩ ∧
      ∀ t, (getCanon (rows.foldl
          (processRow ingestionId reportName capturedAt tbl) acc).1 t).map
            (fun c => (c.uniqueKey, c.data)) =
        (getCanon acc.1 t).map (fun c => (c.uniqueKey, c.data)) := by
  intro rows
  induction rows with
  | nil =>
    intro acc _
    exact ⟨by simp, fun t => rfl⟩
  | cons r rest ih =>
    intro acc hprop
    obtain ⟨s, stats⟩ := acc
    simp only [List.foldl_cons]
    by_cases hkey : rowKey r = ""
    · have hstep : processRow ingestionId reportName capturedAt tbl
          (s, stats) r = (afterRawInsert ingestionId reportName s r, stats) :=
        processRow_empty_key _ _ _ _ _ _ _ hkey
      have hcanon : ∀ t, getCanon (afterRawInsert ingestionId reportName s r) t
          = getCanon s t := fun t => getCanon_update_misc _ _ _ _
      have hrest := ih (afterRawInsert ingestionId reportName s r, stats)
        (fun row hm hk => by
          rw [show ((afterRawInsert ingestionId reportName s r, stats) :
            St × Stats).1 = afterRawInsert ingestionId reportName s r from rfl,
            hcanon tbl]
          exact hprop row (List.mem_cons_of_mem _ hm) hk)
      rw [hstep]
      refine ⟨?_, ?_⟩
      · rw [hrest.1]
        have : (r :: rest).countP (fun r => rowKey r ≠ "") =
            rest.countP (fun r => rowKey r ≠ "") := by
          rw [List.countP_cons]
          simp [hkey]
        rw [this]
      · intro t
        rw [hrest.2 t, hcanon t]
    · obtain ⟨c, hfind, hdata⟩ := hprop r (List.mem_cons_self _ _) hkey
      have hndiff : ¬ (canonicalize c.data ≠ canonicalize (rowStoredData r)) :=
        fun h => h hdata
      have heq : canonicalize c.data = canonicalize (rowStoredData r) := hdata
      have hstep := processRow_unchanged ingestionId reportName capturedAt tbl
        s stats r c hkey hfind heq
      have hproj : ∀ t, (getCanon (processRow ingestionId reportName capturedAt
          tbl (s, stats) r).1 t).map (fun c => (c.uniqueKey, c.data)) =
          (getCanon s t).map (fun c => (c.uniqueKey, c.data)) := by
        intro t
        by_cases ht : t = tbl
        · subst ht
          rw [hstep]
          rw [getCanon_setCanon_same]
          exact map_key_data_patch _ _ (fun x => by
            by_cases hx : x.id = c.id <;> simp [hx])
        · rw [processRow_canon_other _ _ _ _ _ _ _ ht]
      have hrest := ih (processRow ingestionId reportName capturedAt tbl
          (s, stats) r)
        (fun row hm hk => by
          obtain ⟨c₀, hfind₀, hdata₀⟩ := hprop row
            (List.mem_cons_of_mem _ hm) hk
          have hdtr := find?_data_of_proj_eq (rowKey row) (getCanon s tbl)
            (getCanon (processRow ingestionId reportName capturedAt tbl
              (s, stats) r).1 tbl) (hproj tbl)
          rw [hfind₀] at hdtr
          cases hfind₁ : (getCanon (processRow ingestionId reportName
              capturedAt tbl (s, stats) r).1 tbl).find?
                (fun x => x.uniqueKey = rowKey row) with
          | none => rw [hfind₁] at hdtr; simp at hdtr
          | some c₁ =>
            rw [hfind₁] at hdtr
            simp only [Option.map_some', Option.some_inj] at hdtr
            exact ⟨c₁, rfl, (congrArg canonicalize hdtr).trans hdata₀⟩)
      refine ⟨?_, ?_⟩
      · rw [hrest.1]
        have hsnd : (processRow ingestionId reportName capturedAt tbl
            (s, stats) r).2 =
            { stats with unchanged := stats.unchanged + 1 } := by
          rw [hstep]
        rw [hsnd]
        have : (r :: rest).countP (fun r => rowKey r ≠ "") =
            rest.countP (fun r => rowKey r ≠ "") + 1 := by
          rw [List.countP_cons]
          simp [hkey]
        rw [this]
        show (⟨stats.inserted, stats.updated,
          stats.unchanged + 1 + rest.countP (fun r => rowKey r ≠ "")⟩ : Stats)
          = ⟨stats.inserted, stats.updated,
             stats.unchanged + (rest.countP (fun r => rowKey r ≠ "") + 1)⟩
        congr 1
        omega
      · intro t
        rw [hrest.2 t, hproj t]

/-- C1 (amended): provided no two rows of the batch share a non-empty
`__uniqueKey` with content-differing stripped data (in particular when
all keys are distinct), re-running `ingestReport` with the identical
arguments returns `{inserted := 0, updated := 0, unchanged := N}` where
`N` is the number of rows with a non-empty `__uniqueKey`, and leaves the
canonical key/data contents of every table exactly as after the first
run. -/
theorem ingest_rerun_idempotent (args : IngestArgs) (s : St)
    (tbl : TargetTable)
    (hparse : parseTargetTable args.targetTable = some tbl)
    (hwf : CanonWF s)
    (hdup : ∀ r1 ∈ args.rows, ∀ r2 ∈ args.rows,
      rowKey r1 = rowKey r2 → rowKey r1 ≠ "" →
      canonicalize (rowStoredData r1) = canonicalize (rowStoredData r2)) :
    (∃ iid, (ingestReport args (ingestReport args s).1).2 =
      .ok ⟨iid, ⟨0, 0, args.rows.countP (fun r => rowKey r ≠ "")⟩⟩) ∧
    ∀ t, (getCanon (ingestReport args (ingestReport args s).1).1 t).map
        (fun c => (c.uniqueKey, c.data)) =
      (getCanon (ingestReport args s).1 t).map
        (fun c => (c.uniqueKey, c.data)) := by
  have hv1 := ingestReport_valid args s tbl hparse
  have hS1 : (ingestReport args s).1 = finalizeIngestion
      (createIngestion args.reportName args.capturedAt args.sourceKey s).2.1
      args.capturedAt args.rows.length
      (args.rows.foldl
        (processRow
          (createIngestion args.reportName args.capturedAt args.sourceKey s).2.1
          args.reportName args.capturedAt tbl)
        (preState args s, ⟨0, 0, 0⟩)).1 := by rw [hv1]
  have hpost : ∀ row ∈ args.rows, rowKey row ≠ "" →
      ∃ c, (getCanon (ingestReport args s).1 tbl).find?
          (fun x => x.uniqueKey = rowKey row) = some c ∧
        canonicalize c.data = canonicalize (rowStoredData row) := by
    intro row hm hk
    obtain ⟨c, hc, hcd⟩ := foldl_post_content
      (createIngestion args.reportName args.capturedAt args.sourceKey s).2.1
      args.reportName args.capturedAt tbl args.rows
      (preState args s, ⟨0, 0, 0⟩) (preState_canonWF args s hwf) hdup row hm hk
    refine ⟨c, ?_, hcd⟩
    rw [hS1, finalizeIngestion_canon]
    exact hc
  have hS1wf : CanonWF (ingestReport args s).1 :=
    ingestReport_canonWF args s tbl hparse hwf
  have hv2 := ingestReport_valid args (ingestReport args s).1 tbl hparse
  have hprop2 : ∀ row ∈ args.rows, rowKey row ≠ "" →
      ∃ c, (getCanon ((preState args (ingestReport args s).1, (⟨0, 0, 0⟩ : Stats)) :
          St × Stats).1 tbl).find?
            (fun x => x.uniqueKey = rowKey row) = some c ∧
        canonicalize c.data = canonicalize (rowStoredData row) := by
    intro row hm hk
    obtain ⟨c, hc, hcd⟩ := hpost row hm hk
    refine ⟨c, ?_, hcd⟩
    show (getCanon (preState args (ingestReport args s).1) tbl).find? _ = _
    rw [preState_canon]
    exact hc
  obtain ⟨hstats, hproj⟩ := foldl_all_unchanged
    (createIngestion args.reportName args.capturedAt args.sourceKey
      (ingestReport args s).1).2.1
    args.reportName args.capturedAt tbl args.rows
    (preState args (ingestReport args s).1, ⟨0, 0, 0⟩) hprop2
  constructor
  · refine ⟨(createIngestion args.reportName args.capturedAt args.sourceKey
      (ingestReport args s).1).2.1, ?_⟩
    have hsnd : (ingestReport args (ingestReport args s).1).2 =
        .ok ⟨(createIngestion args.reportName args.capturedAt args.sourceKey
            (ingestReport args s).1).2.1,
          (args.rows.foldl
            (processRow
              (createIngestion args.reportName args.capturedAt args.sourceKey
                (ingestReport args s).1).2.1
              args.reportName args.capturedAt tbl)
            (preState args (ingestReport args s).1, ⟨0, 0, 0⟩)).2⟩ := by
      rw [hv2]
    rw [Nat.zero_add] at hstats
    rw [hsnd, hstats]
  · intro t
    have hS2 : (ingestReport args (ingestReport args s).1).1 =
        finalizeIngestion
          (createIngestion args.reportName args.capturedAt args.sourceKey
            (ingestReport args s).1).2.1
          args.capturedAt args.rows.length
          (args.rows.foldl
            (processRow
              (createIngestion args.reportName args.capturedAt args.sourceKey
                (ingestReport args s).1).2.1
              args.reportName args.capturedAt tbl)
            (preState args (ingestReport args s).1, ⟨0, 0, 0⟩)).1 := by
      rw [hv2]
    rw [hS2, finalizeIngestion_canon]
    rw [hproj t]
    show ((getCanon (preState args (ingestReport args s).1) t).map _) = _
    rw [preState_canon]

/-- C1 witness: re-running a concrete distinct-key one-row batch yields
`{0, 0, 1}` and identical canonical contents. -/
theorem ingest_rerun_idempotent_witness :
    parseTargetTable c9Args1.targetTable = some .appointments ∧
    (∀ r1 ∈ c9Args1.rows, ∀ r2 ∈ c9Args1.rows,
      rowKey r1 = rowKey r2 → rowKey r1 ≠ "" →
      canonicalize (rowStoredData r1) = canonicalize (rowStoredData r2)) ∧
    (∃ iid, (ingestReport c9Args1 (ingestReport c9Args1 emptySt).1).2 =
      .ok ⟨iid, ⟨0, 0, c9Args1.rows.countP (fun r => rowKey r ≠ "")⟩⟩) ∧
    ∀ t, (getCanon (ingestReport c9Args1
        (ingestReport c9Args1 emptySt).1).1 t).map
          (fun c => (c.uniqueKey, c.data)) =
      (getCanon (ingestReport c9Args1 emptySt).1 t).map
        (fun c => (c.uniqueKey, c.data)) :=
  ⟨rfl, by decide,
   (ingest_rerun_idempotent c9Args1 emptySt .appointments rfl emptySt_canonWF
     (by decide)).1,
   (ingest_rerun_idempotent c9Args1 emptySt .appointments rfl emptySt_canonWF
     (by decide)).2⟩

/-! ## C7: at most one Ingestion per source, full replacement on
re-ingest -/

theorem foldl_filter_eq (taken : List ReportRow) :
    ∀ init : List ReportRow,
      taken.foldl (fun acc row => acc.filter (fun r => r.id ≠ row.id)) init =
        init.filter (fun r => r.id ∉ taken.map (fun x => x.id)) := by
  induction taken with
  | nil =>
    intro init
    show init = _
    rw [List.filter_eq_self.mpr]
    intro a _
    simp
  | cons t ts ih =>
    intro init
    show ts.foldl _ (init.filter (fun r => r.id ≠ t.id)) = _
    rw [ih]
    rw [List.filter_filter]
    apply List.filter_congr
    intro r _
    by_cases h1 : r.id = t.id <;>
      by_cases h2 : r.id ∈ ts.map (fun x => x.id) <;>
        simp [h1, h2]

theorem filter_not_mem_take :
    ∀ (l : List ReportRow) (n : Nat),
      (l.map (fun r => r.id)).Nodup →
      l.filter (fun r => r.id ∉ (l.take n).map (fun x => x.id)) = l.drop n := by
  intro l
  induction l with
  | nil => intro n _; simp
  | cons x xs ih =>
    intro n hnd
    rw [List.map_cons, List.nodup_cons] at hnd
    obtain ⟨hx, hxs⟩ := hnd
    cases n with
    | zero =>
      rw [List.take_zero, List.drop_zero]
      rw [List.filter_eq_self.mpr]
      intro a _
      simp
    | succ m =>
      show List.filter _ (x :: xs) = xs.drop m
      rw [List.filter_cons]
      have hxfalse : (decide (x.id ∉ ((x :: xs).take (m + 1)).map
          (fun r => r.id)) : Bool) = false := by
        simp [List.take_succ_cons]
      rw [hxfalse]
      have hcong : ∀ a ∈ xs,
          (decide (a.id ∉ ((x :: xs).take (m + 1)).map (fun r => r.id)) : Bool) =
          (decide (a.id ∉ (xs.take m).map (fun r => r.id)) : Bool) := by
        intro a ha
        have hane : a.id ≠ x.id := by
          intro h
          exact hx (h ▸ List.mem_map_of_mem (fun r => r.id) ha)
        simp [List.take_succ_cons, hane]
      rw [List.filter_congr hcong]
      exact ih m hxs

theorem clearRowsBatch_reportRows_eq (ingestionId limit : Nat) (s : St)
    (hnd : (s.reportRows.map (fun r => r.id)).Nodup) :
    (clearRowsBatch ingestionId limit s).1.reportRows =
      s.reportRows.filter (fun r =>
        r.id ∉ (((s.reportRows.filter
          (fun r => r.ingestionId = ingestionId)).take limit).map
            (fun x => x.id))) := by
  show ((s.reportRows.filter (fun r => r.ingestionId = ingestionId)).take
      limit).foldl (fun acc row => acc.filter (fun r => r.id ≠ row.id))
      s.reportRows = _
  rw [foldl_filter_eq]

theorem clearRowsBatch_matching (ingestionId limit : Nat) (s : St)
    (hnd : (s.reportRows.map (fun r => r.id)).Nodup) :
    (clearRowsBatch ingestionId limit s).1.reportRows.filter
        (fun r => r.ingestionId = ingestionId) =
      (s.reportRows.filter (fun r => r.ingestionId = ingestionId)).drop limit := by
  rw [clearRowsBatch_reportRows_eq ingestionId limit s hnd]
  rw [List.filter_filter]
  have hndm : ((s.reportRows.filter (fun r => r.ingestionId = ingestionId)).map
      (fun r => r.id)).Nodup :=
    ((List.filter_sublist s.reportRows).map (fun r => r.id)).nodup hnd
  have hkey := filter_not_mem_take
    (s.reportRows.filter (fun r => r.ingestionId = ingestionId)) limit hndm
  rw [List.filter_filter] at hkey
  rw [← hkey]
  apply List.filter_congr
  intro r _
  by_cases h1 : r.ingestionId = ingestionId <;>
    by_cases h2 : r.id ∈ ((s.reportRows.filter
      (fun r => r.ingestionId = ingestionId)).take limit).map (fun x => x.id) <;>
    simp [h1, h2]

theorem clearRowsBatch_removed (ingestionId limit : Nat) (s : St) :
    (clearRowsBatch ingestionId limit s).2 =
      ((s.reportRows.filter (fun r => r.ingestionId = ingestionId)).take
        limit).length := rfl

theorem clearLoop_clears (ingestionId limit : Nat) (hlim : limit ≠ 0) :
    ∀ (fuel : Nat) (s : St),
      (s.reportRows.filter (fun r => r.ingestionId = ingestionId)).length < fuel →
      (s.reportRows.map (fun r => r.id)).Nodup →
      (clearLoop ingestionId limit fuel s).reportRows.filter
        (fun r => r.ingestionId = ingestionId) = [] := by
  intro fuel
  induction fuel with
  | zero => intro s h; omega
  | succ n ih =>
    intro s hcount hnd
    show (if (clearRowsBatch ingestionId limit s).2 = 0
        then (clearRowsBatch ingestionId limit s).1
        else clearLoop ingestionId limit n
          (clearRowsBatch ingestionId limit s).1).reportRows.filter
            (fun r => r.ingestionId = ingestionId) = []
    split
    · next hzero =>
      rw [clearRowsBatch_removed] at hzero
      rw [List.length_take] at hzero
      have hmzero : (s.reportRows.filter
          (fun r => r.ingestionId = ingestionId)).length = 0 := by omega
      rw [clearRowsBatch_matching ingestionId limit s hnd]
      rw [List.drop_eq_nil_of_le]
      omega
    · next hnz =>
      have hnd' : ((clearRowsBatch ingestionId limit s).1.reportRows.map
          (fun r => r.id)).Nodup :=
        ((clearRowsBatch_reportRows_sublist ingestionId limit s).map
          (fun r => r.id)).nodup hnd
      have hcount' : ((clearRowsBatch ingestionId limit s).1.reportRows.filter
          (fun r => r.ingestionId = ingestionId)).length < n := by
        rw [clearRowsBatch_matching ingestionId limit s hnd]
        rw [List.length_drop]
        rw [clearRowsBatch_removed, List.length_take] at hnz
        omega
      exact ih _ hcount' hnd'

theorem processRow_ingestions (ingestionId : Nat) (reportName : String)
    (capturedAt : Int) (tbl : TargetTable) (acc : St × Stats)
    (row : RowInput) :
    (processRow ingestionId reportName capturedAt tbl acc row).1.ingestions =
      acc.1.ingestions := by
  obtain ⟨s, stats⟩ := acc
  by_cases hkey : rowKey row = ""
  · rw [processRow_empty_key _ _ _ _ _ _ _ hkey]
    rfl
  · cases hfind : (getCanon s tbl).find? (fun c => c.uniqueKey = rowKey row) with
    | none =>
      rw [processRow_insert _ _ _ _ _ _ _ hkey hfind]
      rw [setCanon_ingestions]
      rfl
    | some existing =>
      by_cases hdiff :
          canonicalize existing.data ≠ canonicalize (rowStoredData row)
      · rw [processRow_update _ _ _ _ _ _ _ _ hkey hfind hdiff]
        rw [setCanon_ingestions]
        rfl
      · push_neg at hdiff
        rw [processRow_unchanged _ _ _ _ _ _ _ _ hkey hfind hdiff]
        rw [setCanon_ingestions]
        rfl

theorem foldl_processRow_ingestions (ingestionId : Nat) (reportName : String)
    (capturedAt : Int) (tbl : TargetTable) (rows : List RowInput) :
    ∀ acc : St × Stats,
      (rows.foldl (processRow ingestionId reportName capturedAt tbl)
        acc).1.ingestions = acc.1.ingestions := by
  induction rows with
  | nil => intro acc; rfl
  | cons r rest ih =>
    intro acc
    simp only [List.foldl_cons]
    rw [ih]
    exact processRow_ingestions _ _ _ _ _ _

theorem foldl_processRow_reportRows_mem (ingestionId : Nat)
    (reportName : String) (capturedAt : Int) (tbl : TargetTable)
    (rows : List RowInput) :
    ∀ (acc : St × Stats) (r' : ReportRow),
      r' ∈ (rows.foldl (processRow ingestionId reportName capturedAt tbl)
        acc).1.reportRows →
      r' ∈ acc.1.reportRows ∨ acc.1.nextId ≤ r'.id := by
  induction rows with
  | nil => intro acc r' h; exact Or.inl h
  | cons r rest ih =>
    intro acc r' h
    simp only [List.foldl_cons] at h
    rcases ih _ r' h with hmem | hge
    · rw [processRow_reportRows] at hmem
      rcases List.mem_append.mp hmem with hold | hnew
      · exact Or.inl hold
      · right
        have : r' = ⟨acc.1.nextId, ingestionId, reportName, r.rowIndex,
            rowStoredData r⟩ := by simpa using hnew
        rw [this]
    · right
      exact Nat.le_trans (processRow_nextId_le ingestionId reportName
        capturedAt tbl acc r) hge

/-- `find?` on a key-distinct list returns the member with that key. -/
theorem find?_eq_of_nodup_key :
    ∀ (l : List Ingestion) (a : Ingestion) (key : String),
      (l.map (fun i => i.sourceKey)).Nodup → a ∈ l → a.sourceKey = key →
      l.find? (fun i => i.sourceKey = key) = some a := by
  intro l
  induction l with
  | nil => intro a key _ h; exact absurd h (by simp)
  | cons x xs ih =>
    intro a key hnd hmem hkey
    rw [List.map_cons, List.nodup_cons] at hnd
    obtain ⟨hx, hxs⟩ := hnd
    rcases List.mem_cons.mp hmem with rfl | hmem'
    · rw [List.find?_cons_of_pos]
      simpa using hkey
    · rw [List.find?_cons_of_neg, ih a key hxs hmem' hkey]
      intro hcontra
      have hxk : x.sourceKey = key := by simpa using hcontra
      apply hx
      rw [hxk, ← hkey]
      exact List.mem_map_of_mem (fun i => i.sourceKey) hmem'

/-- The invariant of the pipeline's own tables: source keys are unique,
report-row ids are distinct and below the allocator. -/
def PipeWF (s : St) : Prop :=
  (s.ingestions.map (fun i => i.sourceKey)).Nodup ∧
  (s.reportRows.map (fun r => r.id)).Nodup ∧
  ∀ r ∈ s.reportRows, r.id < s.nextId

theorem createIngestion_pipeWF (reportName : String) (capturedAt : Int)
    (sourceKey : String) (s : St) (h : PipeWF s) :
    PipeWF (createIngestion reportName capturedAt sourceKey s).1 := by
  obtain ⟨hsk, hrid, hrb⟩ := h
  unfold createIngestion
  cases hfind : s.ingestions.find? (fun i => i.sourceKey = sourceKey) with
  | some ex =>
    refine ⟨?_, hrid, hrb⟩
    have : (s.ingestions.map (fun i =>
        if i.id = ex.id then
          { i with reportName := reportName, capturedAt := capturedAt,
                   rowCount := 0 }
        else i)).map (fun i => i.sourceKey) =
        s.ingestions.map (fun i => i.sourceKey) := by
      rw [List.map_map]
      apply List.map_congr_left
      intro a _
      by_cases ha : a.id = ex.id <;> simp [Function.comp, ha]
    dsimp only
    rw [this]
    exact hsk
  | none =>
    refine ⟨?_, hrid, fun r hr => Nat.lt_succ_of_lt (hrb r hr)⟩
    dsimp only
    rw [List.map_append]
    rw [List.nodup_append]
    refine ⟨hsk, by simp, ?_⟩
    intro k hk
    simp only [List.map_cons, List.map_nil, List.mem_singleton]
    intro hcontra
    obtain ⟨i, hi, hik⟩ := List.mem_map.mp hk
    rw [List.find?_eq_none] at hfind
    exact hfind i hi (by simp [hik, hcontra])

theorem clearRowsBatch_pipeWF (ingestionId limit : Nat) (s : St)
    (h : PipeWF s) : PipeWF (clearRowsBatch ingestionId limit s).1 := by
  obtain ⟨hsk, hrid, hrb⟩ := h
  have hsub := clearRowsBatch_reportRows_sublist ingestionId limit s
  exact ⟨hsk, (hsub.map (fun r => r.id)).nodup hrid,
    fun r hr => hrb r (hsub.mem hr)⟩

theorem clearLoop_pipeWF (ingestionId limit : Nat) :
    ∀ (fuel : Nat) (s : St), PipeWF s →
      PipeWF (clearLoop ingestionId limit fuel s) := by
  intro fuel
  induction fuel with
  | zero => intro s h; exact h
  | succ n ih =>
    intro s h
    show PipeWF (if (clearRowsBatch ingestionId limit s).2 = 0
        then (clearRowsBatch ingestionId limit s).1
        else clearLoop ingestionId limit n (clearRowsBatch ingestionId limit s).1)
    split
    · exact clearRowsBatch_pipeWF _ _ _ h
    · exact ih _ (clearRowsBatch_pipeWF _ _ _ h)

theorem processRow_pipeWF (ingestionId : Nat) (reportName : String)
    (capturedAt : Int) (tbl : TargetTable) (acc : St × Stats)
    (row : RowInput) (h : PipeWF acc.1) :
    PipeWF (processRow ingestionId reportName capturedAt tbl acc row).1 := by
  obtain ⟨hsk, hrid, hrb⟩ := h
  have hrows := processRow_reportRows ingestionId reportName capturedAt tbl
    acc row
  have hing := processRow_ingestions ingestionId reportName capturedAt tbl
    acc row
  have hnext := processRow_nextId_le ingestionId reportName capturedAt tbl
    acc row
  refine ⟨by rw [hing]; exact hsk, ?_, ?_⟩
  · rw [hrows, List.map_append]
    rw [List.nodup_append]
    refine ⟨hrid, by simp, ?_⟩
    intro k hk
    simp only [List.map_cons, List.map_nil, List.mem_singleton]
    intro hcontra
    obtain ⟨r, hr, hrk⟩ := List.mem_map.mp hk
    have := hrb r hr
    omega
  · intro r hr
    rw [hrows] at hr
    have hnext1 : acc.1.nextId + 1 ≤
        (processRow ingestionId reportName capturedAt tbl acc row).1.nextId := by
      obtain ⟨s, stats⟩ := acc
      show s.nextId + 1 ≤ _
      by_cases hkey : rowKey row = ""
      · rw [processRow_empty_key _ _ _ _ _ _ _ hkey]
        exact Nat.le_refl _
      · cases hfind : (getCanon s tbl).find?
            (fun c => c.uniqueKey = rowKey row) with
        | none =>
          rw [processRow_insert _ _ _ _ _ _ _ hkey hfind, setCanon_nextId]
          show s.nextId + 1 ≤ s.nextId + 2
          omega
        | some existing =>
          by_cases hdiff :
              canonicalize existing.data ≠ canonicalize (rowStoredData row)
          · rw [processRow_update _ _ _ _ _ _ _ _ hkey hfind hdiff,
              setCanon_nextId]
            exact Nat.le_refl _
          · push_neg at hdiff
            rw [processRow_unchanged _ _ _ _ _ _ _ _ hkey hfind hdiff,
              setCanon_nextId]
            exact Nat.le_refl _
    rcases List.mem_append.mp hr with hold | hnew
    · have := hrb r hold
      omega
    · have : r = ⟨acc.1.nextId, ingestionId, reportName, row.rowIndex,
          rowStoredData row⟩ := by simpa using hnew
      rw [this]
      show acc.1.nextId < _
      omega

theorem foldl_processRow_pipeWF (ingestionId : Nat) (reportName : String)
    (capturedAt : Int) (tbl : TargetTable) (rows : List RowInput) :
    ∀ acc : St × Stats, PipeWF acc.1 →
      PipeWF (rows.foldl
        (processRow ingestionId reportName capturedAt tbl) acc).1 := by
  induction rows with
  | nil => intro acc h; exact h
  | cons r rest ih =>
    intro acc h
    exact ih _ (processRow_pipeWF _ _ _ _ _ _ h)

theorem finalizeIngestion_pipeWF (ingestionId : Nat) (capturedAt : Int)
    (rowCount : Nat) (s : St) (h : PipeWF s) :
    PipeWF (finalizeIngestion ingestionId capturedAt rowCount s) := by
  obtain ⟨hsk, hrid, hrb⟩ := h
  refine ⟨?_, hrid, hrb⟩
  have heq : (s.ingestions.map (fun i =>
      if i.id = ingestionId then
        { i with capturedAt := capturedAt, rowCount := rowCount }
      else i)).map (fun i => i.sourceKey) =
      s.ingestions.map (fun i => i.sourceKey) := by
    rw [List.map_map]
    apply List.map_congr_left
    intro a _
    by_cases ha : a.id = ingestionId <;> simp [Function.comp, ha]
  show ((finalizeIngestion ingestionId capturedAt rowCount s).ingestions.map
    (fun i => i.sourceKey)).Nodup
  unfold finalizeIngestion
  dsimp only
  rw [heq]
  exact hsk

theorem protoRawInsert_pipeWF (ingestionId : Nat) (reportName : String)
    (s : St) (row : RowInput) (h : PipeWF s) :
    PipeWF (protoRawInsert ingestionId reportName s row) := by
  obtain ⟨hsk, hrid, hrb⟩ := h
  refine ⟨hsk, ?_, ?_⟩
  · show ((s.reportRows ++ [(⟨s.nextId, ingestionId, reportName, row.rowIndex,
        rowStoredData row⟩ : ReportRow)]).map (fun r => r.id)).Nodup
    rw [List.map_append, List.nodup_append]
    refine ⟨hrid, by simp, ?_⟩
    intro a ha hb
    simp at hb
    subst hb
    obtain ⟨r, hr, hra⟩ := List.mem_map.mp ha
    have := hrb r hr
    omega
  · intro r hr
    show r.id < s.nextId + 1
    rcases List.mem_append.mp hr with hold | hnew
    · have := hrb r hold
      omega
    · have : r = ⟨s.nextId, ingestionId, reportName, row.rowIndex,
        rowStoredData row⟩ := by simpa using hnew
      rw [this]
      exact Nat.lt_succ_self _

theorem foldl_protoRawInsert_pipeWF (ingestionId : Nat)
    (reportName : String) :
    ∀ (rows : List RowInput) (s : St), PipeWF s →
      PipeWF (rows.foldl (protoRawInsert ingestionId reportName) s) := by
  intro rows
  induction rows with
  | nil => intro s h; exact h
  | cons r rest ih =>
    intro s h
    exact ih _ (protoRawInsert_pipeWF _ _ _ _ h)

theorem runChunks_pipeWF (ingestionId : Nat) (reportName : String)
    (capturedAt : Int) (targetTable : String) :
    ∀ (chunks : List (List RowInput)) (s : St) (acc : Stats), PipeWF s →
      PipeWF (runChunks ingestionId reportName capturedAt targetTable
        chunks s acc).1 := by
  intro chunks
  induction chunks with
  | nil => intro s acc h; exact h
  | cons chunk rest ih =>
    intro s acc h
    show PipeWF (match processRowsBatch ingestionId reportName capturedAt
        targetTable chunk s with
      | .error e => (s, Except.error e)
      | .ok (s', delta) => runChunks ingestionId reportName capturedAt
          targetTable rest s' (mergeStats acc delta)).1
    unfold processRowsBatch
    cases hlook : lookupTableConfig targetTable with
    | none => exact h
    | some ref =>
      cases ref with
      | table tbl =>
        exact ih _ _ (foldl_processRow_pipeWF _ _ _ tbl chunk (s, ⟨0, 0, 0⟩) h)
      | protoMember =>
        by_cases hall : (chunk.all fun row => rowKey row = "") = true
        · rw [if_pos hall]
          exact ih _ _ (foldl_protoRawInsert_pipeWF _ _ chunk s h)
        · rw [if_neg hall]
          exact h

theorem ingestReport_pipeWF (args : IngestArgs) (s : St) (h : PipeWF s) :
    PipeWF (ingestReport args s).1 := by
  simp only [ingestReport]
  have h1 : PipeWF (createIngestion args.reportName args.capturedAt
      args.sourceKey s).1 :=
    createIngestion_pipeWF _ _ _ _ h
  set prep := createIngestion args.reportName args.capturedAt args.sourceKey s
  set s2 := if prep.2.2 = true
      then clearLoop prep.2.1 CLEAR_LIMIT (prep.1.reportRows.length + 1) prep.1
      else prep.1 with hs2
  have h2 : PipeWF s2 := by
    rw [hs2]
    split
    · exact clearLoop_pipeWF _ _ _ _ h1
    · exact h1
  have h3 := runChunks_pipeWF prep.2.1 args.reportName args.capturedAt
    args.targetTable (chunkRows args.rows CHUNK_SIZE) s2 ⟨0, 0, 0⟩ h2
  cases hres : (runChunks prep.2.1 args.reportName args.capturedAt
      args.targetTable (chunkRows args.rows CHUNK_SIZE) s2 ⟨0, 0, 0⟩).2 with
  | error e =>
    simp only [hres]
    exact h3
  | ok stats =>
    simp only [hres]
    exact finalizeIngestion_pipeWF _ _ _ _ h3

/-- The states reachable by running the `ingestReport` action from the
empty deployment. -/
inductive Reachable : St → Prop
  | init : Reachable emptySt
  | step (args : IngestArgs) {s : St} :
      Reachable s → Reachable (ingestReport args s).1

theorem reachable_pipeWF {s : St} (h : Reachable s) : PipeWF s := by
  induction h with
  | init =>
    refine ⟨by simp [emptySt], by simp [emptySt], ?_⟩
    intro r hr
    simp [emptySt] at hr
  | step args _ ih => exact ingestReport_pipeWF args _ ih

theorem preState_ingestions (args : IngestArgs) (s : St) :
    (preState args s).ingestions =
      (createIngestion args.reportName args.capturedAt args.sourceKey
        s).1.ingestions := by
  simp only [preState]
  split
  · rw [clearLoop_ingestions]
  · rfl

theorem preState_reportRows_sublist (args : IngestArgs) (s : St) :
    (preState args s).reportRows.Sublist
      (createIngestion args.reportName args.capturedAt args.sourceKey
        s).1.reportRows := by
  simp only [preState]
  split
  · exact clearLoop_reportRows_sublist _ _ _ _
  · exact List.Sublist.refl _

/-- The canonical key sequences only ever grow, across a whole call. -/
theorem ingestReport_keysExtend (args : IngestArgs) (s : St)
    (t : TargetTable) :
    KeysExtend (getCanon s t) (getCanon (ingestReport args s).1 t) := by
  simp only [ingestReport]
  set prep := createIngestion args.reportName args.capturedAt args.sourceKey s
    with hprep
  set s2 := if prep.2.2 = true
      then clearLoop prep.2.1 CLEAR_LIMIT (prep.1.reportRows.length + 1) prep.1
      else prep.1 with hs2
  have h2 : getCanon s2 t = getCanon s t := by
    rw [hs2]
    split
    · rw [clearLoop_canon, hprep, createIngestion_canon]
    · rw [hprep, createIngestion_canon]
  have hrun := runChunks_keysExtend prep.2.1 args.reportName args.capturedAt
    args.targetTable t (chunkRows args.rows CHUNK_SIZE) s2 ⟨0, 0, 0⟩
  rw [h2] at hrun
  cases hres : (runChunks prep.2.1 args.reportName args.capturedAt
      args.targetTable (chunkRows args.rows CHUNK_SIZE) s2 ⟨0, 0, 0⟩).2 with
  | error e =>
    simp only [hres]
    exact hrun
  | ok stats =>
    simp only [hres]
    exact hrun.trans (.of_eq (finalizeIngestion_canon _ _ _ _ _))

/-- C7: at every reachable state there is at most one Ingestion per
`sourceKey`; re-ingesting an already-seen `sourceKey` (with a known
target table) replaces the prior Ingestion's metadata in place (same
document id, fresh `reportName` / `capturedAt` / `rowCount`), deletes all
of its prior raw ReportRow copies, and leaves every canonical key in
place. -/
theorem ingestion_unique_and_replacing (S : St) (hreach : Reachable S) :
    (S.ingestions.map (fun i => i.sourceKey)).Nodup ∧
    ∀ (args : IngestArgs) (tbl : TargetTable),
      parseTargetTable args.targetTable = some tbl →
      ∀ ing ∈ S.ingestions, ing.sourceKey = args.sourceKey →
      (∃ i' ∈ (ingestReport args S).1.ingestions,
        i'.id = ing.id ∧ i'.sourceKey = ing.sourceKey ∧
        i'.reportName = args.reportName ∧ i'.capturedAt = args.capturedAt ∧
        i'.rowCount = args.rows.length) ∧
      (∀ r ∈ S.reportRows, r.ingestionId = ing.id →
        ∀ r' ∈ (ingestReport args S).1.reportRows, r'.id ≠ r.id) ∧
      (∀ t, ∃ tail,
        (getCanon (ingestReport args S).1 t).map (fun c => c.uniqueKey) =
          (getCanon S t).map (fun c => c.uniqueKey) ++ tail) := by
  obtain ⟨hsk, hrid, hrb⟩ := reachable_pipeWF hreach
  refine ⟨hsk, ?_⟩
  intro args tbl hparse ing hmem hingsk
  have hfind : S.ingestions.find? (fun i => i.sourceKey = args.sourceKey) =
      some ing :=
    find?_eq_of_nodup_key S.ingestions ing args.sourceKey hsk hmem hingsk
  have hci : createIngestion args.reportName args.capturedAt args.sourceKey S =
      ({ S with ingestions := S.ingestions.map (fun i =>
          if i.id = ing.id then
            { i with reportName := args.reportName,
                     capturedAt := args.capturedAt, rowCount := 0 }
          else i) },
       (ing.id, true)) := by
    unfold createIngestion
    rw [hfind]
  have hv := ingestReport_valid args S tbl hparse
  have hS' : (ingestReport args S).1 = finalizeIngestion
      (createIngestion args.reportName args.capturedAt args.sourceKey S).2.1
      args.capturedAt args.rows.length
      (args.rows.foldl
        (processRow
          (createIngestion args.reportName args.capturedAt args.sourceKey S).2.1
          args.reportName args.capturedAt tbl)
        (preState args S, ⟨0, 0, 0⟩)).1 := by rw [hv]
  have hiid : (createIngestion args.reportName args.capturedAt
      args.sourceKey S).2.1 = ing.id := by rw [hci]
  have hfolding : (args.rows.foldl
      (processRow
        (createIngestion args.reportName args.capturedAt args.sourceKey S).2.1
        args.reportName args.capturedAt tbl)
      (preState args S, ⟨0, 0, 0⟩)).1.ingestions =
      S.ingestions.map (fun i =>
        if i.id = ing.id then
          { i with reportName := args.reportName,
                   capturedAt := args.capturedAt, rowCount := 0 }
        else i) := by
    rw [foldl_processRow_ingestions]
    show (preState args S).ingestions = _
    rw [preState_ingestions, hci]
  have hpre : preState args S = clearLoop ing.id CLEAR_LIMIT
      (S.reportRows.length + 1)
      { S with ingestions := S.ingestions.map (fun i =>
          if i.id = ing.id then
            { i with reportName := args.reportName,
                     capturedAt := args.capturedAt, rowCount := 0 }
          else i) } := by
    simp only [preState, hci, if_true]
  refine ⟨?_, ?_, ?_⟩
  · -- metadata replaced in place
    rw [hS']
    show ∃ i' ∈ ((args.rows.foldl
        (processRow
          (createIngestion args.reportName args.capturedAt args.sourceKey S).2.1
          args.reportName args.capturedAt tbl)
        (preState args S, ⟨0, 0, 0⟩)).1.ingestions.map (fun i =>
          if i.id = (createIngestion args.reportName args.capturedAt
              args.sourceKey S).2.1 then
            { i with capturedAt := args.capturedAt,
                     rowCount := args.rows.length }
          else i)), _
    rw [hfolding, hiid]
    refine ⟨_, List.mem_map_of_mem _ (List.mem_map_of_mem _ hmem), ?_⟩
    simp
  · -- prior raw rows are gone
    intro r hr hrid2 r' hr'
    rw [hS'] at hr'
    have hr'2 : r' ∈ (args.rows.foldl
        (processRow
          (createIngestion args.reportName args.capturedAt args.sourceKey S).2.1
          args.reportName args.capturedAt tbl)
        (preState args S, ⟨0, 0, 0⟩)).1.reportRows := hr'
    rcases foldl_processRow_reportRows_mem _ _ _ _ args.rows
        (preState args S, ⟨0, 0, 0⟩) r' hr'2 with hold | hge
    · -- survivors of the clearing loop never carry the old ingestion id
      have holdpre : r' ∈ (preState args S).reportRows := hold
      rw [hpre] at holdpre
      have hclean := clearLoop_clears ing.id CLEAR_LIMIT (by decide)
        (S.reportRows.length + 1)
        { S with ingestions := S.ingestions.map (fun i =>
            if i.id = ing.id then
              { i with reportName := args.reportName,
                       capturedAt := args.capturedAt, rowCount := 0 }
            else i) }
        (by
          show (S.reportRows.filter _).length < S.reportRows.length + 1
          have := List.length_filter_le
            (fun r => decide (r.ingestionId = ing.id)) S.reportRows
          omega)
        hrid
      have hnotmatch : r'.ingestionId ≠ ing.id := by
        intro hcontra
        have : r' ∈ (clearLoop ing.id CLEAR_LIMIT (S.reportRows.length + 1)
            { S with ingestions := S.ingestions.map (fun i =>
                if i.id = ing.id then
                  { i with reportName := args.reportName,
                           capturedAt := args.capturedAt, rowCount := 0 }
                else i) }).reportRows.filter
              (fun r => r.ingestionId = ing.id) :=
          List.mem_filter.mpr ⟨holdpre, by simp [hcontra]⟩
        rw [hclean] at this
        simp at this
      intro hideq
      have hr'S : r' ∈ S.reportRows :=
        (clearLoop_reportRows_sublist _ _ _ _).mem holdpre
      have : r' = r := List.inj_on_of_nodup_map hrid hr'S hr hideq
      rw [this] at hnotmatch
      exact hnotmatch hrid2
    · -- fresh rows have ids above the old allocator
      intro hideq
      have h1 : S.nextId ≤ (preState args S).nextId := preState_nextId_le args S
      have h2 : r.id < S.nextId := hrb r hr
      have h3 : (preState args S).nextId ≤ r'.id := hge
      omega
  · -- canonical keys stay in place
    intro t
    exact ingestReport_keysExtend args S t

def c7Args : IngestArgs :=
  ⟨"R", 5, "src", "appointments", [⟨0, [("__uniqueKey", "k"), ("a", "1")]⟩]⟩

/-- C7 witness: the uniqueness-and-replacement theorem applied at the
concrete reachable state obtained by one ingestion from the empty state. -/
theorem ingestion_unique_and_replacing_witness :
    (((ingestReport c7Args emptySt).1.ingestions.map
        (fun i => i.sourceKey)).Nodup ∧
      ∀ (args : IngestArgs) (tbl : TargetTable),
        parseTargetTable args.targetTable = some tbl →
        ∀ ing ∈ (ingestReport c7Args emptySt).1.ingestions,
          ing.sourceKey = args.sourceKey →
        (∃ i' ∈ (ingestReport args (ingestReport c7Args emptySt).1).1.ingestions,
          i'.id = ing.id ∧ i'.sourceKey = ing.sourceKey ∧
          i'.reportName = args.reportName ∧ i'.capturedAt = args.capturedAt ∧
          i'.rowCount = args.rows.length) ∧
        (∀ r ∈ (ingestReport c7Args emptySt).1.reportRows,
          r.ingestionId = ing.id →
          ∀ r' ∈ (ingestReport args (ingestReport c7Args emptySt).1).1.reportRows,
            r'.id ≠ r.id) ∧
        (∀ t, ∃ tail,
          (getCanon (ingestReport args (ingestReport c7Args emptySt).1).1 t).map
              (fun c => c.uniqueKey) =
            (getCanon (ingestReport c7Args emptySt).1 t).map
              (fun c => c.uniqueKey) ++ tail)) :=
  ingestion_unique_and_replacing (ingestReport c7Args emptySt).1
    (Reachable.step c7Args Reachable.init)
